import Mathlib

/-!
# Containers, iterators and visitors of `DataStructureImplementation.cpp`

A shallow embedding of the two node-based containers (`dlist`, `bstree`), of the
type-erased `Iterator` and of `Visitor`-driven traversal.

Modelling conventions.

* A node pointer is `Ptr = Option Nat`: `none` is `nullptr`, `some a` is the address of a
  cell.  Each node type lives in its own heap, a list of cells; `new` appends a cell (its
  address is the old length of the heap, hence fresh), `delete` turns the cell into `none`,
  and reading or writing through a null or deleted pointer is undefined behaviour, modelled
  by the result `none`.
* The element type `T` is instantiated with `int` as in `main`; `int` is taken as the
  mathematical integers (`Int`), both for elements and for `the_size`.
* Recursive functions and loops over pointers take a `fuel : Nat` argument and return `none`
  when it runs out; the theorems show that enough fuel always gives a result.
* `accept` is instrumented: besides its effect it returns the list of events (entering a node
  in the recursive tree walk, querying `finished()`, calling `visit`).
-/

namespace DS

/-- A node pointer; `none` is `nullptr`. -/
abbrev Ptr := Option Nat

/-! ## Visitors -/

/-- `Visitor<int>`: a state, the effect of `visit(int& x)` on the state and on the element,
and the predicate `finished()`. -/
structure Visitor (σ : Type) where
  visit : σ → Int → σ × Int
  finished : σ → Bool

/-- What an instrumented `accept` records. -/
inductive Event where
  | enter (a : Nat)
  | query (result : Bool)
  | visit (a : Nat) (x : Int)
  deriving DecidableEq, Repr

/-! ## Heaps -/

/-- A heap of cells of type `α`; a deleted cell is `none`. -/
abbrev Heap (α : Type) := List (Option α)

/-- Reading the cell at address `a`; `none` when `a` is not the address of a live cell. -/
def Heap.deref {α : Type} (h : Heap α) (a : Nat) : Option α := (h[a]?).join

/-- The heap after `new`: the cell is appended, its address is `h.length`. -/
def Heap.alloc {α : Type} (h : Heap α) (n : α) : Heap α := h ++ [some n]

/-- Overwriting the cell at address `a`. -/
def Heap.write {α : Type} (h : Heap α) (a : Nat) (n : α) : Heap α := h.set a (some n)

/-- The heap after `delete` of the cell at address `a`. -/
def Heap.free {α : Type} (h : Heap α) (a : Nat) : Heap α := h.set a none

/-! ## Doubly linked lists -/

/-- `struct dlist::node`. -/
structure dlist.node where
  data : Int
  next : Ptr
  prev : Ptr
  deriving DecidableEq, Repr

/-- The heap of list nodes. -/
abbrev LHeap := Heap dlist.node

/-- The members `the_front`, `the_back`, `the_size` of a `dlist` object. -/
structure dlist where
  the_front : Ptr
  the_back : Ptr
  the_size : Int
  deriving DecidableEq, Repr

/-- The constructor `dlist()`. -/
def dlist.mk_empty : dlist := ⟨none, none, 0⟩

/-- The method `size()`. -/
def dlist.size (l : dlist) : Int := l.the_size

/-- The method `empty()` inherited from `Container`. -/
def dlist.empty (l : dlist) : Bool := l.size == 0

/-- The method `push_back(const T& x)`. -/
def dlist.push_back (h : LHeap) (l : dlist) (x : Int) : Option (LHeap × dlist) :=
  let p := h.length
  let h0 := h.alloc (dlist.node.mk x none l.the_back)
  match l.the_back with
  | some b =>
    match h0.deref b with
    | none => none
    | some n =>
      some (h0.write b { n with next := some p },
        { l with the_back := some p, the_size := l.the_size + 1 })
  | none =>
    some (h0, { the_front := some p, the_back := some p, the_size := l.the_size + 1 })

/-- The method `push_front(const T& x)`. -/
def dlist.push_front (h : LHeap) (l : dlist) (x : Int) : Option (LHeap × dlist) :=
  let p := h.length
  let h0 := h.alloc (dlist.node.mk x l.the_front none)
  match l.the_front with
  | some f =>
    match h0.deref f with
    | none => none
    | some n =>
      some (h0.write f { n with prev := some p },
        { l with the_front := some p, the_size := l.the_size + 1 })
  | none =>
    some (h0, { the_front := some p, the_back := some p, the_size := l.the_size + 1 })

/-- The method `pop_back()`. -/
def dlist.pop_back (h : LHeap) (l : dlist) : Option (LHeap × dlist) :=
  match l.the_back with
  | none => none
  | some p =>
    match h.deref p with
    | none => none
    | some pn =>
      match pn.prev with
      | some b =>
        match h.deref b with
        | none => none
        | some n =>
          some ((h.write b { n with next := none }).free p,
            { l with the_back := some b, the_size := l.the_size - 1 })
      | none =>
        some (h.free p, { the_front := none, the_back := none, the_size := l.the_size - 1 })

/-- The method `pop_front()`. -/
def dlist.pop_front (h : LHeap) (l : dlist) : Option (LHeap × dlist) :=
  match l.the_front with
  | none => none
  | some p =>
    match h.deref p with
    | none => none
    | some pn =>
      match pn.next with
      | some f =>
        match h.deref f with
        | none => none
        | some n =>
          some ((h.write f { n with prev := none }).free p,
            { l with the_front := some f, the_size := l.the_size - 1 })
      | none =>
        some (h.free p, { the_front := none, the_back := none, the_size := l.the_size - 1 })

/-- The loop of the private `purge()`, as a function of its variable `p`. -/
def dlist.purge_loop : Nat → LHeap → Ptr → Option LHeap
  | 0, _, _ => none
  | _ + 1, h, none => some h
  | fuel + 1, h, some q =>
    match h.deref q with
    | none => none
    | some n => dlist.purge_loop fuel (h.free q) n.next

/-- The private `purge()`. -/
def dlist.purge (fuel : Nat) (h : LHeap) (l : dlist) : Option LHeap :=
  dlist.purge_loop fuel h l.the_front

/-- The method `clear()`. -/
def dlist.clear (fuel : Nat) (h : LHeap) (l : dlist) : Option (LHeap × dlist) :=
  match dlist.purge fuel h l with
  | none => none
  | some h1 => some (h1, { the_front := none, the_back := none, the_size := 0 })

/-- The loop of `accept(Visitor<T>& visitor)`, as a function of its variable `p`,
instrumented: the result is the heap (elements may have been changed by `visit`), the
visitor's state and the events in the order they happened. -/
def dlist.accept_loop {σ : Type} (V : Visitor σ) :
    Nat → LHeap → σ → Ptr → Option (LHeap × σ × List Event)
  | 0, _, _, _ => none
  | _ + 1, h, s, none => some (h, s, [])
  | fuel + 1, h, s, some a =>
    if V.finished s then some (h, s, [Event.query true])
    else
      match h.deref a with
      | none => none
      | some n =>
        match (h.write a { n with data := (V.visit s n.data).2 }).deref a with
        | none => none
        | some n1 =>
          match dlist.accept_loop V fuel (h.write a { n with data := (V.visit s n.data).2 })
              (V.visit s n.data).1 n1.next with
          | none => none
          | some (h2, s2, e2) =>
            some (h2, s2, Event.query false :: Event.visit a n.data :: e2)

/-- The method `accept(Visitor<T>& visitor)`. -/
def dlist.accept {σ : Type} (V : Visitor σ) (fuel : Nat) (h : LHeap) (l : dlist) (s : σ) :
    Option (LHeap × σ × List Event) :=
  dlist.accept_loop V fuel h s l.the_front

/-! ## Binary-search trees -/

/-- `struct bstree::node`. -/
structure bstree.node where
  data : Int
  left : Ptr
  right : Ptr
  parent : Ptr
  deriving DecidableEq, Repr

/-- The heap of tree nodes. -/
abbrev THeap := Heap bstree.node

/-- The members `root`, `the_size` of a `bstree` object. -/
structure bstree where
  root : Ptr
  the_size : Int
  deriving DecidableEq, Repr

/-- The constructor `bstree()`. -/
def bstree.mk_empty : bstree := ⟨none, 0⟩

/-- The method `size()`. -/
def bstree.size (t : bstree) : Int := t.the_size

/-- The method `empty()` inherited from `Container`. -/
def bstree.empty (t : bstree) : Bool := t.size == 0

/-- The private `static bool insert(node* t, const T& x)`. -/
def bstree.insert_node : Nat → THeap → Ptr → Int → Option (THeap × Bool)
  | 0, _, _, _ => none
  | _ + 1, _, none, _ => none
  | fuel + 1, h, some a, x =>
    match h.deref a with
    | none => none
    | some n =>
      if x < n.data then
        match n.left with
        | none =>
          some ((h.alloc (bstree.node.mk x none none (some a))).write a
            { n with left := some h.length }, true)
        | some l => bstree.insert_node fuel h (some l) x
      else if x > n.data then
        match n.right with
        | none =>
          some ((h.alloc (bstree.node.mk x none none (some a))).write a
            { n with right := some h.length }, true)
        | some r => bstree.insert_node fuel h (some r) x
      else some (h, false)

/-- The public `void insert(const T& x)`. -/
def bstree.insert (fuel : Nat) (h : THeap) (t : bstree) (x : Int) : Option (THeap × bstree) :=
  match t.root with
  | none =>
    some (h.alloc (bstree.node.mk x none none none),
      { t with root := some h.length, the_size := t.the_size + 1 })
  | some r =>
    match bstree.insert_node fuel h (some r) x with
    | none => none
    | some (h1, true) => some (h1, { t with the_size := t.the_size + 1 })
    | some (h1, false) => some (h1, t)

/-- The private `static void purge(node* t)`. -/
def bstree.purge : Nat → THeap → Ptr → Option THeap
  | 0, _, _ => none
  | _ + 1, h, none => some h
  | fuel + 1, h, some a =>
    match h.deref a with
    | none => none
    | some n =>
      match bstree.purge fuel h n.left with
      | none => none
      | some h1 =>
        match h1.deref a with
        | none => none
        | some n1 =>
          match bstree.purge fuel h1 n1.right with
          | none => none
          | some h2 =>
            match h2.deref a with
            | none => none
            | some _ => some (h2.free a)

/-- The method `clear()`. -/
def bstree.clear (fuel : Nat) (h : THeap) (t : bstree) : Option (THeap × bstree) :=
  match bstree.purge fuel h t.root with
  | none => none
  | some h1 => some (h1, { t with root := none, the_size := 0 })

/-- The private `static node* leftdown(node* t)`. -/
def bstree.leftdown : Nat → THeap → Ptr → Option Ptr
  | 0, _, _ => none
  | _ + 1, _, none => some none
  | fuel + 1, h, some a =>
    match h.deref a with
    | none => none
    | some n =>
      match n.left with
      | none => some (some a)
      | some l => bstree.leftdown fuel h (some l)

/-- The private `static node* leftup(node* t)`. -/
def bstree.leftup : Nat → THeap → Ptr → Option Ptr
  | 0, _, _ => none
  | _ + 1, _, none => none
  | fuel + 1, h, some a =>
    match h.deref a with
    | none => none
    | some n =>
      match n.parent with
      | none => some none
      | some p =>
        match h.deref p with
        | none => none
        | some pn =>
          if pn.left = some a then some (some p)
          else bstree.leftup fuel h (some p)

/-- The private `static void accept(Visitor<T>& visitor, node* t)`, instrumented: the
result is the heap (elements may have been changed by `visit`), the visitor's state and the
events in the order they happened. -/
def bstree.accept_node {σ : Type} (V : Visitor σ) :
    Nat → THeap → σ → Ptr → Option (THeap × σ × List Event)
  | 0, _, _, _ => none
  | _ + 1, h, s, none => some (h, s, [])
  | fuel + 1, h, s, some a =>
    match h.deref a with
    | none => none
    | some n =>
      match bstree.accept_node V fuel h s n.left with
      | none => none
      | some (h1, s1, e1) =>
        if V.finished s1 then some (h1, s1, Event.enter a :: e1 ++ [Event.query true])
        else
          match h1.deref a with
          | none => none
          | some n1 =>
            match (h1.write a { n1 with data := (V.visit s1 n1.data).2 }).deref a with
            | none => none
            | some n2 =>
              match bstree.accept_node V fuel
                  (h1.write a { n1 with data := (V.visit s1 n1.data).2 })
                  (V.visit s1 n1.data).1 n2.right with
              | none => none
              | some (h3, s3, e3) =>
                some (h3, s3, Event.enter a :: e1 ++
                  [Event.query false, Event.visit a n1.data] ++ e3)

/-- The public `void accept(Visitor<T>& visitor)`. -/
def bstree.accept {σ : Type} (V : Visitor σ) (fuel : Nat) (h : THeap) (t : bstree) (s : σ) :
    Option (THeap × σ × List Event) :=
  bstree.accept_node V fuel h s t.root

/-! ## Iterators -/

/-- The memory an iterator can point into: the list nodes and the tree nodes. -/
structure Mem where
  lheap : LHeap
  theap : THeap
  deriving DecidableEq, Repr

/-- A machine address: null, or the address of a list node or of a tree node.  Distinct
objects have distinct addresses. -/
inductive Addr where
  | null
  | lnode (a : Nat)
  | tnode (a : Nat)
  deriving DecidableEq, Repr

/-- The result of `typeid` on the classes of the iterator machinery. -/
inductive TypeInfo where
  | Iterator
  | ListIteratorImpl
  | TreeIteratorImpl
  deriving DecidableEq, Repr

/-- `Iterator<T>::Impl` with its two subclasses `dlist::ListIteratorImpl` and
`bstree::TreeIteratorImpl`, each holding the member `ptr`. -/
inductive Iterator.Impl where
  | ListIteratorImpl (ptr : Ptr)
  | TreeIteratorImpl (ptr : Ptr)
  deriving DecidableEq, Repr

/-- The class `Iterator<T>`, holding the member `impl`. -/
structure Iterator where
  impl : Iterator.Impl
  deriving DecidableEq, Repr

/-- The method `clone()`: a new object of the same class with the same `ptr`. -/
def Iterator.Impl.clone : Iterator.Impl → Iterator.Impl
  | .ListIteratorImpl ptr => .ListIteratorImpl ptr
  | .TreeIteratorImpl ptr => .TreeIteratorImpl ptr

/-- The method `access()`, read: the value of the element referred to (`ptr->data`). -/
def Iterator.Impl.access (m : Mem) : Iterator.Impl → Option Int
  | .ListIteratorImpl none => none
  | .ListIteratorImpl (some a) => (m.lheap.deref a).map (·.data)
  | .TreeIteratorImpl none => none
  | .TreeIteratorImpl (some a) => (m.theap.deref a).map (·.data)

/-- The method `TreeIteratorImpl::advance()`, as a function of the member `ptr`. -/
def bstree.TreeIteratorImpl.advance (fuel : Nat) (h : THeap) (ptr : Ptr) : Option Ptr :=
  match ptr with
  | none => some none
  | some a =>
    match h.deref a with
    | none => none
    | some n =>
      match n.right with
      | some r => bstree.leftdown fuel h (some r)
      | none => bstree.leftup fuel h (some a)

/-- The method `ListIteratorImpl::advance()`, as a function of the member `ptr`. -/
def dlist.ListIteratorImpl.advance (h : LHeap) (ptr : Ptr) : Option Ptr :=
  match ptr with
  | none => none
  | some a => (h.deref a).map (·.next)

/-- The method `advance()`. -/
def Iterator.Impl.advance (fuel : Nat) (m : Mem) : Iterator.Impl → Option Iterator.Impl
  | .ListIteratorImpl ptr => (dlist.ListIteratorImpl.advance m.lheap ptr).map .ListIteratorImpl
  | .TreeIteratorImpl ptr =>
    (bstree.TreeIteratorImpl.advance fuel m.theap ptr).map .TreeIteratorImpl

/-- The member `ptr` as the machine address it holds. -/
def Iterator.Impl.address : Iterator.Impl → Addr
  | .ListIteratorImpl none => .null
  | .ListIteratorImpl (some a) => .lnode a
  | .TreeIteratorImpl none => .null
  | .TreeIteratorImpl (some a) => .tnode a

/-- The method `equal(const Impl& i)`.  Both overrides cast `&i` to their own class without
a check and compare the `ptr` members; the two classes have the same layout (one pointer
member), so the comparison is between the addresses held, whatever the class of `i`. -/
def Iterator.Impl.equal (self i : Iterator.Impl) : Bool :=
  self.address == i.address

/-- The expression `typeid(*this)` inside `Iterator<T>`: the class has no virtual member,
so this is its static type. -/
def Iterator.typeid (_ : Iterator) : TypeInfo := TypeInfo.Iterator

/-- The copy constructor `Iterator(const Iterator& i)`. -/
def Iterator.copy (i : Iterator) : Iterator := ⟨i.impl.clone⟩

/-- The value of `*i` (`operator*`). -/
def Iterator.deref (m : Mem) (i : Iterator) : Option Int := i.impl.access m

/-- Prefix `++i` (`operator++()`): the iterator after the call, which is also the object the
returned reference denotes. -/
def Iterator.pre_incr (fuel : Nat) (m : Mem) (i : Iterator) : Option Iterator :=
  (i.impl.advance fuel m).map Iterator.mk

/-- The operator `operator==`. -/
def Iterator.eq (self i : Iterator) : Bool :=
  self.typeid == i.typeid && self.impl.equal i.impl

/-- The operator `operator!=`. -/
def Iterator.ne (self i : Iterator) : Bool := !(self.eq i)

/-- The method `dlist::begin()`. -/
def dlist.begin (l : dlist) : Iterator := ⟨.ListIteratorImpl l.the_front⟩

/-- The method `dlist::end()`. -/
def dlist.end (_ : dlist) : Iterator := ⟨.ListIteratorImpl none⟩

/-- The method `bstree::begin()`. -/
def bstree.begin (fuel : Nat) (h : THeap) (t : bstree) : Option Iterator :=
  (bstree.leftdown fuel h t.root).map fun p => ⟨.TreeIteratorImpl p⟩

/-- The method `bstree::end()`. -/
def bstree.end (_ : bstree) : Iterator := ⟨.TreeIteratorImpl none⟩

/-- The range-based `for` loop over an `Iterable` (as in `print`), from the iterator `it` to
`e`: `for (; it != e; ++it) { T& x = *it; ... }`.  The result lists each position with the
element found there.  `fuel` bounds each `++it`, the first `Nat` argument the iterations. -/
def Iterator.range (fuel : Nat) (m : Mem) (e : Iterator) :
    Nat → Iterator → Option (List (Iterator × Int))
  | 0, _ => none
  | k + 1, it =>
    if it.ne e then
      match it.deref m with
      | none => none
      | some x =>
        match it.pre_incr fuel m with
        | none => none
        | some it1 =>
          match Iterator.range fuel m e k it1 with
          | none => none
          | some rest => some ((it, x) :: rest)
    else some []

/-- The traversal of a `dlist` from `begin()` to `end()`. -/
def dlist.traverse (fuel : Nat) (m : Mem) (l : dlist) : Option (List (Iterator × Int)) :=
  Iterator.range fuel m l.end fuel l.begin

/-- The traversal of a `bstree` from `begin()` to `end()`. -/
def bstree.traverse (fuel : Nat) (m : Mem) (t : bstree) : Option (List (Iterator × Int)) :=
  match bstree.begin fuel m.theap t with
  | none => none
  | some b => Iterator.range fuel m t.end fuel b

/-! ## Abstract shape of a tree in the heap -/

/-- The shape of a tree laid out in the heap: each node with its address and element. -/
inductive Shape where
  | nil
  | node (l : Shape) (a : Nat) (v : Int) (r : Shape)
  deriving DecidableEq, Repr

namespace Shape

/-- The pointer to the root node. -/
def rootPtr : Shape → Ptr
  | nil => none
  | node _ a _ _ => some a

/-- The nodes in in-order (left subtree, node, right subtree), each with its element. -/
def cells : Shape → List (Nat × Int)
  | nil => []
  | node l a v r => l.cells ++ (a, v) :: r.cells

/-- The addresses of the nodes in in-order. -/
def addrs (s : Shape) : List Nat := s.cells.map (·.1)

/-- The elements in in-order. -/
def vals (s : Shape) : List Int := s.cells.map (·.2)

/-- The number of nodes. -/
def size (s : Shape) : Nat := s.cells.length

/-- The shape after `insert(x)` when the new node, if one is made, gets the address `a0`. -/
def insert (a0 : Nat) (x : Int) : Shape → Shape
  | nil => node nil a0 x nil
  | node l a v r =>
    if x < v then node (l.insert a0 x) a v r
    else if x > v then node l a v (r.insert a0 x)
    else node l a v r

end Shape

/-- The heap `h` holds the tree of shape `s` below a node (or root slot) whose own address
is `par`: every node has the element, the children and the parent the shape gives it. -/
def TRepr (h : THeap) : Ptr → Shape → Prop
  | _, .nil => True
  | par, .node l a v r =>
    h.deref a = some ⟨v, l.rootPtr, r.rootPtr, par⟩ ∧ TRepr h (some a) l ∧ TRepr h (some a) r

/-! ## Callers, the visitors of `main`, and the notions the statements are written in -/

/-- The tree object `t` in the heap `h` has the shape `s`: the root pointer and the nodes
agree with `s`, no address occurs twice, and `the_size` is the number of nodes. -/
structure TInv (h : THeap) (t : bstree) (s : Shape) : Prop where
  root : t.root = s.rootPtr
  repr : TRepr h none s
  nodup : s.addrs.Nodup
  size : t.the_size = s.size

/-- A loop `for (...) t.insert(x[i])` as in `main`. -/
def bstree.insert_all (fuel : Nat) : THeap → bstree → List Int → Option (THeap × bstree)
  | h, t, [] => some (h, t)
  | h, t, x :: xs =>
    match bstree.insert fuel h t x with
    | none => none
    | some (h1, t1) => bstree.insert_all fuel h1 t1 xs

/-- The tree built by inserting the elements of `xs`, in this order, into the empty tree
`bstree()`, in a heap with no other node. -/
def bstree.build (fuel : Nat) (xs : List Int) : Option (THeap × bstree) :=
  bstree.insert_all fuel [] bstree.mk_empty xs

/-- The number of nodes on the right spine. -/
def Shape.rspine : Shape → Nat
  | .nil => 0
  | .node _ _ _ r => r.rspine + 1

/-- The position of a tree iterator at the node with address `a`. -/
def bstree.at (a : Nat) : Iterator := ⟨.TreeIteratorImpl (some a)⟩

/-- The position of a list iterator at the node with address `a`. -/
def dlist.at (a : Nat) : Iterator := ⟨.ListIteratorImpl (some a)⟩

/-- Every live cell of the heap is a node of the tree of shape `s`. -/
def TFull (h : THeap) (s : Shape) : Prop := ∀ a n, h.deref a = some n → a ∈ s.addrs

/-- The recursive `accept` on the shape of a tree: the visitor's final state, the shape with
the elements as `visit` left them, and the events. -/
def Shape.accept {σ : Type} (V : Visitor σ) : σ → Shape → σ × Shape × List Event
  | s, .nil => (s, .nil, [])
  | s, .node l a v r =>
    let L := Shape.accept V s l
    if V.finished L.1 then
      (L.1, .node L.2.1 a v r, Event.enter a :: L.2.2 ++ [Event.query true])
    else
      let R := Shape.accept V (V.visit L.1 v).1 r
      (R.1, .node L.2.1 a (V.visit L.1 v).2 R.2.1,
        Event.enter a :: L.2.2 ++ [Event.query false, Event.visit a v] ++ R.2.2)

/-- The calls of `visit` recorded in a list of events: the node and the element passed. -/
def Event.visits : List Event → List (Nat × Int)
  | [] => []
  | Event.visit a x :: es => (a, x) :: Event.visits es
  | Event.enter _ :: es => Event.visits es
  | Event.query _ :: es => Event.visits es

/-- The nodes on which the recursive `accept` was invoked, in the order of the calls. -/
def Event.entered : List Event → List Nat
  | [] => []
  | Event.enter a :: es => a :: Event.entered es
  | Event.visit _ _ :: es => Event.entered es
  | Event.query _ :: es => Event.entered es

/-- The number of queries of `finished()`. -/
def Event.queries : List Event → Nat
  | [] => 0
  | Event.query _ :: es => Event.queries es + 1
  | Event.enter _ :: es => Event.queries es
  | Event.visit _ _ :: es => Event.queries es

/-- A front-to-back walk with true early exit over a sequence of cells: the visitor's final
state, the cells as `visit` left them, and the cells `visit` was called on. -/
def Visitor.walk {σ : Type} (V : Visitor σ) :
    σ → List (Nat × Int) → σ × List (Nat × Int) × List (Nat × Int)
  | s, [] => (s, [], [])
  | s, (a, v) :: cs =>
    if V.finished s then (s, (a, v) :: cs, [])
    else
      let W := Visitor.walk V (V.visit s v).1 cs
      (W.1, (a, (V.visit s v).2) :: W.2.1, (a, v) :: W.2.2)

/-- The state of the visitor after `visit` was called on the elements `vs` in order. -/
def Visitor.stateAfter {σ : Type} (V : Visitor σ) (s : σ) (vs : List Int) : σ :=
  vs.foldl (fun s v => (V.visit s v).1) s

/-- The elements as left by calling `visit` on each of `vs` in order. -/
def Visitor.outputs {σ : Type} (V : Visitor σ) : σ → List Int → List Int
  | _, [] => []
  | s, v :: vs => (V.visit s v).2 :: Visitor.outputs V (V.visit s v).1 vs

/-- The length of the shortest prefix of `vs` after visiting which `finished()` is true; the
length of `vs` when there is none. -/
def Visitor.stop {σ : Type} (V : Visitor σ) : σ → List Int → Nat
  | _, [] => 0
  | s, v :: vs => if V.finished s then 0 else Visitor.stop V (V.visit s v).1 vs + 1

/-- The visitor `AddingVisitor` of `main`: the state is `sum`; `finished()` is the default. -/
def AddingVisitor : Visitor Int where
  visit := fun sum x => (sum + x, x)
  finished := fun _ => false

/-- The state of a `PZSearchingVisitor`: the members `found` and `value`, the latter `none`
while it is uninitialised. -/
structure PZState where
  found : Bool
  value : Option Int
  deriving DecidableEq, Repr

/-- The visitor `PZSearchingVisitor` of `main`. -/
def PZSearchingVisitor : Visitor PZState where
  visit := fun s x => (if 17 ≤ x ∧ x ≤ 42 then ⟨true, some x⟩ else s, x)
  finished := fun s => s.found

/-- The constructor `PZSearchingVisitor()`. -/
def PZSearchingVisitor.init : PZState := ⟨false, none⟩


/-- The heap `h` holds the chain of list nodes `cs` (address and element of each, front to
back): the first node has `prev` equal to `p`, every node points to the next and back to
the previous one, and the last node has `next` null. -/
def LSeg (h : LHeap) : Ptr → List (Nat × Int) → Prop
  | _, [] => True
  | p, (a, v) :: cs => h.deref a = some ⟨v, cs.head?.map (·.1), p⟩ ∧ LSeg h (some a) cs

/-- The list object `l` in the heap `h` holds the nodes `cs`: `the_front` and `the_back`
point to the first and the last of them, the chain is well linked, no address occurs twice,
and `the_size` is their number. -/
structure LInv (h : LHeap) (l : dlist) (cs : List (Nat × Int)) : Prop where
  front : l.the_front = cs.head?.map (·.1)
  back : l.the_back = cs.getLast?.map (·.1)
  seg : LSeg h none cs
  nodup : (cs.map (·.1)).Nodup
  size : l.the_size = cs.length


/-- A call of one of the mutating methods of `dlist`. -/
inductive dlist.Op where
  | push_back (x : Int)
  | push_front (x : Int)
  | pop_back
  | pop_front
  | clear
  deriving DecidableEq, Repr

/-- Executing one call. -/
def dlist.step (fuel : Nat) (h : LHeap) (l : dlist) : dlist.Op → Option (LHeap × dlist)
  | .push_back x => dlist.push_back h l x
  | .push_front x => dlist.push_front h l x
  | .pop_back => dlist.pop_back h l
  | .pop_front => dlist.pop_front h l
  | .clear => dlist.clear fuel h l

/-- Executing a sequence of calls in order. -/
def dlist.run (fuel : Nat) : LHeap → dlist → List dlist.Op → Option (LHeap × dlist)
  | h, l, [] => some (h, l)
  | h, l, op :: ops =>
    match dlist.step fuel h l op with
    | none => none
    | some (h1, l1) => dlist.run fuel h1 l1 ops

/-- The sequence of elements a call is meant to produce from the sequence `vs`; `none` when
the call is a `pop` on an empty sequence, which the caller must not make. -/
def dlist.Op.model (vs : List Int) : dlist.Op → Option (List Int)
  | .push_back x => some (vs ++ [x])
  | .push_front x => some (x :: vs)
  | .pop_back => if vs = [] then none else some vs.dropLast
  | .pop_front => if vs = [] then none else some vs.tail
  | .clear => some []

/-- The sequence of elements a sequence of calls is meant to produce from `vs`; `none` when
some `pop` in it is applied to an empty sequence. -/
def dlist.Op.models : List Int → List dlist.Op → Option (List Int)
  | vs, [] => some vs
  | vs, op :: ops =>
    match dlist.Op.model vs op with
    | none => none
    | some vs1 => dlist.Op.models vs1 ops

/-- A call of `push_back` or `push_front`. -/
inductive dlist.Push where
  | back (x : Int)
  | front (x : Int)
  deriving DecidableEq, Repr

/-- The call a push stands for. -/
def dlist.Push.toOp : dlist.Push → dlist.Op
  | .back x => .push_back x
  | .front x => .push_front x

/-- The push history as a sequence: back pushes appended, front pushes prepended. -/
def dlist.Push.history : List Int → List dlist.Push → List Int
  | vs, [] => vs
  | vs, .back x :: ps => dlist.Push.history (vs ++ [x]) ps
  | vs, .front x :: ps => dlist.Push.history (x :: vs) ps

/-- Prefix `++` applied `n` times. -/
def Iterator.advance_n (fuel : Nat) (m : Mem) : Nat → Iterator → Option Iterator
  | 0, it => some it
  | n + 1, it =>
    match it.pre_incr fuel m with
    | none => none
    | some it1 => Iterator.advance_n fuel m n it1

/-- A call of one of the mutating methods of `bstree`. -/
inductive bstree.Op where
  | insert (x : Int)
  | clear
  deriving DecidableEq, Repr

/-- Executing one call. -/
def bstree.step (fuel : Nat) (h : THeap) (t : bstree) : bstree.Op → Option (THeap × bstree)
  | .insert x => bstree.insert fuel h t x
  | .clear => bstree.clear fuel h t

/-- Executing a sequence of calls in order. -/
def bstree.run (fuel : Nat) : THeap → bstree → List bstree.Op → Option (THeap × bstree)
  | h, t, [] => some (h, t)
  | h, t, op :: ops =>
    match bstree.step fuel h t op with
    | none => none
    | some (h1, t1) => bstree.run fuel h1 t1 ops

/-- The events of a front-to-back walk with true early exit over a sequence of cells. -/
def Visitor.walk_events {σ : Type} (V : Visitor σ) : σ → List (Nat × Int) → List Event
  | _, [] => []
  | s, (a, v) :: cs =>
    if V.finished s then [Event.query true]
    else Event.query false :: Event.visit a v :: Visitor.walk_events V (V.visit s v).1 cs


/-- The events after the last call of `visit` (all events when there is none). -/
def Event.after_visits : List Event → List Event
  | [] => []
  | Event.visit _ _ :: es =>
    if Event.visits es = [] then es else Event.after_visits es
  | Event.enter a :: es =>
    if Event.visits es = [] then Event.enter a :: es else Event.after_visits es
  | Event.query b :: es =>
    if Event.visits es = [] then Event.query b :: es else Event.after_visits es

/-- The nodes reached from `t` by following `left` pointers: `t`, its left child, the left
child of that, and so on. -/
def bstree.left_spine : Nat → THeap → Ptr → Option (List Nat)
  | 0, _, _ => none
  | _ + 1, _, none => some []
  | fuel + 1, h, some a =>
    match h.deref a with
    | none => none
    | some n =>
      match bstree.left_spine fuel h n.left with
      | none => none
      | some spine => some (a :: spine)

/-- The addresses on the left spine of a shape. -/
def Shape.lspine : Shape → List Nat
  | .nil => []
  | .node l a _ _ => a :: l.lspine

/-- The right subtree of the node with address `a`. -/
def Shape.right_of (a : Nat) : Shape → Shape
  | .nil => .nil
  | .node l p _ r =>
    if p = a then r else if a ∈ l.addrs then Shape.right_of a l else Shape.right_of a r



/-- A binary tree of elements: what a tree in the heap looks like when the addresses of its
nodes are forgotten. -/
inductive VTree where
  | leaf
  | node (l : VTree) (v : Int) (r : VTree)
  deriving DecidableEq, Repr

/-- The elements in in-order. -/
def VTree.inorder : VTree → List Int
  | .leaf => []
  | .node l v r => l.inorder ++ v :: r.inorder

/-- The elements in pre-order: node, left subtree, right subtree. -/
def VTree.preorder : VTree → List Int
  | .leaf => []
  | .node l v r => v :: (l.preorder ++ r.preorder)

/-- Unbalanced insertion without duplicates. -/
def VTree.insert (x : Int) : VTree → VTree
  | .leaf => .node .leaf x .leaf
  | .node l v r =>
    if x < v then .node (l.insert x) v r
    else if x > v then .node l v (r.insert x)
    else .node l v r

/-- Insertion of a list of elements, in order. -/
def VTree.insert_all : VTree → List Int → VTree
  | t, [] => t
  | t, x :: xs => VTree.insert_all (t.insert x) xs

/-- The tree of elements of a shape. -/
def Shape.erase : Shape → VTree
  | .nil => .leaf
  | .node l _ v r => .node l.erase v r.erase

/-- Reading the tree below the pointer `p` out of the heap: the element of each node and
its left and right structure. -/
def bstree.to_tree : Nat → THeap → Ptr → Option VTree
  | 0, _, _ => none
  | _ + 1, _, none => some .leaf
  | fuel + 1, h, some a =>
    match h.deref a with
    | none => none
    | some n =>
      match bstree.to_tree fuel h n.left with
      | none => none
      | some l =>
        match bstree.to_tree fuel h n.right with
        | none => none
        | some r => some (.node l n.data r)

/-- The argument `const bstree& t` of a method called on `*this`: the object `*this`
itself or another object. -/
inductive bstree.Ref where
  | this
  | other (t : bstree)
  deriving DecidableEq, Repr

/-- The object a reference denotes when `*this` is `self`. -/
def bstree.Ref.get (self : bstree) : bstree.Ref → bstree
  | .this => self
  | .other t => t

/-- The private `void copy(node* t)`.  `fuel` bounds each `insert`, the first `Nat`
argument the depth of the recursion. -/
def bstree.copy (fuel : Nat) : Nat → THeap → bstree → Ptr → Option (THeap × bstree)
  | 0, _, _, _ => none
  | _ + 1, h, self, none => some (h, self)
  | k + 1, h, self, some a =>
    match h.deref a with
    | none => none
    | some n =>
      match bstree.insert fuel h self n.data with
      | none => none
      | some (h1, self1) =>
        match h1.deref a with
        | none => none
        | some n1 =>
          match bstree.copy fuel k h1 self1 n1.left with
          | none => none
          | some (h2, self2) =>
            match h2.deref a with
            | none => none
            | some n2 => bstree.copy fuel k h2 self2 n2.right

/-- The copy constructor `bstree(const bstree& t)`: the new object. -/
def bstree.copy_ctor (fuel : Nat) (h : THeap) (t : bstree) : Option (THeap × bstree) :=
  bstree.copy fuel fuel h ⟨none, 0⟩ t.root

/-- The operator `operator=(const bstree& t)` called on `self`. -/
def bstree.assign (fuel : Nat) (h : THeap) (self : bstree) (t : bstree.Ref) :
    Option (THeap × bstree) :=
  match bstree.clear fuel h self with
  | none => none
  | some (h1, self1) => bstree.copy fuel fuel h1 self1 (t.get self1).root



/-- Writing through the reference `T&` that `access()` returns (`ptr->data = v`). -/
def Iterator.Impl.store (m : Mem) : Iterator.Impl → Int → Option Mem
  | .ListIteratorImpl none, _ => none
  | .ListIteratorImpl (some a), v =>
    match m.lheap.deref a with
    | none => none
    | some n => some { m with lheap := m.lheap.write a { n with data := v } }
  | .TreeIteratorImpl none, _ => none
  | .TreeIteratorImpl (some a), v =>
    match m.theap.deref a with
    | none => none
    | some n => some { m with theap := m.theap.write a { n with data := v } }

/-- The assignment `*i = v`. -/
def Iterator.assign (m : Mem) (i : Iterator) (v : Int) : Option Mem := i.impl.store m v

/-- The range-based `for` loop with a mutable reference, from the iterator `it` to `e`:
`for (; it != e; ++it) { T& x = *it; x = f(x); }`; in `main`, `for (int& x : l) x *= 2`.
`fuel` bounds each `++it`, the first `Nat` argument the iterations. -/
def Iterator.for_each (f : Int → Int) (fuel : Nat) (e : Iterator) :
    Nat → Mem → Iterator → Option Mem
  | 0, _, _ => none
  | k + 1, m, it =>
    if it.ne e then
      match it.deref m with
      | none => none
      | some x =>
        match it.assign m (f x) with
        | none => none
        | some m1 =>
          match it.pre_incr fuel m1 with
          | none => none
          | some it1 => Iterator.for_each f fuel e k m1 it1
    else some m

/-- The loop `for (int& x : l) x = f(x)` over a `dlist`. -/
def dlist.for_each (f : Int → Int) (fuel : Nat) (m : Mem) (l : dlist) : Option Mem :=
  Iterator.for_each f fuel l.end fuel m l.begin

/-- The loop `for (int& x : t) x = f(x)` over a `bstree`. -/
def bstree.for_each (f : Int → Int) (fuel : Nat) (m : Mem) (t : bstree) : Option Mem :=
  match bstree.begin fuel m.theap t with
  | none => none
  | some b => Iterator.for_each f fuel t.end fuel m b

/-- A visitor that doubles every element and never finishes: `visit(int& x) { x *= 2; }`
with the default `finished()`. -/
def DoublingVisitor : Visitor Unit where
  visit := fun s x => (s, 2 * x)
  finished := fun _ => false

/-- The shape with the element of the node at address `a` replaced by `w`. -/
def Shape.update (a : Nat) (w : Int) : Shape → Shape
  | .nil => .nil
  | .node l p v r => .node (l.update a w) p (if p = a then w else v) (r.update a w)



/-- The heap of `Impl` objects; each is owned by one `Iterator` object. -/
abbrev IHeap := Heap Iterator.Impl

/-- An `Iterator<T>` object: its member `impl`, the address of the `Impl` object it owns.
The structure `Iterator` above is the state of such an object. -/
structure IteratorObj where
  impl : Nat
  deriving DecidableEq, Repr

/-- The state of an `Iterator` object. -/
def IteratorObj.get (o : IteratorObj) (ih : IHeap) : Option Iterator :=
  (ih.deref o.impl).map Iterator.mk

/-- The copy constructor `Iterator(const Iterator& i)`, `impl(i.impl->clone())`: the new
object. -/
def IteratorObj.copy (ih : IHeap) (i : IteratorObj) : Option (IHeap × IteratorObj) :=
  match ih.deref i.impl with
  | none => none
  | some p => some (ih.alloc p.clone, ⟨ih.length⟩)

/-- Prefix `++i` on an object: `impl->advance(); return *this;`.  The result is the object
the returned reference denotes. -/
def IteratorObj.pre_incr (fuel : Nat) (m : Mem) (ih : IHeap) (i : IteratorObj) :
    Option (IHeap × IteratorObj) :=
  match ih.deref i.impl with
  | none => none
  | some p =>
    match p.advance fuel m with
    | none => none
    | some p1 => some (ih.write i.impl p1, i)

/-- The value of `*i` for an object. -/
def IteratorObj.deref (m : Mem) (ih : IHeap) (i : IteratorObj) : Option Int :=
  (i.get ih).bind (Iterator.deref m)

/-- The argument `const dlist& l` of a method called on `*this`: the object `*this` itself
or another object. -/
inductive dlist.Ref where
  | this
  | other (l : dlist)
  deriving DecidableEq, Repr

/-- The object a reference denotes when `*this` is `self`. -/
def dlist.Ref.get (self : dlist) : dlist.Ref → dlist
  | .this => self
  | .other l => l

/-- The loop of the private `copy(const dlist& l)`, as a function of its variable `p`:
`for (...; p != nullptr; p = p->next) push_back(p->data)`. -/
def dlist.copy_loop : Nat → LHeap → dlist → Ptr → Option (LHeap × dlist)
  | 0, _, _, _ => none
  | _ + 1, h, self, none => some (h, self)
  | fuel + 1, h, self, some p =>
    match h.deref p with
    | none => none
    | some n =>
      match dlist.push_back h self n.data with
      | none => none
      | some (h1, self1) =>
        match h1.deref p with
        | none => none
        | some n1 => dlist.copy_loop fuel h1 self1 n1.next

/-- The private `copy(const dlist& l)`. -/
def dlist.copy (fuel : Nat) (h : LHeap) (self : dlist) (l : dlist) : Option (LHeap × dlist) :=
  dlist.copy_loop fuel h self l.the_front

/-- The copy constructor `dlist(const dlist& l)`: the new object. -/
def dlist.copy_ctor (fuel : Nat) (h : LHeap) (l : dlist) : Option (LHeap × dlist) :=
  dlist.copy fuel h ⟨none, none, 0⟩ l

/-- The operator `operator=(const dlist& l)` called on `self`. -/
def dlist.assign (fuel : Nat) (h : LHeap) (self : dlist) (l : dlist.Ref) :
    Option (LHeap × dlist) :=
  match dlist.clear fuel h self with
  | none => none
  | some (h1, self1) => dlist.copy fuel h1 self1 (l.get self1)




/-- The nodes reachable from the pointer `p`: the node `p` points to, and the left and the
right child of every reachable node. -/
inductive bstree.Reachable (h : THeap) : Ptr → Nat → Prop where
  | root (a : Nat) : bstree.Reachable h (some a) a
  | left {p : Ptr} {a c : Nat} {n : bstree.node} : bstree.Reachable h p a →
      h.deref a = some n → n.left = some c → bstree.Reachable h p c
  | right {p : Ptr} {a c : Nat} {n : bstree.node} : bstree.Reachable h p a →
      h.deref a = some n → n.right = some c → bstree.Reachable h p c



/-! ## Lemmas: heaps -/

namespace Heap
variable {α : Type}

theorem deref_lt {h : Heap α} {a : Nat} {n : α} (e : h.deref a = some n) : a < h.length := by
  unfold Heap.deref at e
  by_contra hc
  rw [List.getElem?_eq_none (Nat.le_of_not_lt hc)] at e
  simp at e

theorem deref_eq_iff {h : Heap α} {a : Nat} {n : α} : h.deref a = some n ↔ h[a]? = some (some n) := by
  unfold Heap.deref
  cases h[a]? with
  | none => simp
  | some o => cases o <;> simp

@[simp] theorem length_alloc (h : Heap α) (n : α) : (h.alloc n).length = h.length + 1 := by
  simp [Heap.alloc]

@[simp] theorem length_write (h : Heap α) (a : Nat) (n : α) : (h.write a n).length = h.length := by
  simp [Heap.write]

@[simp] theorem length_free (h : Heap α) (a : Nat) : (h.free a).length = h.length := by
  simp [Heap.free]

theorem deref_alloc_of_lt {h : Heap α} {a : Nat} (n : α) (lt : a < h.length) :
    (h.alloc n).deref a = h.deref a := by
  simp [Heap.deref, Heap.alloc, List.getElem?_append_left lt]

@[simp] theorem deref_alloc_length (h : Heap α) (n : α) : (h.alloc n).deref h.length = some n := by
  simp [Heap.deref, Heap.alloc]

theorem deref_write_self {h : Heap α} {a : Nat} (n : α) (lt : a < h.length) :
    (h.write a n).deref a = some n := by
  simp [Heap.deref, Heap.write, lt]

theorem deref_write_of_ne {h : Heap α} {a b : Nat} (n : α) (ne : a ≠ b) :
    (h.write a n).deref b = h.deref b := by
  simp [Heap.deref, Heap.write, List.getElem?_set_ne ne]

@[simp] theorem deref_free_self (h : Heap α) (a : Nat) : (h.free a).deref a = none := by
  unfold Heap.deref Heap.free
  by_cases lt : a < h.length
  · simp [lt]
  · rw [List.getElem?_eq_none (by simpa using Nat.le_of_not_lt lt)]; rfl

theorem deref_free_of_ne {h : Heap α} {a b : Nat} (ne : a ≠ b) :
    (h.free a).deref b = h.deref b := by
  simp [Heap.deref, Heap.free, List.getElem?_set_ne ne]

end Heap


/-! ## Lemmas: trees -/

namespace Shape

@[simp] theorem addrs_nil : nil.addrs = [] := rfl
@[simp] theorem vals_nil : nil.vals = [] := rfl
@[simp] theorem size_nil : nil.size = 0 := rfl
@[simp] theorem addrs_node (l r : Shape) (a : Nat) (v : Int) :
    (node l a v r).addrs = l.addrs ++ a :: r.addrs := by simp [addrs, cells]
@[simp] theorem vals_node (l r : Shape) (a : Nat) (v : Int) :
    (node l a v r).vals = l.vals ++ v :: r.vals := by simp [vals, cells]
@[simp] theorem size_node (l r : Shape) (a : Nat) (v : Int) :
    (node l a v r).size = l.size + r.size + 1 := by simp [size, cells]; omega
@[simp] theorem length_addrs (s : Shape) : s.addrs.length = s.size := by simp [addrs, size]
@[simp] theorem length_vals (s : Shape) : s.vals.length = s.size := by simp [vals, size]

theorem rootPtr_insert_node (a0 : Nat) (x : Int) (l r : Shape) (a : Nat) (v : Int) :
    ((node l a v r).insert a0 x).rootPtr = some a := by
  simp only [insert]; split_ifs <;> rfl

end Shape

theorem TRepr.addr_lt {h : THeap} {par : Ptr} {s : Shape} (R : TRepr h par s) :
    ∀ c ∈ s.addrs, c < h.length := by
  induction s generalizing par with
  | nil => simp
  | node l a v r ihl ihr =>
    obtain ⟨e, Rl, Rr⟩ := R
    intro c hc
    simp at hc
    rcases hc with hc | rfl | hc
    · exact ihl Rl c hc
    · exact Heap.deref_lt e
    · exact ihr Rr c hc

theorem TRepr.congr_heap {h h1 : THeap} {par : Ptr} {s : Shape} (R : TRepr h par s)
    (same : ∀ c ∈ s.addrs, h1.deref c = h.deref c) : TRepr h1 par s := by
  induction s generalizing par with
  | nil => trivial
  | node l a v r ihl ihr =>
    obtain ⟨e, Rl, Rr⟩ := R
    refine ⟨?_, ihl Rl ?_, ihr Rr ?_⟩
    · rw [same a (by simp)]; exact e
    · intro c hc; exact same c (by simp [hc])
    · intro c hc; exact same c (by simp [hc])

theorem Shape.insert_cells (a0 : Nat) (x : Int) (s : Shape) :
    s.insert a0 x = s ∨ List.Perm (s.insert a0 x).cells ((a0, x) :: s.cells) := by
  induction s with
  | nil => right; simp [Shape.insert, Shape.cells]
  | node l a v r ihl ihr =>
    simp only [Shape.insert]
    split_ifs with h1 h2
    · rcases ihl with e | p
      · left; rw [e]
      · right
        simp only [Shape.cells]
        exact (p.append_right _).trans (by simp)
    · rcases ihr with e | p
      · left; rw [e]
      · right
        simp only [Shape.cells]
        refine (List.Perm.append_left _ (List.Perm.cons _ p)).trans ?_
        refine (List.Perm.append_left _ (List.Perm.swap _ _ _)).trans ?_
        exact List.perm_middle
    · left; rfl

theorem insert_node_spec (x : Int) : ∀ (s : Shape) (fuel : Nat) (h : THeap) (par : Ptr),
    s ≠ Shape.nil → TRepr h par s → s.addrs.Nodup → s.size ≤ fuel →
    ∃ h1 b, bstree.insert_node fuel h s.rootPtr x = some (h1, b) ∧
      TRepr h1 par (s.insert h.length x) ∧
      (b = true → h1.length = h.length + 1 ∧ s.insert h.length x ≠ s) ∧
      (b = false → h1 = h ∧ s.insert h.length x = s) ∧
      (∀ c, c < h.length → c ∉ s.addrs → h1.deref c = h.deref c) := by
  intro s
  induction s with
  | nil => intro _ _ _ hne; exact absurd rfl hne
  | node l a v r ihl ihr =>
    intro fuel h par _ R nd hf
    obtain ⟨e, Rl, Rr⟩ := R
    have alt : a < h.length := Heap.deref_lt e
    simp only [Shape.addrs_node] at nd
    have ndl : l.addrs.Nodup := (List.nodup_append.1 nd).1
    have ndr : r.addrs.Nodup := (List.nodup_cons.1 (List.nodup_append.1 nd).2.1).2
    have anl : a ∉ l.addrs := fun hc =>
      (List.nodup_append.1 nd).2.2 hc (List.mem_cons_self _ _)
    have anr : a ∉ r.addrs := (List.nodup_cons.1 (List.nodup_append.1 nd).2.1).1
    have dlr : ∀ c, c ∈ l.addrs → c ∉ r.addrs := fun c hl hr =>
      (List.nodup_append.1 nd).2.2 hl (List.mem_cons_of_mem _ hr)
    obtain ⟨f, rfl⟩ : ∃ f, fuel = f + 1 := by
      cases fuel with
      | zero => simp at hf
      | succ f => exact ⟨f, rfl⟩
    simp only [Shape.size_node] at hf
    simp only [Shape.rootPtr, bstree.insert_node, e, Shape.insert]
    by_cases c1 : x < v
    · simp only [c1, if_true]
      cases l with
      | nil =>
        refine ⟨_, true, rfl, ?_, fun _ => ⟨by simp, by simp [Shape.insert]⟩, by simp, ?_⟩
        · refine ⟨?_, ⟨?_, trivial, trivial⟩, ?_⟩
          · rw [Heap.deref_write_self _ (by simp; omega)]; rfl
          · rw [Heap.deref_write_of_ne _ (Nat.ne_of_lt alt), Heap.deref_alloc_length]; rfl
          · refine Rr.congr_heap fun c hc => ?_
            rw [Heap.deref_write_of_ne _ (fun hh => anr (by rw [hh]; exact hc)),
              Heap.deref_alloc_of_lt _ (Rr.addr_lt c hc)]
        · intro c clt hc
          simp at hc
          rw [Heap.deref_write_of_ne _ (Ne.symm hc.1), Heap.deref_alloc_of_lt _ clt]
      | node ll la lv lr =>
        obtain ⟨h1, b, e1, R1, bt, bf, fr⟩ :=
          ihl f h (some a) (by simp) Rl ndl (by omega)
        refine ⟨h1, b, e1, ?_, ?_, ?_, ?_⟩
        · refine ⟨?_, R1, ?_⟩
          · rw [fr a alt anl, e, Shape.rootPtr_insert_node]; rfl
          · exact Rr.congr_heap fun c hc => fr c (Rr.addr_lt c hc) (fun hl => dlr c hl hc)
        · intro hb
          refine ⟨(bt hb).1, fun hh => (bt hb).2 ?_⟩
          injection hh
        · intro hb
          refine ⟨(bf hb).1, ?_⟩
          rw [(bf hb).2]
        · intro c clt hc
          exact fr c clt fun hl => hc (by rw [Shape.addrs_node]; exact List.mem_append_left _ hl)
    · simp only [c1, if_false]
      by_cases c2 : x > v
      · simp only [c2, if_true]
        cases r with
        | nil =>
          refine ⟨_, true, rfl, ?_, fun _ => ⟨by simp, by simp [Shape.insert]⟩, by simp, ?_⟩
          · refine ⟨?_, ?_, ⟨?_, trivial, trivial⟩⟩
            · rw [Heap.deref_write_self _ (by simp; omega)]; rfl
            · refine Rl.congr_heap fun c hc => ?_
              rw [Heap.deref_write_of_ne _ (fun hh => anl (by rw [hh]; exact hc)),
                Heap.deref_alloc_of_lt _ (Rl.addr_lt c hc)]
            · rw [Heap.deref_write_of_ne _ (Nat.ne_of_lt alt), Heap.deref_alloc_length]; rfl
          · intro c clt hc
            simp at hc
            rw [Heap.deref_write_of_ne _ (Ne.symm hc.2), Heap.deref_alloc_of_lt _ clt]
        | node rl ra rv rr =>
          obtain ⟨h1, b, e1, R1, bt, bf, fr⟩ :=
            ihr f h (some a) (by simp) Rr ndr (by omega)
          refine ⟨h1, b, e1, ?_, ?_, ?_, ?_⟩
          · refine ⟨?_, ?_, R1⟩
            · rw [fr a alt anr, e, Shape.rootPtr_insert_node]; rfl
            · exact Rl.congr_heap fun c hc => fr c (Rl.addr_lt c hc) (dlr c hc)
          · intro hb
            refine ⟨(bt hb).1, fun hh => (bt hb).2 ?_⟩
            injection hh
          · intro hb
            refine ⟨(bf hb).1, ?_⟩
            rw [(bf hb).2]
          · intro c clt hc
            exact fr c clt fun hr => hc (by
              rw [Shape.addrs_node]
              exact List.mem_append_right _ (List.mem_cons_of_mem _ hr))
      · simp only [c2, if_false]
        exact ⟨h, false, rfl, ⟨e, Rl, Rr⟩, by simp, by simp, fun _ _ _ => rfl⟩

theorem Shape.mem_vals_insert (a0 : Nat) (x y : Int) (s : Shape) :
    y ∈ (s.insert a0 x).vals ↔ y = x ∨ y ∈ s.vals := by
  induction s with
  | nil => simp [Shape.insert]
  | node l a v r ihl ihr =>
    simp only [Shape.insert]
    split_ifs with h1 h2
    · simp [ihl]; tauto
    · simp [ihr]; tauto
    · have : x = v := le_antisymm (not_lt.1 h2) (not_lt.1 h1)
      subst this
      simp; tauto

theorem Shape.sorted_insert (a0 : Nat) (x : Int) (s : Shape) (so : s.vals.Sorted (· < ·)) :
    (s.insert a0 x).vals.Sorted (· < ·) := by
  induction s with
  | nil => simp [Shape.insert]
  | node l a v r ihl ihr =>
    simp only [Shape.vals_node, List.Sorted, List.pairwise_append, List.pairwise_cons,
      List.mem_cons, forall_eq_or_imp] at so
    obtain ⟨sl, ⟨vr, sr⟩, lr⟩ := so
    simp only [Shape.insert]
    split_ifs with h1 h2
    · simp only [Shape.vals_node, List.Sorted, List.pairwise_append, List.pairwise_cons,
        List.mem_cons, forall_eq_or_imp]
      refine ⟨ihl sl, ⟨vr, sr⟩, fun y hy => ?_⟩
      rcases (Shape.mem_vals_insert a0 x y l).1 hy with rfl | hy
      · exact ⟨h1, fun z hz => h1.trans (vr z hz)⟩
      · exact lr y hy
    · simp only [Shape.vals_node, List.Sorted, List.pairwise_append, List.pairwise_cons,
        List.mem_cons, forall_eq_or_imp]
      refine ⟨sl, ⟨fun y hy => ?_, ihr sr⟩, fun y hy => ⟨(lr y hy).1, fun z hz => ?_⟩⟩
      · rcases (Shape.mem_vals_insert a0 x y r).1 hy with rfl | hy
        · exact h2
        · exact vr y hy
      · rcases (Shape.mem_vals_insert a0 x z r).1 hz with rfl | hz
        · exact (lr y hy).1.trans h2
        · exact (lr y hy).2 z hz
    · simp only [Shape.vals_node, List.Sorted, List.pairwise_append, List.pairwise_cons,
        List.mem_cons, forall_eq_or_imp]
      exact ⟨sl, ⟨vr, sr⟩, lr⟩

theorem Shape.insert_of_mem (a0 : Nat) (x : Int) (s : Shape) (so : s.vals.Sorted (· < ·))
    (mem : x ∈ s.vals) : s.insert a0 x = s := by
  induction s with
  | nil => simp at mem
  | node l a v r ihl ihr =>
    simp only [Shape.vals_node, List.Sorted, List.pairwise_append, List.pairwise_cons,
      List.mem_cons, forall_eq_or_imp] at so
    obtain ⟨sl, ⟨vr, sr⟩, lr⟩ := so
    simp only [Shape.vals_node, List.mem_append, List.mem_cons] at mem
    simp only [Shape.insert]
    split_ifs with h1 h2
    · rcases mem with m | rfl | m
      · rw [ihl sl m]
      · exact absurd h1 (lt_irrefl _)
      · exact absurd (h1.trans (vr x m)) (lt_irrefl _)
    · rcases mem with m | rfl | m
      · exact absurd ((lr x m).1.trans h2) (lt_irrefl _)
      · exact absurd h2 (lt_irrefl _)
      · rw [ihr sr m]
    · rfl

theorem Shape.size_insert (a0 : Nat) (x : Int) (s : Shape) (ne : s.insert a0 x ≠ s) :
    (s.insert a0 x).size = s.size + 1 := by
  rcases Shape.insert_cells a0 x s with e | p
  · exact absurd e ne
  · simpa [Shape.size] using p.length_eq

theorem Shape.nodup_insert (a0 : Nat) (x : Int) (s : Shape) (nd : s.addrs.Nodup)
    (fresh : a0 ∉ s.addrs) : (s.insert a0 x).addrs.Nodup := by
  rcases Shape.insert_cells a0 x s with e | p
  · rw [e]; exact nd
  · have : List.Perm (s.insert a0 x).addrs (a0 :: s.addrs) := by
      simpa [Shape.addrs] using p.map (·.1)
    exact this.nodup_iff.2 (List.nodup_cons.2 ⟨fresh, nd⟩)

theorem Shape.mem_addrs_insert (a0 : Nat) (x : Int) (s : Shape) (c : Nat)
    (hc : c ∈ (s.insert a0 x).addrs) : c = a0 ∨ c ∈ s.addrs := by
  rcases Shape.insert_cells a0 x s with e | p
  · rw [e] at hc; exact Or.inr hc
  · have : List.Perm (s.insert a0 x).addrs (a0 :: s.addrs) := by
      simpa [Shape.addrs] using p.map (·.1)
    simpa using this.mem_iff.1 hc

theorem Shape.mem_addrs_insert_of_ne (a0 : Nat) (x : Int) (s : Shape)
    (ne : s.insert a0 x ≠ s) : a0 ∈ (s.insert a0 x).addrs := by
  rcases Shape.insert_cells a0 x s with e | p
  · exact absurd e ne
  · have : List.Perm (s.insert a0 x).addrs (a0 :: s.addrs) := by
      simpa [Shape.addrs] using p.map (·.1)
    exact this.mem_iff.2 (List.mem_cons_self _ _)

theorem Shape.subset_addrs_insert (a0 : Nat) (x : Int) (s : Shape) (c : Nat)
    (hc : c ∈ s.addrs) : c ∈ (s.insert a0 x).addrs := by
  rcases Shape.insert_cells a0 x s with e | p
  · rw [e]; exact hc
  · have : List.Perm (s.insert a0 x).addrs (a0 :: s.addrs) := by
      simpa [Shape.addrs] using p.map (·.1)
    exact this.mem_iff.2 (List.mem_cons_of_mem _ hc)

/-- The effect of `insert(x)` on a well-formed tree: it returns, the tree has the shape
`s.insert`, and cells outside the tree are untouched. -/
theorem bstree.insert_spec {h : THeap} {t : bstree} {s : Shape} (I : TInv h t s) (x : Int)
    {fuel : Nat} (hf : s.size ≤ fuel) :
    ∃ h1 t1, bstree.insert fuel h t x = some (h1, t1) ∧ TInv h1 t1 (s.insert h.length x) ∧
      (s.insert h.length x = s → h1 = h ∧ t1 = t) ∧
      (s.insert h.length x ≠ s → h1.length = h.length + 1) ∧
      (∀ c, c < h.length → c ∉ s.addrs → h1.deref c = h.deref c) := by
  have fresh : h.length ∉ s.addrs := fun hc => Nat.lt_irrefl _ (I.repr.addr_lt _ hc)
  cases s with
  | nil =>
    have hr : t.root = none := I.root
    refine ⟨h.alloc (bstree.node.mk x none none none), ⟨some h.length, t.the_size + 1⟩, by
      simp only [bstree.insert, hr], ⟨rfl, ⟨?_, trivial, trivial⟩, by
      simp [Shape.insert], ?_⟩, ?_, ?_, ?_⟩
    · simp [Heap.deref_alloc_length]; rfl
    · simp [Shape.insert, I.size]
    · intro hh; simp [Shape.insert] at hh
    · intro _; simp
    · intro c clt _; exact Heap.deref_alloc_of_lt _ clt
  | node l a v r =>
    have hr : t.root = some a := I.root
    obtain ⟨h1, b, e1, R1, bt, bf, fr⟩ :=
      insert_node_spec x (Shape.node l a v r) fuel h none (by simp) I.repr I.nodup hf
    simp only [Shape.rootPtr] at e1
    cases b with
    | true =>
      obtain ⟨len, ne⟩ := bt rfl
      refine ⟨h1, ⟨some a, t.the_size + 1⟩, by
        simp only [bstree.insert, hr, e1], ⟨?_, R1, ?_, ?_⟩, ?_, ?_, fr⟩
      · rw [Shape.rootPtr_insert_node]
      · exact Shape.nodup_insert _ _ _ I.nodup fresh
      · rw [Shape.size_insert _ _ _ ne]; simp [I.size]
      · intro hh; exact absurd hh ne
      · intro _; exact len
    | false =>
      obtain ⟨rfl, es⟩ := bf rfl
      refine ⟨h1, t, by simp only [bstree.insert, hr, e1], ?_, fun _ => ⟨rfl, rfl⟩, ?_, fr⟩
      · rw [es]; exact I
      · intro hh; exact absurd es hh

theorem Shape.rspine_le_size (s : Shape) : s.rspine ≤ s.size := by
  induction s with
  | nil => simp [Shape.rspine]
  | node l a v r _ ihr => simp [Shape.rspine]; omega

theorem Shape.mem_addrs_of_rootPtr {s : Shape} {a : Nat} (e : s.rootPtr = some a) :
    a ∈ s.addrs := by
  cases s with
  | nil => simp [Shape.rootPtr] at e
  | node l b v r =>
    simp only [Shape.rootPtr, Option.some.injEq] at e
    simp [e]

theorem Shape.eq_nil_of_addrs {s : Shape} (e : s.addrs = []) : s = Shape.nil := by
  cases s with
  | nil => rfl
  | node l b v r => simp at e

/-- The function `leftdown` returns the first node of the subtree in in-order. -/
theorem bstree.leftdown_spec {h : THeap} : ∀ (s : Shape) (par : Ptr) (fuel : Nat),
    TRepr h par s → s.size < fuel → bstree.leftdown fuel h s.rootPtr = some s.addrs.head? := by
  intro s
  induction s with
  | nil =>
    intro par fuel _ hf
    cases fuel with
    | zero => simp at hf
    | succ f => rfl
  | node l a v r ihl _ =>
    intro par fuel R hf
    obtain ⟨e, Rl, -⟩ := R
    cases fuel with
    | zero => simp at hf
    | succ f =>
      simp only [Shape.size_node] at hf
      simp only [Shape.rootPtr, bstree.leftdown, e]
      cases l with
      | nil => simp [Shape.rootPtr]
      | node ll la lv lr =>
        have := ihl (some a) f Rl (by simp only [Shape.size_node] at hf ⊢; omega)
        simp only [Shape.rootPtr] at this ⊢
        rw [this]
        simp

theorem bstree.advance_aux {h : THeap} : ∀ (s : Shape) (par : Ptr),
    TRepr h par s → s.addrs.Nodup → ∀ (xs : List Nat) (a : Nat) (rest : List Nat),
    s.addrs = xs ++ a :: rest →
    (rest ≠ [] → ∀ F, s.size < F →
      bstree.TreeIteratorImpl.advance F h (some a) = some rest.head?) ∧
    (rest = [] → ∀ f, bstree.TreeIteratorImpl.advance (f + s.rspine) h (some a) =
      bstree.leftup (f + 1) h s.rootPtr) := by
  intro s
  induction s with
  | nil => intro par _ _ xs a rest e; simp at e
  | node l p v r ihl ihr =>
    intro par R nd xs a rest e
    obtain ⟨ep, Rl, Rr⟩ := R
    simp only [Shape.addrs_node] at nd e
    have ndl : l.addrs.Nodup := (List.nodup_append.1 nd).1
    have ndr : r.addrs.Nodup := (List.nodup_cons.1 (List.nodup_append.1 nd).2.1).2
    have dlr : ∀ c, c ∈ l.addrs → c ∉ r.addrs := fun c hl hr =>
      (List.nodup_append.1 nd).2.2 hl (List.mem_cons_of_mem _ hr)
    -- the three positions of `a`
    have inRoot : a = p → rest = r.addrs →
        (rest ≠ [] → ∀ F, (Shape.node l p v r).size < F →
          bstree.TreeIteratorImpl.advance F h (some a) = some rest.head?) ∧
        (rest = [] → ∀ f, bstree.TreeIteratorImpl.advance (f + (Shape.node l p v r).rspine) h
          (some a) = bstree.leftup (f + 1) h (Shape.node l p v r).rootPtr) := by
      rintro rfl rfl
      constructor
      · intro ne F hF
        cases r with
        | nil => simp at ne
        | node rl rp rv rr =>
          simp only [bstree.TreeIteratorImpl.advance, ep, Shape.rootPtr]
          have := bstree.leftdown_spec (Shape.node rl rp rv rr) (some a) F Rr (by
            simp only [Shape.size_node] at hF ⊢; omega)
          simpa only [Shape.rootPtr] using this
      · intro er f
        have := Shape.eq_nil_of_addrs er
        subst this
        simp only [bstree.TreeIteratorImpl.advance, ep, Shape.rootPtr, Shape.rspine]
    have inRight : ∀ xs2, r.addrs = xs2 ++ a :: rest →
        (rest ≠ [] → ∀ F, (Shape.node l p v r).size < F →
          bstree.TreeIteratorImpl.advance F h (some a) = some rest.head?) ∧
        (rest = [] → ∀ f, bstree.TreeIteratorImpl.advance (f + (Shape.node l p v r).rspine) h
          (some a) = bstree.leftup (f + 1) h (Shape.node l p v r).rootPtr) := by
      intro xs2 e2
      obtain ⟨i1, i2⟩ := ihr (some p) Rr ndr xs2 a rest e2
      constructor
      · intro ne F hF
        exact i1 ne F (by simp only [Shape.size_node] at hF; omega)
      · intro er f
        have := i2 er (f + 1)
        cases r with
        | nil => simp at e2
        | node rl rp rv rr =>
          obtain ⟨erp, -, -⟩ := Rr
          have nl : l.rootPtr ≠ some rp := fun hh =>
            dlr rp (Shape.mem_addrs_of_rootPtr hh) (by simp)
          simp only [Shape.rspine, Shape.rootPtr] at this ⊢
          rw [show f + (rr.rspine + 1 + 1) = f + 1 + (rr.rspine + 1) by omega, this]
          simp only [bstree.leftup, erp, ep, nl, if_false]
    have inLeft : ∀ rest1, l.addrs = xs ++ a :: rest1 → rest = rest1 ++ p :: r.addrs →
        (rest ≠ [] → ∀ F, (Shape.node l p v r).size < F →
          bstree.TreeIteratorImpl.advance F h (some a) = some rest.head?) ∧
        (rest = [] → ∀ f, bstree.TreeIteratorImpl.advance (f + (Shape.node l p v r).rspine) h
          (some a) = bstree.leftup (f + 1) h (Shape.node l p v r).rootPtr) := by
      intro rest1 e1 er
      obtain ⟨i1, i2⟩ := ihl (some p) Rl ndl xs a rest1 e1
      subst er
      refine ⟨fun _ F hF => ?_, fun hh => by simp at hh⟩
      simp only [Shape.size_node] at hF
      cases rest1 with
      | cons b rest2 => simpa using i1 (by simp) F (by omega)
      | nil =>
        have hs := Shape.rspine_le_size l
        obtain ⟨f, rfl⟩ : ∃ f, F = f + l.rspine := ⟨F - l.rspine, by omega⟩
        rw [i2 rfl f]
        cases l with
        | nil => simp at e1
        | node ll lp lv lr =>
          obtain ⟨elp, -, -⟩ := Rl
          simp only [Shape.rootPtr] at ep ⊢
          simp only [bstree.leftup, elp, ep, if_true]
          simp
    rcases List.append_eq_append_iff.1 e with ⟨a', e1, e2⟩ | ⟨c', e1, e2⟩
    · cases a' with
      | nil =>
        simp only [List.nil_append, List.cons.injEq] at e2
        exact inRoot e2.1.symm e2.2.symm
      | cons q a'' =>
        simp only [List.cons_append, List.cons.injEq] at e2
        exact inRight a'' e2.2
    · cases c' with
      | nil =>
        simp only [List.nil_append, List.cons.injEq] at e2
        exact inRoot e2.1 e2.2
      | cons q c'' =>
        simp only [List.cons_append, List.cons.injEq] at e2
        obtain ⟨rfl, e3⟩ := e2
        exact inLeft c'' e1 e3

/-- In a well-formed tree `advance` moves from a node to the next one in in-order, and from
the last one to null. -/
theorem bstree.advance_spec {h : THeap} {t : bstree} {s : Shape} (I : TInv h t s)
    {xs : List Nat} {a : Nat} {rest : List Nat} (e : s.addrs = xs ++ a :: rest)
    {F : Nat} (hF : s.size < F) :
    bstree.TreeIteratorImpl.advance F h (some a) = some rest.head? := by
  obtain ⟨i1, i2⟩ := bstree.advance_aux s none I.repr I.nodup xs a rest e
  cases rest with
  | cons b rest2 => exact i1 (by simp) F hF
  | nil =>
    have hs := Shape.rspine_le_size s
    obtain ⟨f, rfl⟩ : ∃ f, F = f + s.rspine := ⟨F - s.rspine, by omega⟩
    rw [i2 rfl f]
    cases s with
    | nil => simp at e
    | node l p v r =>
      obtain ⟨ep, -, -⟩ := I.repr
      simp only [Shape.rootPtr, bstree.leftup, ep]
      rfl

theorem TRepr.deref_cells {h : THeap} {par : Ptr} {s : Shape} (R : TRepr h par s) :
    ∀ a v, (a, v) ∈ s.cells → ∃ n, h.deref a = some n ∧ n.data = v := by
  induction s generalizing par with
  | nil => intro a v hc; simp [Shape.cells] at hc
  | node l p w r ihl ihr =>
    obtain ⟨e, Rl, Rr⟩ := R
    intro a v hc
    simp only [Shape.cells, List.mem_append, List.mem_cons, Prod.mk.injEq] at hc
    rcases hc with hc | ⟨rfl, rfl⟩ | hc
    · exact ihl Rl a v hc
    · exact ⟨_, e, rfl⟩
    · exact ihr Rr a v hc

theorem bstree.tree_range_spec {h : THeap} {t : bstree} {s : Shape} (I : TInv h t s) (lh : LHeap)
    {F : Nat} (hF : s.size < F) : ∀ (suf pre : List (Nat × Int)) (k : Nat),
    s.cells = pre ++ suf → suf.length < k →
    Iterator.range F ⟨lh, h⟩ t.end k ⟨.TreeIteratorImpl (suf.head?.map (·.1))⟩ =
      some (suf.map fun c => (bstree.at c.1, c.2)) := by
  intro suf
  induction suf with
  | nil =>
    intro pre k _ hk
    cases k with
    | zero => simp at hk
    | succ k => rfl
  | cons c suf ih =>
    intro pre k e hk
    obtain ⟨a, v⟩ := c
    cases k with
    | zero => simp at hk
    | succ k =>
      obtain ⟨n, en, rfl⟩ := I.repr.deref_cells a v (by rw [e]; simp)
      have ea : s.addrs = pre.map (·.1) ++ a :: suf.map (·.1) := by
        simp [Shape.addrs, e]
      have adv := bstree.advance_spec I ea hF
      have hne : Iterator.ne ⟨.TreeIteratorImpl (some a)⟩ t.end = true := rfl
      have hd : Iterator.deref ⟨lh, h⟩ ⟨.TreeIteratorImpl (some a)⟩ = some n.data := by
        simp [Iterator.deref, Iterator.Impl.access, en]
      have hi : Iterator.pre_incr F ⟨lh, h⟩ ⟨.TreeIteratorImpl (some a)⟩ =
          some ⟨.TreeIteratorImpl (suf.head?.map (·.1))⟩ := by
        simp [Iterator.pre_incr, Iterator.Impl.advance, adv, List.head?_map]
      have := ih (pre ++ [(a, n.data)]) k (by simp [e]) (by simpa using hk)
      simp only [List.head?_cons, Option.map_some', Iterator.range, hne, if_true, hd, hi, this,
        List.map_cons, bstree.at]

/-- The traversal of a well-formed tree from `begin()` to `end()` returns, and visits the
nodes in in-order. -/
theorem bstree.tree_traverse_spec {h : THeap} {t : bstree} {s : Shape} (I : TInv h t s)
    (lh : LHeap) {F : Nat} (hF : s.size < F) :
    bstree.traverse F ⟨lh, h⟩ t = some (s.cells.map fun c => (bstree.at c.1, c.2)) := by
  have hb : bstree.begin F h t = some ⟨.TreeIteratorImpl (s.cells.head?.map (·.1))⟩ := by
    simp [bstree.begin, I.root, bstree.leftdown_spec s none F I.repr hF, Shape.addrs,
      List.head?_map]
  simp only [bstree.traverse, hb]
  exact bstree.tree_range_spec I lh hF s.cells [] F rfl hF

theorem bstree.insert_full {h : THeap} {s : Shape}
    (full : TFull h s) {h1 : THeap} {x : Int}
    (same : s.insert h.length x = s → h1 = h)
    (len : s.insert h.length x ≠ s → h1.length = h.length + 1)
    (fr : ∀ c, c < h.length → c ∉ s.addrs → h1.deref c = h.deref c) :
    TFull h1 (s.insert h.length x) := by
  intro c n ec
  by_cases es : s.insert h.length x = s
  · rw [es]; rw [same es] at ec; exact full c n ec
  · have l1 := len es
    have clt := Heap.deref_lt ec
    by_cases hc : c ∈ s.addrs
    · exact Shape.subset_addrs_insert _ _ _ _ hc
    · by_cases cl : c < h.length
      · rw [fr c cl hc] at ec
        exact absurd (full c n ec) hc
      · have : c = h.length := by omega
        rw [this]
        exact Shape.mem_addrs_insert_of_ne _ _ _ es

theorem bstree.insert_all_spec : ∀ (xs : List Int) {h : THeap} {t : bstree} {s : Shape},
    TInv h t s → s.vals.Sorted (· < ·) → TFull h s → ∀ {fuel : Nat},
    s.size + xs.length ≤ fuel →
    ∃ h1 t1 s1, bstree.insert_all fuel h t xs = some (h1, t1) ∧ TInv h1 t1 s1 ∧
      s1.vals.Sorted (· < ·) ∧ TFull h1 s1 ∧ (∀ y, y ∈ s1.vals ↔ y ∈ s.vals ∨ y ∈ xs) ∧
      s1.size ≤ s.size + xs.length := by
  intro xs
  induction xs with
  | nil =>
    intro h t s I so full fuel _
    exact ⟨h, t, s, rfl, I, so, full, by simp, by simp⟩
  | cons x xs ih =>
    intro h t s I so full fuel hf
    simp only [List.length_cons] at hf
    obtain ⟨h1, t1, e1, I1, same, len, fr⟩ := bstree.insert_spec I x (show s.size ≤ fuel by omega)
    have sz : (s.insert h.length x).size ≤ s.size + 1 := by
      by_cases es : s.insert h.length x = s
      · rw [es]; omega
      · rw [Shape.size_insert _ _ _ es]
    obtain ⟨h2, t2, s2, e2, I2, so2, full2, mem2, sz2⟩ :=
      ih I1 (Shape.sorted_insert _ x s so)
        (bstree.insert_full full (fun es => (same es).1) len fr) (show _ ≤ fuel by omega)
    refine ⟨h2, t2, s2, by simp only [bstree.insert_all, e1, e2], I2, so2, full2, ?_, by
      simp only [List.length_cons]; omega⟩
    intro y
    rw [mem2, Shape.mem_vals_insert]
    simp only [List.mem_cons]
    tauto

/-- Building a tree by inserts from the empty tree returns a well-formed, ordered tree whose
elements are the inserted values. -/
theorem bstree.build_spec (xs : List Int) {fuel : Nat} (hf : xs.length ≤ fuel) :
    ∃ h t s, bstree.build fuel xs = some (h, t) ∧ TInv h t s ∧ s.vals.Sorted (· < ·) ∧
      TFull h s ∧ (∀ y, y ∈ s.vals ↔ y ∈ xs) ∧ s.size ≤ xs.length := by
  have I0 : TInv [] bstree.mk_empty Shape.nil := ⟨rfl, trivial, by simp, rfl⟩
  have full0 : TFull [] Shape.nil := by
    intro a n e
    simp [Heap.deref] at e
  obtain ⟨h, t, s, e, I, so, full, mem, sz⟩ :=
    bstree.insert_all_spec xs I0 (by simp) full0 (show Shape.nil.size + xs.length ≤ fuel by
      simpa using hf)
  exact ⟨h, t, s, e, I, so, full, by simpa using mem, by simpa using sz⟩

theorem sorted_lt_eq_sort {l : List Int} {xs : List Int} (so : l.Sorted (· < ·))
    (mem : ∀ y, y ∈ l ↔ y ∈ xs) : l = Finset.sort (· ≤ ·) xs.toFinset := by
  refine List.eq_of_perm_of_sorted ?_ (so.imp le_of_lt) (Finset.sort_sorted _ _)
  rw [List.perm_ext_iff_of_nodup so.nodup (Finset.sort_nodup _ _)]
  intro y
  simp [mem]

theorem bstree.elements_build (xs : List Int) (lh : LHeap) {F : Nat} (hF : xs.length < F) :
    ∃ h t cells, bstree.build F xs = some (h, t) ∧ bstree.traverse F ⟨lh, h⟩ t = some cells ∧
      cells.map (·.2) = Finset.sort (· ≤ ·) xs.toFinset := by
  obtain ⟨h, t, s, e, I, so, -, mem, sz⟩ := bstree.build_spec xs (Nat.le_of_lt hF)
  refine ⟨h, t, _, e, bstree.tree_traverse_spec I lh (by omega), ?_⟩
  rw [List.map_map]
  exact sorted_lt_eq_sort so mem

/-- C1. For every list `xs` of values inserted in this order into an empty `bstree`, the
traversal from `begin()` to `end()` returns (with more fuel than values), its elements are
non-decreasing, they are the distinct inserted values in ascending order, and every other
insertion order `ys` of the same value set gives the same elements. -/
theorem C1_inorder_traversal_sorted (xs : List Int) (lh : LHeap) (F : Nat)
    (hF : xs.length < F) :
    ∃ h t cells, bstree.build F xs = some (h, t) ∧
      bstree.traverse F ⟨lh, h⟩ t = some cells ∧
      (cells.map (·.2)).Sorted (· ≤ ·) ∧
      cells.map (·.2) = Finset.sort (· ≤ ·) xs.toFinset ∧
      ∀ (ys : List Int) (G : Nat), ys.toFinset = xs.toFinset → ys.length < G →
        ∃ h1 t1 cells1, bstree.build G ys = some (h1, t1) ∧
          bstree.traverse G ⟨lh, h1⟩ t1 = some cells1 ∧
          cells1.map (·.2) = cells.map (·.2) := by
  obtain ⟨h, t, cells, e, tr, el⟩ := bstree.elements_build xs lh hF
  refine ⟨h, t, cells, e, tr, ?_, el, ?_⟩
  · rw [el]; exact Finset.sort_sorted _ _
  · intro ys G hs hG
    obtain ⟨h1, t1, cells1, e1, tr1, el1⟩ := bstree.elements_build ys lh hG
    exact ⟨h1, t1, cells1, e1, tr1, by rw [el1, el, hs]⟩

/-- C1, the example of `main`: inserting 5 2 8 4 1 7 6 0 9 3 yields 0 1 2 3 4 5 6 7 8 9. -/
theorem C1_inorder_traversal_sorted_witness :
    (bstree.build 11 [5, 2, 8, 4, 1, 7, 6, 0, 9, 3]).bind
        (fun p => (bstree.traverse 11 ⟨[], p.1⟩ p.2).map (List.map (·.2))) =
      some [0, 1, 2, 3, 4, 5, 6, 7, 8, 9] ∧
    ∃ h t cells, bstree.build 11 [5, 2, 8, 4, 1, 7, 6, 0, 9, 3] = some (h, t) ∧
      bstree.traverse 11 ⟨[], h⟩ t = some cells ∧
      (cells.map (·.2)).Sorted (· ≤ ·) ∧
      cells.map (·.2) = Finset.sort (· ≤ ·) [5, 2, 8, 4, 1, 7, 6, 0, 9, 3].toFinset ∧
      ∀ (ys : List Int) (G : Nat), ys.toFinset = [5, 2, 8, 4, 1, 7, 6, 0, 9, 3].toFinset →
        ys.length < G →
        ∃ h1 t1 cells1, bstree.build G ys = some (h1, t1) ∧
          bstree.traverse G ⟨[], h1⟩ t1 = some cells1 ∧
          cells1.map (·.2) = cells.map (·.2) :=
  ⟨by decide, C1_inorder_traversal_sorted [5, 2, 8, 4, 1, 7, 6, 0, 9, 3] [] 11 (by decide)⟩

@[simp] theorem Shape.rootPtr_nil : Shape.nil.rootPtr = none := rfl

@[simp] theorem Shape.rootPtr_node (l r : Shape) (a : Nat) (v : Int) :
    (Shape.node l a v r).rootPtr = some a := rfl

theorem Shape.accept_addrs {σ : Type} (V : Visitor σ) (s : σ) (sh : Shape) :
    (Shape.accept V s sh).2.1.addrs = sh.addrs ∧
      (Shape.accept V s sh).2.1.rootPtr = sh.rootPtr := by
  induction sh generalizing s with
  | nil => exact ⟨rfl, rfl⟩
  | node l a v r ihl ihr =>
    simp only [Shape.accept]
    split_ifs
    · simp [(ihl s).1]
    · simp [(ihl s).1, (ihr _).1]

/-- The pointer-level `accept` follows `Shape.accept`. -/
theorem bstree.accept_node_spec {σ : Type} (V : Visitor σ) : ∀ (sh : Shape) (fuel : Nat)
    (h : THeap) (s : σ) (par : Ptr), TRepr h par sh → sh.addrs.Nodup → sh.size < fuel →
    ∃ h1, bstree.accept_node V fuel h s sh.rootPtr =
        some (h1, (Shape.accept V s sh).1, (Shape.accept V s sh).2.2) ∧
      TRepr h1 par (Shape.accept V s sh).2.1 ∧
      (∀ c, c ∉ sh.addrs → h1.deref c = h.deref c) := by
  intro sh
  induction sh with
  | nil =>
    intro fuel h s par _ _ hf
    cases fuel with
    | zero => simp at hf
    | succ f => exact ⟨h, rfl, trivial, fun _ _ => rfl⟩
  | node l a v r ihl ihr =>
    intro fuel h s par R nd hf
    obtain ⟨e, Rl, Rr⟩ := R
    have alt : a < h.length := Heap.deref_lt e
    simp only [Shape.addrs_node] at nd
    have ndl : l.addrs.Nodup := (List.nodup_append.1 nd).1
    have ndr : r.addrs.Nodup := (List.nodup_cons.1 (List.nodup_append.1 nd).2.1).2
    have anl : a ∉ l.addrs := fun hc =>
      (List.nodup_append.1 nd).2.2 hc (List.mem_cons_self _ _)
    have anr : a ∉ r.addrs := (List.nodup_cons.1 (List.nodup_append.1 nd).2.1).1
    have dlr : ∀ c, c ∈ l.addrs → c ∉ r.addrs := fun c hl hr =>
      (List.nodup_append.1 nd).2.2 hl (List.mem_cons_of_mem _ hr)
    cases fuel with
    | zero => simp at hf
    | succ f =>
      simp only [Shape.size_node] at hf
      obtain ⟨h1, e1, R1, fr1⟩ := ihl f h s (some a) Rl ndl (by omega)
      have ea1 : h1.deref a = some ⟨v, l.rootPtr, r.rootPtr, par⟩ := by rw [fr1 a anl, e]
      have alt1 : a < h1.length := Heap.deref_lt ea1
      have al := Shape.accept_addrs V s l
      simp only [Shape.rootPtr_node, bstree.accept_node, e, e1, Shape.accept]
      by_cases fin : V.finished (Shape.accept V s l).1 = true
      · simp only [fin, if_true]
        refine ⟨h1, rfl, ⟨?_, R1, ?_⟩, ?_⟩
        · rw [ea1, al.2]
        · exact Rr.congr_heap fun c hc => fr1 c (fun hl => dlr c hl hc)
        · intro c hc
          exact fr1 c fun hl => hc (by simp [hl])
      · simp only [fin]
        simp only [ea1, Heap.deref_write_self _ alt1]
        have R2 : TRepr (h1.write a ⟨(V.visit (Shape.accept V s l).1 v).2, l.rootPtr,
            r.rootPtr, par⟩) (some a) r := by
          refine Rr.congr_heap fun c hc => ?_
          rw [Heap.deref_write_of_ne _ (fun hh => anr (by rw [hh]; exact hc)),
            fr1 c (fun hl => dlr c hl hc)]
        obtain ⟨h3, e3, R3, fr3⟩ := ihr f _ (V.visit (Shape.accept V s l).1 v).1 (some a) R2
          ndr (by omega)
        have ar := Shape.accept_addrs V (V.visit (Shape.accept V s l).1 v).1 r
        refine ⟨h3, by simp [e3], ⟨?_, ?_, R3⟩, ?_⟩
        · rw [fr3 a anr, Heap.deref_write_self _ alt1, al.2, ar.2]
        · refine R1.congr_heap fun c hc => ?_
          rw [al.1] at hc
          rw [fr3 c (dlr c hc), Heap.deref_write_of_ne _ (fun hh => anl (by rw [hh]; exact hc))]
        · intro c hc
          simp only [Shape.addrs_node, List.mem_append, List.mem_cons, not_or] at hc
          rw [fr3 c hc.2.2, Heap.deref_write_of_ne _ (Ne.symm hc.2.1), fr1 c hc.1]

@[simp] theorem Event.visits_append (e1 e2 : List Event) :
    Event.visits (e1 ++ e2) = Event.visits e1 ++ Event.visits e2 := by
  induction e1 with
  | nil => rfl
  | cons e es ih => cases e <;> simp [Event.visits, ih]

@[simp] theorem Event.entered_append (e1 e2 : List Event) :
    Event.entered (e1 ++ e2) = Event.entered e1 ++ Event.entered e2 := by
  induction e1 with
  | nil => rfl
  | cons e es ih => cases e <;> simp [Event.entered, ih]

@[simp] theorem Event.queries_append (e1 e2 : List Event) :
    Event.queries (e1 ++ e2) = Event.queries e1 + Event.queries e2 := by
  induction e1 with
  | nil => simp [Event.queries]
  | cons e es ih =>
    cases e
    · simp [Event.queries, ih]
    · simp [Event.queries, ih]; omega
    · simp [Event.queries, ih]

theorem Visitor.walk_finished {σ : Type} (V : Visitor σ) (s : σ) (cs : List (Nat × Int))
    (fin : V.finished s = true) : Visitor.walk V s cs = (s, cs, []) := by
  cases cs with
  | nil => rfl
  | cons c cs => obtain ⟨a, v⟩ := c; simp [Visitor.walk, fin]

theorem Visitor.walk_append {σ : Type} (V : Visitor σ) (s : σ) (xs ys : List (Nat × Int)) :
    Visitor.walk V s (xs ++ ys) =
      ((Visitor.walk V (Visitor.walk V s xs).1 ys).1,
        (Visitor.walk V s xs).2.1 ++ (Visitor.walk V (Visitor.walk V s xs).1 ys).2.1,
        (Visitor.walk V s xs).2.2 ++ (Visitor.walk V (Visitor.walk V s xs).1 ys).2.2) := by
  induction xs generalizing s with
  | nil => simp [Visitor.walk]
  | cons c xs ih =>
    obtain ⟨a, v⟩ := c
    by_cases fin : V.finished s = true
    · simp [Visitor.walk, fin, Visitor.walk_finished V s ys fin]
    · simp [Visitor.walk, fin, ih]

/-- The recursive in-order `accept` has the effect of the front-to-back walk over the nodes
in in-order: same final state, same elements afterwards, same calls of `visit`. -/
theorem Shape.accept_eq_walk {σ : Type} (V : Visitor σ) (s : σ) (sh : Shape) :
    (Shape.accept V s sh).1 = (Visitor.walk V s sh.cells).1 ∧
      (Shape.accept V s sh).2.1.cells = (Visitor.walk V s sh.cells).2.1 ∧
      Event.visits (Shape.accept V s sh).2.2 = (Visitor.walk V s sh.cells).2.2 := by
  induction sh generalizing s with
  | nil => exact ⟨rfl, rfl, rfl⟩
  | node l a v r ihl ihr =>
    obtain ⟨l1, l2, l3⟩ := ihl s
    simp only [Shape.accept, Shape.cells, Visitor.walk_append]
    by_cases fin : V.finished (Shape.accept V s l).1 = true
    · have fin1 : V.finished (Visitor.walk V s l.cells).1 = true := by rw [← l1]; exact fin
      simp [fin, Visitor.walk, fin1, l1, l2, l3, Shape.cells, Event.visits]
    · have fin1 : ¬ V.finished (Visitor.walk V s l.cells).1 = true := by rw [← l1]; exact fin
      obtain ⟨r1, r2, r3⟩ := ihr (V.visit (Shape.accept V s l).1 v).1
      rw [l1] at r1 r2 r3
      simp [fin, Visitor.walk, fin1, l1, l2, l3, r1, r2, r3, Shape.cells, Event.visits]

theorem Visitor.stop_le {σ : Type} (V : Visitor σ) (s : σ) (vs : List Int) :
    Visitor.stop V s vs ≤ vs.length := by
  induction vs generalizing s with
  | nil => simp [Visitor.stop]
  | cons v vs ih =>
    simp only [Visitor.stop]
    split_ifs
    · simp
    · simpa using ih _

/-- The walk visits exactly the first `stop` cells. -/
theorem Visitor.walk_spec {σ : Type} (V : Visitor σ) (s : σ) (cs : List (Nat × Int)) :
    (Visitor.walk V s cs).2.2 = cs.take (Visitor.stop V s (cs.map (·.2))) ∧
      (Visitor.walk V s cs).1 =
        Visitor.stateAfter V s ((cs.map (·.2)).take (Visitor.stop V s (cs.map (·.2)))) ∧
      (Visitor.walk V s cs).2.1.map (·.1) = cs.map (·.1) ∧
      (Visitor.walk V s cs).2.1.map (·.2) =
        Visitor.outputs V s ((cs.map (·.2)).take (Visitor.stop V s (cs.map (·.2)))) ++
          (cs.map (·.2)).drop (Visitor.stop V s (cs.map (·.2))) := by
  induction cs generalizing s with
  | nil => simp [Visitor.walk, Visitor.stop, Visitor.stateAfter, Visitor.outputs]
  | cons c cs ih =>
    obtain ⟨a, v⟩ := c
    by_cases fin : V.finished s = true
    · simp [Visitor.walk, Visitor.stop, fin, Visitor.stateAfter, Visitor.outputs]
    · obtain ⟨i1, i2, i3, i4⟩ := ih (V.visit s v).1
      simp [Visitor.walk, Visitor.stop, fin, Visitor.stateAfter, Visitor.outputs]
      refine ⟨i1, ?_, i3, ?_⟩
      · rw [i2]; rfl
      · rw [i4]

/-- The number `stop` is the length of the shortest prefix after which `finished()` holds:
no shorter prefix leaves the visitor finished, and unless it is the whole list the prefix of
length `stop` does. -/
theorem Visitor.stop_spec {σ : Type} (V : Visitor σ) (s : σ) (vs : List Int) :
    (∀ j, j < Visitor.stop V s vs → V.finished (Visitor.stateAfter V s (vs.take j)) = false) ∧
      (Visitor.stop V s vs < vs.length →
        V.finished (Visitor.stateAfter V s (vs.take (Visitor.stop V s vs))) = true) := by
  induction vs generalizing s with
  | nil => simp [Visitor.stop]
  | cons v vs ih =>
    by_cases fin : V.finished s = true
    · simp [Visitor.stop, fin, Visitor.stateAfter]
    · obtain ⟨i1, i2⟩ := ih (V.visit s v).1
      have fin1 : V.finished s = false := by simpa using fin
      simp only [Visitor.stop, fin1, Bool.false_eq_true, if_false]
      constructor
      · intro j hj
        cases j with
        | zero => simpa [Visitor.stateAfter] using fin1
        | succ j => simpa [Visitor.stateAfter] using i1 j (by omega)
      · intro hlt
        simpa [Visitor.stateAfter] using i2 (by simpa using hlt)

theorem Visitor.stop_never {σ : Type} (V : Visitor σ) (never : ∀ s, V.finished s = false)
    (s : σ) (vs : List Int) : Visitor.stop V s vs = vs.length := by
  induction vs generalizing s with
  | nil => rfl
  | cons v vs ih => simp [Visitor.stop, never, ih]

/-- The visits of `accept` on a well-formed tree: it returns, and `visit` is called on the
first `stop` nodes in in-order. -/
theorem bstree.tree_accept_spec {σ : Type} (V : Visitor σ) {h : THeap} {t : bstree} {sh : Shape}
    (I : TInv h t sh) (s : σ) {F : Nat} (hF : sh.size < F) :
    ∃ h1 ev, bstree.accept V F h t s = some (h1, (Visitor.walk V s sh.cells).1, ev) ∧
      TInv h1 t (Shape.accept V s sh).2.1 ∧ ev = (Shape.accept V s sh).2.2 ∧
      Event.visits ev = sh.cells.take (Visitor.stop V s sh.vals) := by
  obtain ⟨h1, e1, R1, -⟩ := bstree.accept_node_spec V sh F h s none I.repr I.nodup hF
  obtain ⟨w1, -, w3⟩ := Shape.accept_eq_walk V s sh
  have aa := Shape.accept_addrs V s sh
  refine ⟨h1, _, ?_, ⟨?_, R1, ?_, ?_⟩, rfl, ?_⟩
  · rw [← w1]; simp only [bstree.accept, I.root]; exact e1
  · rw [aa.2]; exact I.root
  · rw [aa.1]; exact I.nodup
  · rw [I.size, ← Shape.length_addrs, ← Shape.length_addrs, aa.1]
  · rw [w3, (Visitor.walk_spec V s sh.cells).1]; rfl

/-- C2. For every tree built by inserts from empty, the nodes (and elements) reached from
`begin()` by `advance` until `end()` are exactly those on which the recursive in-order
`accept` calls `visit`, in the same order, for any visitor whose `finished()` is always
false; both traversals return. -/
theorem C2_iterator_matches_recursive_inorder {σ : Type} (V : Visitor σ)
    (never : ∀ s, V.finished s = false) (s0 : σ) (xs : List Int) (lh : LHeap) (F : Nat)
    (hF : xs.length < F) :
    ∃ h t cells h1 s1 ev, bstree.build F xs = some (h, t) ∧
      bstree.traverse F ⟨lh, h⟩ t = some cells ∧
      bstree.accept V F h t s0 = some (h1, s1, ev) ∧
      cells = (Event.visits ev).map (fun c => (bstree.at c.1, c.2)) := by
  obtain ⟨h, t, sh, e, I, -, -, -, sz⟩ := bstree.build_spec xs (Nat.le_of_lt hF)
  obtain ⟨h1, ev, ea, -, -, vis⟩ := bstree.tree_accept_spec V I s0 (show sh.size < F by omega)
  refine ⟨h, t, _, h1, _, ev, e, bstree.tree_traverse_spec I lh (by omega), ea, ?_⟩
  rw [vis, Visitor.stop_never V never, Shape.length_vals, Shape.size, List.take_length]

/-- C2 at the tree of `main` with the visitor `AddingVisitor`. -/
theorem C2_iterator_matches_recursive_inorder_witness :
    (∀ s, AddingVisitor.finished s = false) ∧
    ∃ h t cells h1 s1 ev, bstree.build 11 [5, 2, 8, 4, 1, 7, 6, 0, 9, 3] = some (h, t) ∧
      bstree.traverse 11 ⟨[], h⟩ t = some cells ∧
      bstree.accept AddingVisitor 11 h t 0 = some (h1, s1, ev) ∧
      cells = (Event.visits ev).map (fun c => (bstree.at c.1, c.2)) :=
  ⟨fun _ => rfl, C2_iterator_matches_recursive_inorder AddingVisitor (fun _ => rfl) 0
    [5, 2, 8, 4, 1, 7, 6, 0, 9, 3] [] 11 (by decide)⟩

theorem TRepr.cell_of_deref {h : THeap} {par : Ptr} {s : Shape} (R : TRepr h par s)
    {a : Nat} {n : bstree.node} (e : h.deref a = some n) (mem : a ∈ s.addrs) :
    (a, n.data) ∈ s.cells := by
  simp only [Shape.addrs, List.mem_map] at mem
  obtain ⟨⟨a1, v⟩, hc, rfl⟩ := mem
  obtain ⟨m, em, rfl⟩ := R.deref_cells a1 v hc
  simp only at e
  rw [e] at em
  injection em with em
  rw [em]; exact hc

/-- In a well-formed ordered tree, `advance` at the node of a cell goes to the node of the
next cell in in-order, whose element is the least one above, and to null at the last cell,
whose element is the greatest. -/
theorem bstree.advance_sorted {h : THeap} {t : bstree} {s : Shape} (I : TInv h t s)
    (so : s.vals.Sorted (· < ·)) {pc rc : List (Nat × Int)} {a : Nat} {v : Int}
    (e : s.cells = pc ++ (a, v) :: rc) {F : Nat} (hF : s.size < F) :
    bstree.TreeIteratorImpl.advance F h (some a) = some (rc.head?.map (·.1)) ∧
      (rc = [] ↔ ∀ y ∈ s.vals, y ≤ v) ∧
      (∀ c ∈ rc.head?, v < c.2 ∧ c ∈ s.cells ∧ ∀ y ∈ s.vals, v < y → c.2 ≤ y) := by
  have ea : s.addrs = pc.map (·.1) ++ a :: rc.map (·.1) := by simp [Shape.addrs, e]
  have ev : s.vals = pc.map (·.2) ++ v :: rc.map (·.2) := by simp [Shape.vals, e]
  rw [ev] at so
  simp only [List.Sorted, List.pairwise_append, List.pairwise_cons, List.mem_cons,
    forall_eq_or_imp] at so
  obtain ⟨-, ⟨vr, sr⟩, lr⟩ := so
  refine ⟨by rw [bstree.advance_spec I ea hF, List.head?_map], ?_, ?_⟩
  · constructor
    · rintro rfl y hy
      rw [ev] at hy
      simp only [List.map_nil, List.mem_append, List.mem_cons, List.not_mem_nil,
        or_false] at hy
      rcases hy with hy | rfl
      · exact le_of_lt (lr y hy).1
      · exact le_refl _
    · intro hmax
      cases rc with
      | nil => rfl
      | cons c rc =>
        have h1 := vr c.2 (by simp)
        have h2 := hmax c.2 (by rw [ev]; simp)
        exact absurd (lt_of_lt_of_le h1 h2) (lt_irrefl _)
  · intro c hc
    cases rc with
    | nil => simp at hc
    | cons c1 rc =>
      simp only [List.head?_cons, Option.mem_def, Option.some.injEq] at hc
      subst hc
      refine ⟨vr c1.2 (by simp), by rw [e]; simp, fun y hy hvy => ?_⟩
      rw [ev] at hy
      simp only [List.map_cons, List.mem_append, List.mem_cons] at hy
      rcases hy with hy | rfl | rfl | hy
      · exact absurd ((lr y hy).1.trans hvy) (lt_irrefl _)
      · exact absurd hvy (lt_irrefl _)
      · exact le_refl _
      · simp only [List.map_cons, List.pairwise_cons] at sr
        exact le_of_lt (sr.1 y hy)

/-- C3. In every tree built by inserts from empty (with more fuel than values), the live
nodes hold exactly the inserted values, and `advance` at any node `a` returns: it moves to
null exactly when `a` holds the maximum, and otherwise to a node holding a value above
that of `a` and below or equal to every stored value above that of `a`. -/
theorem C3_advance_is_inorder_successor (xs : List Int) (F : Nat) (hF : xs.length < F) :
    ∃ h t, bstree.build F xs = some (h, t) ∧
      (∀ y, y ∈ xs ↔ ∃ c m, h.deref c = some m ∧ m.data = y) ∧
      ∀ a n, h.deref a = some n →
        ∃ q, bstree.TreeIteratorImpl.advance F h (some a) = some q ∧
          (q = none ↔ ∀ c m, h.deref c = some m → m.data ≤ n.data) ∧
          ∀ b, q = some b → ∃ nb, h.deref b = some nb ∧ n.data < nb.data ∧
            ∀ c m, h.deref c = some m → n.data < m.data → nb.data ≤ m.data := by
  obtain ⟨h, t, s, e, I, so, full, mem, sz⟩ := bstree.build_spec xs (Nat.le_of_lt hF)
  have stored : ∀ c m, h.deref c = some m → m.data ∈ s.vals := by
    intro c m ec
    have := I.repr.cell_of_deref ec (full c m ec)
    simp only [Shape.vals, List.mem_map]
    exact ⟨_, this, rfl⟩
  refine ⟨h, t, e, ?_, ?_⟩
  · intro y
    rw [← mem]
    constructor
    · intro hy
      simp only [Shape.vals, List.mem_map] at hy
      obtain ⟨⟨c, v⟩, hc, rfl⟩ := hy
      obtain ⟨m, em, rfl⟩ := I.repr.deref_cells c v hc
      exact ⟨c, m, em, rfl⟩
    · rintro ⟨c, m, ec, rfl⟩
      exact stored c m ec
  · intro a n ea
    obtain ⟨pc, rc, ec⟩ := List.append_of_mem (I.repr.cell_of_deref ea (full a n ea))
    obtain ⟨adv, mx, nx⟩ := bstree.advance_sorted I so ec (show s.size < F by omega)
    refine ⟨_, adv, ?_, ?_⟩
    · rw [Option.map_eq_none', List.head?_eq_none_iff, mx]
      constructor
      · intro hh c m ecm
        exact hh _ (stored c m ecm)
      · intro hh y hy
        simp only [Shape.vals, List.mem_map] at hy
        obtain ⟨⟨c, v⟩, hc, rfl⟩ := hy
        obtain ⟨m, em, rfl⟩ := I.repr.deref_cells c v hc
        exact hh c m em
    · intro b hb
      simp only [Option.map_eq_some'] at hb
      obtain ⟨⟨b1, w⟩, hhead, rfl⟩ := hb
      obtain ⟨lt, hc, least⟩ := nx (b1, w) hhead
      obtain ⟨nb, enb, rfl⟩ := I.repr.deref_cells b1 w hc
      exact ⟨nb, enb, lt, fun c m ecm hlt => least _ (stored c m ecm) hlt⟩

/-- C3 at the tree of `main`: the node holding 1 is at address 4, `advance` moves from it to
address 1, which holds 2. -/
theorem C3_advance_is_inorder_successor_witness :
    (bstree.build 11 [5, 2, 8, 4, 1, 7, 6, 0, 9, 3]).map (fun p =>
        ((p.1.deref 4).map (·.data), bstree.TreeIteratorImpl.advance 11 p.1 (some 4),
          (p.1.deref 1).map (·.data))) = some (some 1, some (some 1), some 2) ∧
    ∃ h t, bstree.build 11 [5, 2, 8, 4, 1, 7, 6, 0, 9, 3] = some (h, t) ∧
      (∀ y, y ∈ [5, 2, 8, 4, 1, 7, 6, 0, 9, 3] ↔ ∃ c m, h.deref c = some m ∧ m.data = y) ∧
      ∀ a n, h.deref a = some n →
        ∃ q, bstree.TreeIteratorImpl.advance 11 h (some a) = some q ∧
          (q = none ↔ ∀ c m, h.deref c = some m → m.data ≤ n.data) ∧
          ∀ b, q = some b → ∃ nb, h.deref b = some nb ∧ n.data < nb.data ∧
            ∀ c m, h.deref c = some m → n.data < m.data → nb.data ≤ m.data :=
  ⟨by decide, C3_advance_is_inorder_successor [5, 2, 8, 4, 1, 7, 6, 0, 9, 3] 11 (by decide)⟩

/-- C4. For every tree built by inserts from empty and every value `x` already stored in
it, `insert(x)` returns and leaves the heap and the tree object exactly as they were: no
node or link is modified, `size()` is the same and so is the traversal. -/
theorem C4_insert_duplicate_is_noop (xs : List Int) (x : Int) (lh : LHeap) (F : Nat)
    (hx : x ∈ xs) (hF : xs.length < F) :
    ∃ h t, bstree.build F xs = some (h, t) ∧ bstree.insert F h t x = some (h, t) ∧
      ∀ h1 t1, bstree.insert F h t x = some (h1, t1) →
        h1 = h ∧ t1.size = t.size ∧
          bstree.traverse F ⟨lh, h1⟩ t1 = bstree.traverse F ⟨lh, h⟩ t := by
  obtain ⟨h, t, s, e, I, so, -, mem, sz⟩ := bstree.build_spec xs (Nat.le_of_lt hF)
  obtain ⟨h1, t1, e1, -, same, -, -⟩ := bstree.insert_spec I x (show s.size ≤ F by omega)
  obtain ⟨rfl, rfl⟩ := same (Shape.insert_of_mem _ x s so ((mem x).2 hx))
  refine ⟨h1, t1, e, e1, ?_⟩
  intro h2 t2 e2
  rw [e1] at e2
  injection e2 with e2
  injection e2 with e3 e4
  subst e3; subst e4
  exact ⟨rfl, rfl, rfl⟩

/-- C4 at the tree of `main`, inserting 4 again. -/
theorem C4_insert_duplicate_is_noop_witness :
    (4 : Int) ∈ [5, 2, 8, 4, 1, 7, 6, 0, 9, 3] ∧
    ∃ h t, bstree.build 11 [5, 2, 8, 4, 1, 7, 6, 0, 9, 3] = some (h, t) ∧
      bstree.insert 11 h t 4 = some (h, t) ∧
      ∀ h1 t1, bstree.insert 11 h t 4 = some (h1, t1) →
        h1 = h ∧ t1.size = t.size ∧
          bstree.traverse 11 ⟨[], h1⟩ t1 = bstree.traverse 11 ⟨[], h⟩ t :=
  ⟨by decide, C4_insert_duplicate_is_noop [5, 2, 8, 4, 1, 7, 6, 0, 9, 3] 4 [] 11 (by decide)
    (by decide)⟩

/-! ## Lemmas: lists -/

theorem LSeg.cell_lt {h : LHeap} {p : Ptr} {cs : List (Nat × Int)} (S : LSeg h p cs) :
    ∀ c ∈ cs, c.1 < h.length := by
  induction cs generalizing p with
  | nil => simp
  | cons c cs ih =>
    obtain ⟨a, v⟩ := c
    obtain ⟨e, S1⟩ := S
    intro c hc
    rcases List.mem_cons.1 hc with rfl | hc
    · exact Heap.deref_lt e
    · exact ih S1 c hc

theorem LSeg.congr_chain {h h1 : LHeap} {p : Ptr} {cs : List (Nat × Int)} (S : LSeg h p cs)
    (same : ∀ c ∈ cs, h1.deref c.1 = h.deref c.1) : LSeg h1 p cs := by
  induction cs generalizing p with
  | nil => trivial
  | cons c cs ih =>
    obtain ⟨a, v⟩ := c
    obtain ⟨e, S1⟩ := S
    refine ⟨?_, ih S1 fun c hc => same c (List.mem_cons_of_mem _ hc)⟩
    rw [same (a, v) (List.mem_cons_self _ _)]; exact e

theorem LSeg.deref_chain {h : LHeap} {p : Ptr} {cs : List (Nat × Int)} (S : LSeg h p cs) :
    ∀ c ∈ cs, ∃ n, h.deref c.1 = some n ∧ n.data = c.2 := by
  induction cs generalizing p with
  | nil => simp
  | cons c cs ih =>
    obtain ⟨a, v⟩ := c
    obtain ⟨e, S1⟩ := S
    intro c hc
    rcases List.mem_cons.1 hc with rfl | hc
    · exact ⟨_, e, rfl⟩
    · exact ih S1 c hc

/-- The last node of a chain, with its fields. -/
theorem LSeg.deref_last {h : LHeap} {p : Ptr} {cs : List (Nat × Int)} {b : Nat} {v : Int}
    (S : LSeg h p (cs ++ [(b, v)])) :
    h.deref b = some ⟨v, none, if cs = [] then p else cs.getLast?.map (·.1)⟩ := by
  induction cs generalizing p with
  | nil => exact S.1
  | cons c cs ih =>
    obtain ⟨a, w⟩ := c
    obtain ⟨-, S1⟩ := S
    rw [ih S1]
    cases cs with
    | nil => simp
    | cons c2 cs => simp [List.getLast?_cons_cons]

/-- Linking a new last node behind a chain. -/
theorem LSeg.snoc {h : LHeap} {x : Int} : ∀ (cs : List (Nat × Int)) (p : Ptr) (b : Nat)
    (v : Int) (n : dlist.node), LSeg h p (cs ++ [(b, v)]) →
    ((cs ++ [(b, v)]).map (·.1)).Nodup → h.deref b = some n →
    LSeg ((h.alloc (dlist.node.mk x none (some b))).write b { n with next := some h.length })
      p ((cs ++ [(b, v)]) ++ [(h.length, x)]) := by
  intro cs
  induction cs with
  | nil =>
    intro p b v n S _ en
    obtain ⟨e, -⟩ := S
    have blt : b < h.length := Heap.deref_lt e
    rw [e] at en
    injection en with en
    subst en
    refine ⟨?_, ?_, trivial⟩
    · rw [Heap.deref_write_self _ (by simp; omega)]; rfl
    · rw [Heap.deref_write_of_ne _ (Nat.ne_of_lt blt), Heap.deref_alloc_length]; rfl
  | cons c cs ih =>
    intro p b v n S nd en
    obtain ⟨a, w⟩ := c
    obtain ⟨e, S1⟩ := S
    have alt : a < h.length := Heap.deref_lt e
    simp only [List.cons_append, List.map_cons, List.nodup_cons] at nd
    have ab : b ≠ a := fun hh => nd.1 (by rw [← hh]; simp)
    refine ⟨?_, ih (some a) b v n S1 nd.2 en⟩
    rw [Heap.deref_write_of_ne _ ab, Heap.deref_alloc_of_lt _ alt, e]
    cases cs <;> rfl

/-- Unlinking the last node of a chain. -/
theorem LSeg.unsnoc {h : LHeap} : ∀ (cs : List (Nat × Int)) (p : Ptr) (b : Nat) (v : Int)
    (q : Nat) (w : Int) (n : dlist.node), LSeg h p ((cs ++ [(b, v)]) ++ [(q, w)]) →
    (((cs ++ [(b, v)]) ++ [(q, w)]).map (·.1)).Nodup → h.deref b = some n →
    LSeg ((h.write b { n with next := none }).free q) p (cs ++ [(b, v)]) := by
  intro cs
  induction cs with
  | nil =>
    intro p b v q w n S nd en
    obtain ⟨e, -⟩ := S
    have blt : b < h.length := Heap.deref_lt e
    rw [e] at en
    injection en with en
    subst en
    have qb : q ≠ b := by
      intro hh
      simp [hh] at nd
    refine ⟨?_, trivial⟩
    rw [Heap.deref_free_of_ne qb, Heap.deref_write_self _ blt]; rfl
  | cons c cs ih =>
    intro p b v q w n S nd en
    obtain ⟨a, u⟩ := c
    obtain ⟨e, S1⟩ := S
    simp only [List.cons_append, List.map_cons, List.nodup_cons] at nd
    have ab : b ≠ a := fun hh => nd.1 (by rw [← hh]; simp)
    have aq : q ≠ a := fun hh => nd.1 (by rw [← hh]; simp)
    refine ⟨?_, ih (some a) b v q w n S1 nd.2 en⟩
    rw [Heap.deref_free_of_ne aq, Heap.deref_write_of_ne _ ab, e]
    cases cs <;> rfl

theorem LInv.fresh {h : LHeap} {l : dlist} {cs : List (Nat × Int)} (I : LInv h l cs) :
    h.length ∉ cs.map (·.1) := by
  intro hc
  obtain ⟨c, hc, e⟩ := List.mem_map.1 hc
  have := I.seg.cell_lt c hc
  omega

/-- The effect of `push_back(x)` on a well-formed list. -/
theorem dlist.push_back_spec {h : LHeap} {l : dlist} {cs : List (Nat × Int)}
    (I : LInv h l cs) (x : Int) :
    ∃ h1 l1, dlist.push_back h l x = some (h1, l1) ∧ LInv h1 l1 (cs ++ [(h.length, x)]) ∧
      h1.length = h.length + 1 := by
  have fresh := I.fresh
  have nd1 : ((cs ++ [(h.length, x)]).map (·.1)).Nodup := by
    rw [List.map_append, List.nodup_append]
    refine ⟨I.nodup, by simp, ?_⟩
    intro a ha hb
    simp only [List.map_cons, List.map_nil, List.mem_singleton] at hb
    exact fresh (hb ▸ ha)
  rcases List.eq_nil_or_concat cs with rfl | ⟨cs1, ⟨b, v⟩, rfl⟩
  · have hb : l.the_back = none := I.back
    refine ⟨h.alloc (dlist.node.mk x none none), ⟨some h.length, some h.length,
      l.the_size + 1⟩, by simp only [dlist.push_back, hb], ⟨rfl, rfl, ⟨?_, trivial⟩, nd1, ?_⟩,
      by simp⟩
    · simp
    · simp [I.size]
  · have hb : l.the_back = some b := by simpa using I.back
    simp only [List.concat_eq_append] at I nd1 ⊢
    obtain ⟨n, en, -⟩ := I.seg.deref_chain (b, v) (by simp)
    have blt : b < h.length := Heap.deref_lt en
    have e0 : (h.alloc (dlist.node.mk x none (some b))).deref b = some n := by
      rw [Heap.deref_alloc_of_lt _ blt]; exact en
    refine ⟨(h.alloc (dlist.node.mk x none (some b))).write b { n with next := some h.length },
      ⟨l.the_front, some h.length, l.the_size + 1⟩, by
        simp only [dlist.push_back, hb, e0], ⟨?_, ?_, ?_, nd1, ?_⟩, by simp⟩
    · have := I.front
      cases cs1 <;> simpa using this
    · simp
    · exact LSeg.snoc cs1 none b v n I.seg I.nodup en
    · simp [I.size]; omega

/-- The effect of `push_front(x)` on a well-formed list. -/
theorem dlist.push_front_spec {h : LHeap} {l : dlist} {cs : List (Nat × Int)}
    (I : LInv h l cs) (x : Int) :
    ∃ h1 l1, dlist.push_front h l x = some (h1, l1) ∧ LInv h1 l1 ((h.length, x) :: cs) ∧
      h1.length = h.length + 1 := by
  have fresh := I.fresh
  have nd1 : (((h.length, x) :: cs).map (·.1)).Nodup := by
    rw [List.map_cons, List.nodup_cons]
    exact ⟨fresh, I.nodup⟩
  cases cs with
  | nil =>
    have hf : l.the_front = none := I.front
    refine ⟨h.alloc (dlist.node.mk x none none), ⟨some h.length, some h.length,
      l.the_size + 1⟩, by simp only [dlist.push_front, hf], ⟨rfl, rfl, ⟨?_, trivial⟩, nd1, ?_⟩,
      by simp⟩
    · simp
    · simp [I.size]
  | cons c cs1 =>
    obtain ⟨f, v⟩ := c
    have hf : l.the_front = some f := by simpa using I.front
    obtain ⟨en, S1⟩ := I.seg
    have flt : f < h.length := Heap.deref_lt en
    have e0 : (h.alloc (dlist.node.mk x (some f) none)).deref f =
        some ⟨v, cs1.head?.map (·.1), none⟩ := by
      rw [Heap.deref_alloc_of_lt _ flt]; exact en
    have nd := I.nodup
    simp only [List.map_cons, List.nodup_cons] at nd
    refine ⟨(h.alloc (dlist.node.mk x (some f) none)).write f
        ⟨v, cs1.head?.map (·.1), some h.length⟩,
      ⟨some h.length, l.the_back, l.the_size + 1⟩, by
        simp only [dlist.push_front, hf, e0], ⟨rfl, ?_, ⟨?_, ?_, ?_⟩, nd1, ?_⟩, by simp⟩
    · rw [I.back]
      simp [List.getLast?_cons_cons]
    · rw [Heap.deref_write_of_ne _ (Nat.ne_of_lt flt), Heap.deref_alloc_length]; rfl
    · rw [Heap.deref_write_self _ (by simp; omega)]
    · refine S1.congr_chain fun c hc => ?_
      have cf : f ≠ c.1 := fun hh => nd.1 (List.mem_map.2 ⟨c, hc, hh.symm⟩)
      rw [Heap.deref_write_of_ne _ cf, Heap.deref_alloc_of_lt _ (S1.cell_lt c hc)]
    · simp [I.size]

/-- The effect of `pop_back()` on a well-formed non-empty list. -/
theorem dlist.pop_back_spec {h : LHeap} {l : dlist} {cs : List (Nat × Int)} {q : Nat}
    {w : Int} (I : LInv h l (cs ++ [(q, w)])) :
    ∃ h1 l1, dlist.pop_back h l = some (h1, l1) ∧ LInv h1 l1 cs ∧ h1.length = h.length := by
  have hb : l.the_back = some q := by simpa using I.back
  have eq := I.seg.deref_last
  have nd := I.nodup
  have ndc : (cs.map (·.1)).Nodup := by
    rw [List.map_append] at nd
    exact (List.nodup_append.1 nd).1
  have sz : l.the_size - 1 = cs.length := by
    have := I.size
    simp only [List.length_append, List.length_singleton, Nat.cast_add, Nat.cast_one] at this
    omega
  rcases List.eq_nil_or_concat cs with rfl | ⟨cs1, ⟨b, v⟩, rfl⟩
  · simp only [if_true] at eq
    refine ⟨h.free q, ⟨none, none, l.the_size - 1⟩, by
      simp only [dlist.pop_back, hb, eq], ⟨rfl, rfl, trivial, by simp, sz⟩, by simp⟩
  · simp only [List.concat_eq_append] at I nd eq ndc sz ⊢
    have ep : (if cs1 ++ [(b, v)] = [] then (none : Ptr)
        else (cs1 ++ [(b, v)]).getLast?.map (·.1)) = some b := by simp
    rw [ep] at eq
    obtain ⟨n, en, -⟩ := I.seg.deref_chain (b, v) (by simp)
    refine ⟨(h.write b { n with next := none }).free q, ⟨l.the_front, some b, l.the_size - 1⟩,
      by simp only [dlist.pop_back, hb, eq, en], ⟨?_, ?_, ?_, ndc, sz⟩, by simp⟩
    · have := I.front
      cases cs1 <;> simpa using this
    · simp
    · exact LSeg.unsnoc cs1 none b v q w n I.seg nd en

/-- The effect of `pop_front()` on a well-formed non-empty list. -/
theorem dlist.pop_front_spec {h : LHeap} {l : dlist} {cs : List (Nat × Int)} {q : Nat}
    {w : Int} (I : LInv h l ((q, w) :: cs)) :
    ∃ h1 l1, dlist.pop_front h l = some (h1, l1) ∧ LInv h1 l1 cs ∧ h1.length = h.length := by
  have hf : l.the_front = some q := by simpa using I.front
  obtain ⟨eq, S1⟩ := I.seg
  have nd := I.nodup
  simp only [List.map_cons, List.nodup_cons] at nd
  have sz : l.the_size - 1 = cs.length := by
    have := I.size
    simp only [List.length_cons, Nat.cast_add, Nat.cast_one] at this
    omega
  cases cs with
  | nil =>
    refine ⟨h.free q, ⟨none, none, l.the_size - 1⟩, by
      simp only [dlist.pop_front, hf, eq, List.head?_nil, Option.map_none'],
      ⟨rfl, rfl, trivial, by simp, sz⟩, by simp⟩
  | cons c cs1 =>
    obtain ⟨f, v⟩ := c
    obtain ⟨ef, S2⟩ := S1
    have flt : f < h.length := Heap.deref_lt ef
    have nd2 := nd.2
    simp only [List.map_cons, List.nodup_cons] at nd2
    have qf : q ≠ f := fun hh => nd.1 (by simp [hh])
    refine ⟨(h.write f ⟨v, cs1.head?.map (·.1), none⟩).free q,
      ⟨some f, l.the_back, l.the_size - 1⟩, by
        simp only [dlist.pop_front, hf, eq, List.head?_cons, Option.map_some', ef],
      ⟨rfl, ?_, ⟨?_, ?_⟩, nd.2, sz⟩, by simp⟩
    · rw [I.back]
      simp [List.getLast?_cons_cons]
    · rw [Heap.deref_free_of_ne qf, Heap.deref_write_self _ flt]
    · refine S2.congr_chain fun c hc => ?_
      have cf : f ≠ c.1 := fun hh => nd2.1 (List.mem_map.2 ⟨c, hc, hh.symm⟩)
      have cq : q ≠ c.1 := fun hh =>
        nd.1 (List.mem_map.2 ⟨c, List.mem_cons_of_mem _ hc, hh.symm⟩)
      rw [Heap.deref_free_of_ne cq, Heap.deref_write_of_ne _ cf]

theorem dlist.purge_loop_spec : ∀ (cs : List (Nat × Int)) (h : LHeap) (p : Ptr) (fuel : Nat),
    LSeg h p cs → (cs.map (·.1)).Nodup → cs.length < fuel →
    ∃ h1, dlist.purge_loop fuel h (cs.head?.map (·.1)) = some h1 ∧ h1.length = h.length ∧
      (∀ c ∈ cs, h1.deref c.1 = none) ∧
      (∀ a, a ∉ cs.map (·.1) → h1.deref a = h.deref a) := by
  intro cs
  induction cs with
  | nil =>
    intro h p fuel _ _ hf
    cases fuel with
    | zero => simp at hf
    | succ f => exact ⟨h, rfl, rfl, by simp, fun _ _ => rfl⟩
  | cons c cs ih =>
    intro h p fuel S nd hf
    obtain ⟨q, v⟩ := c
    obtain ⟨eq, S1⟩ := S
    simp only [List.map_cons, List.nodup_cons] at nd
    cases fuel with
    | zero => simp at hf
    | succ f =>
      have S2 : LSeg (h.free q) (some q) cs := S1.congr_chain fun c hc =>
        Heap.deref_free_of_ne fun hh => nd.1 (List.mem_map.2 ⟨c, hc, hh.symm⟩)
      obtain ⟨h1, e1, len, gone, fr⟩ := ih (h.free q) (some q) f S2 nd.2 (by
        simpa using hf)
      refine ⟨h1, by simp only [List.head?_cons, Option.map_some', dlist.purge_loop, eq, e1],
        by simpa using len, ?_, ?_⟩
      · intro c hc
        rcases List.mem_cons.1 hc with rfl | hc
        · rw [fr _ nd.1]; simp
        · exact gone c hc
      · intro a ha
        simp only [List.map_cons, List.mem_cons, not_or] at ha
        rw [fr a ha.2, Heap.deref_free_of_ne (Ne.symm ha.1)]

/-- The effect of `clear()` on a well-formed list. -/
theorem dlist.list_clear_spec {h : LHeap} {l : dlist} {cs : List (Nat × Int)} (I : LInv h l cs)
    {fuel : Nat} (hf : cs.length < fuel) :
    ∃ h1 l1, dlist.clear fuel h l = some (h1, l1) ∧ LInv h1 l1 [] ∧ h1.length = h.length := by
  obtain ⟨h1, e1, len, -, -⟩ := dlist.purge_loop_spec cs h none fuel I.seg I.nodup hf
  rw [← I.front] at e1
  exact ⟨h1, ⟨none, none, 0⟩, by simp only [dlist.clear, dlist.purge, e1],
    ⟨rfl, rfl, trivial, by simp, rfl⟩, len⟩

theorem dlist.list_range_spec {h : LHeap} (th : THeap) (l : dlist) (F : Nat) :
    ∀ (cs : List (Nat × Int)) (p : Ptr) (k : Nat), LSeg h p cs → cs.length < k →
    Iterator.range F ⟨h, th⟩ l.end k ⟨.ListIteratorImpl (cs.head?.map (·.1))⟩ =
      some (cs.map fun c => (dlist.at c.1, c.2)) := by
  intro cs
  induction cs with
  | nil =>
    intro p k _ hk
    cases k with
    | zero => simp at hk
    | succ k => rfl
  | cons c cs ih =>
    intro p k S hk
    obtain ⟨a, v⟩ := c
    obtain ⟨e, S1⟩ := S
    cases k with
    | zero => simp at hk
    | succ k =>
      have hne : Iterator.ne ⟨.ListIteratorImpl (some a)⟩ l.end = true := rfl
      have hd : Iterator.deref ⟨h, th⟩ ⟨.ListIteratorImpl (some a)⟩ = some v := by
        simp [Iterator.deref, Iterator.Impl.access, e]
      have hi : Iterator.pre_incr F ⟨h, th⟩ ⟨.ListIteratorImpl (some a)⟩ =
          some ⟨.ListIteratorImpl (cs.head?.map (·.1))⟩ := by
        simp [Iterator.pre_incr, Iterator.Impl.advance, dlist.ListIteratorImpl.advance, e]
      have := ih (some a) k S1 (by simpa using hk)
      simp only [List.head?_cons, Option.map_some', Iterator.range, hne, if_true, hd, hi, this,
        List.map_cons, dlist.at]

/-- The traversal of a well-formed list from `begin()` to `end()` returns, and visits the
nodes front to back. -/
theorem dlist.list_traverse_spec {h : LHeap} {l : dlist} {cs : List (Nat × Int)} (I : LInv h l cs)
    (th : THeap) {F : Nat} (hF : cs.length < F) :
    dlist.traverse F ⟨h, th⟩ l = some (cs.map fun c => (dlist.at c.1, c.2)) := by
  simp only [dlist.traverse, dlist.begin, I.front]
  exact dlist.list_range_spec th l F cs none F I.seg hF

theorem dlist.mk_empty_inv (h : LHeap) : LInv h dlist.mk_empty [] :=
  ⟨rfl, rfl, trivial, by simp, rfl⟩

/-- Each call on a well-formed list does what its model says. -/
theorem dlist.step_spec {h : LHeap} {l : dlist} {cs : List (Nat × Int)} (I : LInv h l cs)
    (op : dlist.Op) {vs : List Int} (hm : dlist.Op.model (cs.map (·.2)) op = some vs)
    {fuel : Nat} (hf : cs.length < fuel) :
    ∃ h1 l1 cs1, dlist.step fuel h l op = some (h1, l1) ∧ LInv h1 l1 cs1 ∧
      cs1.map (·.2) = vs ∧ cs1.length ≤ cs.length + 1 := by
  cases op with
  | push_back x =>
    obtain ⟨h1, l1, e, I1, -⟩ := dlist.push_back_spec I x
    simp only [dlist.Op.model, Option.some.injEq] at hm
    exact ⟨h1, l1, _, e, I1, by simp [← hm], by simp⟩
  | push_front x =>
    obtain ⟨h1, l1, e, I1, -⟩ := dlist.push_front_spec I x
    simp only [dlist.Op.model, Option.some.injEq] at hm
    exact ⟨h1, l1, _, e, I1, by simp [← hm], by simp⟩
  | pop_back =>
    rcases List.eq_nil_or_concat cs with rfl | ⟨cs1, ⟨q, w⟩, rfl⟩
    · simp [dlist.Op.model] at hm
    · simp only [List.concat_eq_append] at I hm ⊢
      obtain ⟨h1, l1, e, I1, -⟩ := dlist.pop_back_spec I
      simp [dlist.Op.model] at hm
      exact ⟨h1, l1, cs1, e, I1, hm, by simp only [List.length_append]; omega⟩
  | pop_front =>
    cases cs with
    | nil => simp [dlist.Op.model] at hm
    | cons c cs1 =>
      obtain ⟨q, w⟩ := c
      obtain ⟨h1, l1, e, I1, -⟩ := dlist.pop_front_spec I
      simp [dlist.Op.model] at hm
      exact ⟨h1, l1, cs1, e, I1, hm, by simp only [List.length_cons]; omega⟩
  | clear =>
    obtain ⟨h1, l1, e, I1, -⟩ := dlist.list_clear_spec I hf
    simp only [dlist.Op.model, Option.some.injEq] at hm
    exact ⟨h1, l1, [], e, I1, by simp [← hm], by simp⟩

/-- A sequence of calls on a well-formed list returns and does what its model says. -/
theorem dlist.list_run_spec : ∀ (ops : List dlist.Op) {h : LHeap} {l : dlist}
    {cs : List (Nat × Int)}, LInv h l cs → ∀ {vs : List Int},
    dlist.Op.models (cs.map (·.2)) ops = some vs → ∀ {fuel : Nat},
    cs.length + ops.length < fuel →
    ∃ h1 l1 cs1, dlist.run fuel h l ops = some (h1, l1) ∧ LInv h1 l1 cs1 ∧
      cs1.map (·.2) = vs ∧ cs1.length ≤ cs.length + ops.length := by
  intro ops
  induction ops with
  | nil =>
    intro h l cs I vs hm fuel _
    simp only [dlist.Op.models, Option.some.injEq] at hm
    exact ⟨h, l, cs, rfl, I, hm, by simp⟩
  | cons op ops ih =>
    intro h l cs I vs hm fuel hf
    simp only [List.length_cons] at hf
    simp only [dlist.Op.models] at hm
    cases hm1 : dlist.Op.model (cs.map (·.2)) op with
    | none => simp [hm1] at hm
    | some vs1 =>
      simp only [hm1] at hm
      obtain ⟨h1, l1, cs1, e1, I1, ev1, len1⟩ := dlist.step_spec I op hm1 (show _ < fuel by
        omega)
      subst ev1
      obtain ⟨h2, l2, cs2, e2, I2, ev2, len2⟩ := ih I1 hm (show _ < fuel by omega)
      exact ⟨h2, l2, cs2, by simp only [dlist.run, e1, e2], I2, ev2, by
        simp only [List.length_cons]; omega⟩

theorem dlist.Push.models_eq (ps : List dlist.Push) (vs : List Int) :
    dlist.Op.models vs (ps.map dlist.Push.toOp) = some (dlist.Push.history vs ps) := by
  induction ps generalizing vs with
  | nil => rfl
  | cons p ps ih =>
    cases p <;>
      simp [dlist.Op.models, dlist.Op.model, dlist.Push.toOp, dlist.Push.history, ih]

/-- C5. For every sequence of `push_back` and `push_front` calls on an empty `dlist`, the
calls return, the traversal from `begin()` to `end()` returns, and its elements are the push
history with back pushes appended and front pushes prepended. -/
theorem C5_list_traversal_is_push_history (ps : List dlist.Push) (th : THeap) (F : Nat)
    (hF : ps.length < F) :
    ∃ h l cells, dlist.run F [] dlist.mk_empty (ps.map dlist.Push.toOp) = some (h, l) ∧
      dlist.traverse F ⟨h, th⟩ l = some cells ∧
      cells.map (·.2) = dlist.Push.history [] ps := by
  obtain ⟨h, l, cs, e, I, ev, len⟩ := dlist.list_run_spec (ps.map dlist.Push.toOp)
    (dlist.mk_empty_inv []) (dlist.Push.models_eq ps []) (show _ < F by simpa using hF)
  refine ⟨h, l, _, e, dlist.list_traverse_spec I th (by simp at len; omega), ?_⟩
  rw [List.map_map, ← ev]
  rfl

/-- C5, the example of `main`: `push_back` of 0..9 yields 0 1 2 3 4 5 6 7 8 9 and `begin()`
advanced three times dereferences to 3. -/
theorem C5_list_traversal_is_push_history_witness :
    (dlist.run 11 [] dlist.mk_empty ((List.range 10).map fun i => dlist.Op.push_back i)).bind
        (fun p => (dlist.traverse 11 ⟨p.1, []⟩ p.2).map (List.map (·.2))) =
      some [0, 1, 2, 3, 4, 5, 6, 7, 8, 9] ∧
    (dlist.run 11 [] dlist.mk_empty ((List.range 10).map fun i => dlist.Op.push_back i)).bind
        (fun p => (Iterator.advance_n 11 ⟨p.1, []⟩ 3 p.2.begin).bind
          (Iterator.deref ⟨p.1, []⟩)) = some 3 ∧
    ∃ h l cells, dlist.run 11 [] dlist.mk_empty
        (((List.range 10).map fun i => dlist.Push.back i).map dlist.Push.toOp) = some (h, l) ∧
      dlist.traverse 11 ⟨h, []⟩ l = some cells ∧
      cells.map (·.2) =
        dlist.Push.history [] ((List.range 10).map fun i => dlist.Push.back i) :=
  ⟨by decide, by decide, C5_list_traversal_is_push_history
    ((List.range 10).map fun i => dlist.Push.back i) [] 11 (by decide)⟩

theorem bstree.purge_spec : ∀ (s : Shape) (fuel : Nat) (h : THeap) (par : Ptr),
    TRepr h par s → s.addrs.Nodup → s.size < fuel →
    ∃ h1, bstree.purge fuel h s.rootPtr = some h1 ∧ h1.length = h.length ∧
      (∀ c ∈ s.addrs, h1.deref c = none) ∧
      (∀ c, c ∉ s.addrs → h1.deref c = h.deref c) := by
  intro s
  induction s with
  | nil =>
    intro fuel h par _ _ hf
    cases fuel with
    | zero => simp at hf
    | succ f => exact ⟨h, rfl, rfl, by simp, fun _ _ => rfl⟩
  | node l a v r ihl ihr =>
    intro fuel h par R nd hf
    obtain ⟨e, Rl, Rr⟩ := R
    simp only [Shape.addrs_node] at nd
    have ndl : l.addrs.Nodup := (List.nodup_append.1 nd).1
    have ndr : r.addrs.Nodup := (List.nodup_cons.1 (List.nodup_append.1 nd).2.1).2
    have anl : a ∉ l.addrs := fun hc =>
      (List.nodup_append.1 nd).2.2 hc (List.mem_cons_self _ _)
    have anr : a ∉ r.addrs := (List.nodup_cons.1 (List.nodup_append.1 nd).2.1).1
    have dlr : ∀ c, c ∈ l.addrs → c ∉ r.addrs := fun c hl hr =>
      (List.nodup_append.1 nd).2.2 hl (List.mem_cons_of_mem _ hr)
    cases fuel with
    | zero => simp at hf
    | succ f =>
      simp only [Shape.size_node] at hf
      obtain ⟨h1, e1, len1, gone1, fr1⟩ := ihl f h (some a) Rl ndl (by omega)
      have ea1 : h1.deref a = some ⟨v, l.rootPtr, r.rootPtr, par⟩ := by rw [fr1 a anl, e]
      have R1 : TRepr h1 (some a) r := Rr.congr_heap fun c hc => fr1 c (fun hl => dlr c hl hc)
      obtain ⟨h2, e2, len2, gone2, fr2⟩ := ihr f h1 (some a) R1 ndr (by omega)
      have ea2 : h2.deref a = some ⟨v, l.rootPtr, r.rootPtr, par⟩ := by rw [fr2 a anr, ea1]
      refine ⟨h2.free a, by
        simp only [Shape.rootPtr_node, bstree.purge, e, e1, ea1, e2, ea2], by
        simp [len1, len2], ?_, ?_⟩
      · intro c hc
        simp only [Shape.addrs_node, List.mem_append, List.mem_cons] at hc
        by_cases ca : a = c
        · subst ca; simp
        · rw [Heap.deref_free_of_ne ca]
          rcases hc with hc | hc | hc
          · rw [fr2 c (dlr c hc)]; exact gone1 c hc
          · exact absurd hc.symm ca
          · exact gone2 c hc
      · intro c hc
        simp only [Shape.addrs_node, List.mem_append, List.mem_cons, not_or] at hc
        rw [Heap.deref_free_of_ne (Ne.symm hc.2.1), fr2 c hc.2.2, fr1 c hc.1]

/-- The effect of `clear()` on a well-formed tree. -/
theorem bstree.tree_clear_spec {h : THeap} {t : bstree} {s : Shape} (I : TInv h t s) {fuel : Nat}
    (hf : s.size < fuel) :
    ∃ h1 t1, bstree.clear fuel h t = some (h1, t1) ∧ TInv h1 t1 Shape.nil ∧
      h1.length = h.length ∧ (∀ c ∈ s.addrs, h1.deref c = none) ∧
      (∀ c, c ∉ s.addrs → h1.deref c = h.deref c) := by
  obtain ⟨h1, e1, len, gone, fr⟩ := bstree.purge_spec s fuel h none I.repr I.nodup hf
  rw [← I.root] at e1
  exact ⟨h1, ⟨none, 0⟩, by simp only [bstree.clear, e1], ⟨rfl, trivial, by simp, rfl⟩, len,
    gone, fr⟩

/-- A sequence of `insert` and `clear` calls on a well-formed tree returns a well-formed
tree. -/
theorem bstree.tree_run_spec : ∀ (ops : List bstree.Op) {h : THeap} {t : bstree} {s : Shape},
    TInv h t s → ∀ {fuel : Nat}, s.size + ops.length < fuel →
    ∃ h1 t1 s1, bstree.run fuel h t ops = some (h1, t1) ∧ TInv h1 t1 s1 ∧
      s1.size ≤ s.size + ops.length := by
  intro ops
  induction ops with
  | nil =>
    intro h t s I fuel _
    exact ⟨h, t, s, rfl, I, by simp⟩
  | cons op ops ih =>
    intro h t s I fuel hf
    simp only [List.length_cons] at hf
    cases op with
    | insert x =>
      obtain ⟨h1, t1, e1, I1, -, -, -⟩ := bstree.insert_spec I x (show s.size ≤ fuel by omega)
      have sz : (s.insert h.length x).size ≤ s.size + 1 := by
        by_cases es : s.insert h.length x = s
        · rw [es]; omega
        · rw [Shape.size_insert _ _ _ es]
      obtain ⟨h2, t2, s2, e2, I2, sz2⟩ := ih I1 (show _ < fuel by omega)
      exact ⟨h2, t2, s2, by simp only [bstree.run, bstree.step, e1, e2], I2, by
        simp only [List.length_cons]; omega⟩
    | clear =>
      obtain ⟨h1, t1, e1, I1, -, -, -⟩ := bstree.tree_clear_spec I (show s.size < fuel by omega)
      obtain ⟨h2, t2, s2, e2, I2, sz2⟩ := ih I1 (show _ < fuel by simp; omega)
      exact ⟨h2, t2, s2, by simp only [bstree.run, bstree.step, e1, e2], I2, by
        simp only [List.length_cons, Shape.size_nil] at sz2 ⊢; omega⟩

/-- A range-based loop that returns `cells` made `cells.length` advances: that many take
the iterator to a position equal to `e`, and no fewer do. -/
theorem Iterator.range_advance_n (F : Nat) (m : Mem) (e : Iterator) :
    ∀ (k : Nat) (it : Iterator) (cells : List (Iterator × Int)),
    Iterator.range F m e k it = some cells →
    (∃ it1, Iterator.advance_n F m cells.length it = some it1 ∧ it1.eq e = true) ∧
      ∀ j, j < cells.length →
        ∃ itj, Iterator.advance_n F m j it = some itj ∧ itj.eq e = false := by
  intro k
  induction k with
  | zero => intro it cells hr; simp [Iterator.range] at hr
  | succ k ih =>
    intro it cells hr
    simp only [Iterator.range] at hr
    by_cases hne : it.ne e = true
    · simp only [hne, if_true] at hr
      cases hd : it.deref m with
      | none => simp [hd] at hr
      | some x =>
        cases hi : it.pre_incr F m with
        | none => simp [hd, hi] at hr
        | some it1 =>
          cases hk : Iterator.range F m e k it1 with
          | none => simp [hd, hi, hk] at hr
          | some rest =>
            simp only [hd, hi, hk, Option.some.injEq] at hr
            subst hr
            obtain ⟨⟨it2, a2, e2⟩, below⟩ := ih it1 rest hk
            refine ⟨⟨it2, by simp only [List.length_cons, Iterator.advance_n, hi, a2], e2⟩, ?_⟩
            intro j hj
            cases j with
            | zero =>
              refine ⟨it, rfl, ?_⟩
              simpa [Iterator.ne] using hne
            | succ j =>
              obtain ⟨itj, aj, ej⟩ := below j (by simpa using hj)
              exact ⟨itj, by simp only [Iterator.advance_n, hi, aj], ej⟩
    · simp only [hne] at hr
      simp only [Bool.false_eq_true, if_false, Option.some.injEq] at hr
      subst hr
      refine ⟨⟨it, rfl, ?_⟩, by simp⟩
      simpa [Iterator.ne] using hne

/-- C6. After any sequence of calls on an empty container (for `dlist`: `push_back`,
`push_front`, `clear`, and `pop_back`, `pop_front` applied only when non-empty; for
`bstree`: `insert`, `clear`) the calls return, the traversal from `begin()` to `end()`
returns, `size()` is the number of elements it produces, and the iterator reaches `end()`
after exactly that many advances and no fewer. -/
theorem C6_size_equals_traversal_count :
    (∀ (ops : List dlist.Op) (th : THeap) (F : Nat), dlist.Op.models [] ops ≠ none →
      ops.length < F →
      ∃ h l cells, dlist.run F [] dlist.mk_empty ops = some (h, l) ∧
        dlist.traverse F ⟨h, th⟩ l = some cells ∧ l.size = cells.length ∧
        (∃ it, Iterator.advance_n F ⟨h, th⟩ cells.length l.begin = some it ∧
          it.eq l.end = true) ∧
        ∀ j, j < cells.length →
          ∃ it, Iterator.advance_n F ⟨h, th⟩ j l.begin = some it ∧ it.eq l.end = false) ∧
    (∀ (ops : List bstree.Op) (lh : LHeap) (F : Nat), ops.length < F →
      ∃ h t cells b, bstree.run F [] bstree.mk_empty ops = some (h, t) ∧
        bstree.traverse F ⟨lh, h⟩ t = some cells ∧ t.size = cells.length ∧
        bstree.begin F h t = some b ∧
        (∃ it, Iterator.advance_n F ⟨lh, h⟩ cells.length b = some it ∧
          it.eq t.end = true) ∧
        ∀ j, j < cells.length →
          ∃ it, Iterator.advance_n F ⟨lh, h⟩ j b = some it ∧ it.eq t.end = false) := by
  constructor
  · intro ops th F hm hF
    cases hv : dlist.Op.models [] ops with
    | none => exact absurd hv hm
    | some vs =>
      obtain ⟨h, l, cs, e, I, -, len⟩ := dlist.list_run_spec ops (dlist.mk_empty_inv []) hv
        (show _ < F by simpa using hF)
      have tr := dlist.list_traverse_spec I th (show cs.length < F by simp at len; omega)
      obtain ⟨reach, below⟩ := Iterator.range_advance_n F ⟨h, th⟩ l.end F l.begin _ tr
      exact ⟨h, l, _, e, tr, by simp [dlist.size, I.size], reach, below⟩
  · intro ops lh F hF
    have I0 : TInv [] bstree.mk_empty Shape.nil := ⟨rfl, trivial, by simp, rfl⟩
    obtain ⟨h, t, s, e, I, sz⟩ := bstree.tree_run_spec ops I0 (show _ < F by simpa using hF)
    have hs : s.size < F := by simp at sz; omega
    have tr := bstree.tree_traverse_spec I lh hs
    have hb : ∃ b, bstree.begin F h t = some b := by
      simp only [bstree.begin, I.root, bstree.leftdown_spec s none F I.repr hs]
      exact ⟨_, rfl⟩
    obtain ⟨b, hb⟩ := hb
    have tr1 := tr
    simp only [bstree.traverse, hb] at tr1
    obtain ⟨reach, below⟩ := Iterator.range_advance_n F ⟨lh, h⟩ t.end F b _ tr1
    exact ⟨h, t, _, b, e, tr, by simp [bstree.size, I.size, Shape.size], hb, reach, below⟩

/-- C6 at a sequence of calls on a list and one on a tree. -/
theorem C6_size_equals_traversal_count_witness :
    (dlist.Op.models [] [.push_back 1, .push_front 0, .pop_back, .push_back 2, .clear,
        .push_front 7, .pop_front, .push_back 3] ≠ none) ∧
    (∃ h l cells, dlist.run 9 [] dlist.mk_empty [.push_back 1, .push_front 0, .pop_back,
          .push_back 2, .clear, .push_front 7, .pop_front, .push_back 3] = some (h, l) ∧
        dlist.traverse 9 ⟨h, []⟩ l = some cells ∧ l.size = cells.length ∧
        (∃ it, Iterator.advance_n 9 ⟨h, []⟩ cells.length l.begin = some it ∧
          it.eq l.end = true) ∧
        ∀ j, j < cells.length →
          ∃ it, Iterator.advance_n 9 ⟨h, []⟩ j l.begin = some it ∧ it.eq l.end = false) ∧
    (∃ h t cells b, bstree.run 7 [] bstree.mk_empty [.insert 5, .insert 2, .insert 5, .clear,
          .insert 1, .insert 3] = some (h, t) ∧
        bstree.traverse 7 ⟨[], h⟩ t = some cells ∧ t.size = cells.length ∧
        bstree.begin 7 h t = some b ∧
        (∃ it, Iterator.advance_n 7 ⟨[], h⟩ cells.length b = some it ∧
          it.eq t.end = true) ∧
        ∀ j, j < cells.length →
          ∃ it, Iterator.advance_n 7 ⟨[], h⟩ j b = some it ∧ it.eq t.end = false) :=
  ⟨by decide,
    C6_size_equals_traversal_count.1 [.push_back 1, .push_front 0, .pop_back, .push_back 2,
      .clear, .push_front 7, .pop_front, .push_back 3] [] 9 (by decide) (by decide),
    C6_size_equals_traversal_count.2 [.insert 5, .insert 2, .insert 5, .clear, .insert 1,
      .insert 3] [] 7 (by decide)⟩

theorem Visitor.visits_walk_events {σ : Type} (V : Visitor σ) (s : σ)
    (cs : List (Nat × Int)) :
    Event.visits (Visitor.walk_events V s cs) = (Visitor.walk V s cs).2.2 := by
  induction cs generalizing s with
  | nil => rfl
  | cons c cs ih =>
    obtain ⟨a, v⟩ := c
    by_cases fin : V.finished s = true
    · simp [Visitor.walk_events, Visitor.walk, fin, Event.visits]
    · simp [Visitor.walk_events, Visitor.walk, fin, Event.visits, ih]

/-- The loop of `dlist::accept` follows `Visitor.walk`. -/
theorem dlist.accept_loop_spec {σ : Type} (V : Visitor σ) : ∀ (cs : List (Nat × Int))
    (h : LHeap) (p : Ptr) (s : σ) (fuel : Nat), LSeg h p cs → (cs.map (·.1)).Nodup →
    cs.length < fuel →
    ∃ h1, dlist.accept_loop V fuel h s (cs.head?.map (·.1)) =
        some (h1, (Visitor.walk V s cs).1, Visitor.walk_events V s cs) ∧
      LSeg h1 p (Visitor.walk V s cs).2.1 ∧ h1.length = h.length ∧
      (∀ a, a ∉ cs.map (·.1) → h1.deref a = h.deref a) := by
  intro cs
  induction cs with
  | nil =>
    intro h p s fuel _ _ hf
    cases fuel with
    | zero => simp at hf
    | succ f => exact ⟨h, rfl, trivial, rfl, fun _ _ => rfl⟩
  | cons c cs ih =>
    intro h p s fuel S nd hf
    obtain ⟨a, v⟩ := c
    obtain ⟨e, S1⟩ := S
    have alt : a < h.length := Heap.deref_lt e
    simp only [List.map_cons, List.nodup_cons] at nd
    cases fuel with
    | zero => simp at hf
    | succ f =>
      by_cases fin : V.finished s = true
      · refine ⟨h, by
          simp [dlist.accept_loop, fin, Visitor.walk, Visitor.walk_events], ?_, rfl,
          fun _ _ => rfl⟩
        simp only [Visitor.walk, fin, if_true]
        exact ⟨e, S1⟩
      · have S2 : LSeg (h.write a ⟨(V.visit s v).2, cs.head?.map (·.1), p⟩) (some a) cs :=
          S1.congr_chain fun c hc =>
            Heap.deref_write_of_ne _ fun hh => nd.1 (List.mem_map.2 ⟨c, hc, hh.symm⟩)
        obtain ⟨h1, e1, R1, len1, fr1⟩ := ih _ (some a) (V.visit s v).1 f S2 nd.2 (by
          simpa using hf)
        have hw := (Visitor.walk_spec V (V.visit s v).1 cs).2.2.1
        refine ⟨h1, ?_, ?_, by simpa using len1, ?_⟩
        · simp only [List.head?_cons, Option.map_some', dlist.accept_loop, fin, e,
            Heap.deref_write_self _ alt, e1, Visitor.walk, Visitor.walk_events]
          simp
        · simp only [Visitor.walk, fin]
          refine ⟨?_, R1⟩
          rw [fr1 a nd.1, Heap.deref_write_self _ alt, ← List.head?_map, ← List.head?_map, hw]
        · intro b hb
          simp only [List.map_cons, List.mem_cons, not_or] at hb
          rw [fr1 b hb.2, Heap.deref_write_of_ne _ (Ne.symm hb.1)]

/-- The effect of `accept` on a well-formed list: it returns, and it is the walk. -/
theorem dlist.list_accept_spec {σ : Type} (V : Visitor σ) {h : LHeap} {l : dlist}
    {cs : List (Nat × Int)} (I : LInv h l cs) (s : σ) {F : Nat} (hF : cs.length < F) :
    ∃ h1, dlist.accept V F h l s =
        some (h1, (Visitor.walk V s cs).1, Visitor.walk_events V s cs) ∧
      LInv h1 l (Visitor.walk V s cs).2.1 := by
  obtain ⟨h1, e1, S1, -, -⟩ := dlist.accept_loop_spec V cs h none s F I.seg I.nodup hF
  have hw := (Visitor.walk_spec V s cs).2.2.1
  refine ⟨h1, by simp only [dlist.accept, I.front]; exact e1, ⟨?_, ?_, S1, ?_, ?_⟩⟩
  · rw [I.front, ← List.head?_map, ← List.head?_map, hw]
  · rw [I.back, ← List.getLast?_map, ← List.getLast?_map, hw]
  · rw [hw]; exact I.nodup
  · rw [I.size, ← List.length_map cs (·.1), ← hw, List.length_map]

theorem dlist.cells_fst (cs : List (Nat × Int)) :
    (cs.map fun c => (dlist.at c.1, c.2)).map (·.1) = (cs.map (·.1)).map dlist.at := by
  simp [List.map_map, Function.comp_def]

theorem dlist.cells_snd (cs : List (Nat × Int)) :
    (cs.map fun c => (dlist.at c.1, c.2)).map (·.2) = cs.map (·.2) := by
  simp [List.map_map, Function.comp_def]

/-- C7. For every `dlist` (reached by any sequence of calls from the empty list) and every
visitor, `accept` returns and there is a number `k` such that: the first `k` elements are
the shortest front-to-back prefix after visiting which `finished()` is true (no shorter
prefix leaves the visitor finished; the prefix of length `k` does unless it is the whole
list); `visit` is called exactly on the first `k` nodes, in list order, with the elements
they hold; the visitor ends in the state reached by these `k` visits; and afterwards the
list has the same nodes in the same order, the first `k` elements as `visit` left them and
all later elements unchanged. -/
theorem C7_list_accept_stops_at_finished {σ : Type} (V : Visitor σ) (s0 : σ)
    (ops : List dlist.Op) (th : THeap) (F : Nat) (hm : dlist.Op.models [] ops ≠ none)
    (hF : ops.length < F) :
    ∃ h l cells h1 s1 ev cells1 k,
      dlist.run F [] dlist.mk_empty ops = some (h, l) ∧
      dlist.traverse F ⟨h, th⟩ l = some cells ∧
      dlist.accept V F h l s0 = some (h1, s1, ev) ∧
      dlist.traverse F ⟨h1, th⟩ l = some cells1 ∧
      k ≤ cells.length ∧
      (∀ j, j < k → V.finished (V.stateAfter s0 ((cells.map (·.2)).take j)) = false) ∧
      (k < cells.length → V.finished (V.stateAfter s0 ((cells.map (·.2)).take k)) = true) ∧
      (Event.visits ev).map (fun c => (dlist.at c.1, c.2)) = cells.take k ∧
      s1 = V.stateAfter s0 ((cells.map (·.2)).take k) ∧
      cells1.map (·.1) = cells.map (·.1) ∧
      cells1.map (·.2) =
        V.outputs s0 ((cells.map (·.2)).take k) ++ (cells.map (·.2)).drop k := by
  cases hv : dlist.Op.models [] ops with
  | none => exact absurd hv hm
  | some vs =>
    obtain ⟨h, l, cs, e, I, -, len⟩ := dlist.list_run_spec ops (dlist.mk_empty_inv []) hv
      (show _ < F by simpa using hF)
    have hcs : cs.length < F := by simp at len; omega
    obtain ⟨h1, ea, I1⟩ := dlist.list_accept_spec V I s0 hcs
    obtain ⟨w1, w2, w3, w4⟩ := Visitor.walk_spec V s0 cs
    obtain ⟨p1, p2⟩ := Visitor.stop_spec V s0 (cs.map (·.2))
    have hl : (Visitor.walk V s0 cs).2.1.length = cs.length := by
      rw [← List.length_map cs (·.1), ← w3, List.length_map]
    have tr1 := dlist.list_traverse_spec I1 th (show _ < F by rw [hl]; exact hcs)
    refine ⟨h, l, _, h1, _, _, _, Visitor.stop V s0 (cs.map (·.2)), e,
      dlist.list_traverse_spec I th hcs, ea, tr1, ?_, ?_, ?_, ?_, ?_, ?_, ?_⟩
    · simpa using Visitor.stop_le V s0 (cs.map (·.2))
    · rw [dlist.cells_snd]; exact p1
    · rw [dlist.cells_snd]; simpa using p2
    · rw [Visitor.visits_walk_events, w1, List.map_take]
    · rw [dlist.cells_snd]; exact w2
    · rw [dlist.cells_fst, dlist.cells_fst, w3]
    · rw [dlist.cells_snd, dlist.cells_snd]; exact w4

/-- C7 at the list 10, 20, 30, 40 with the visitor `PZSearchingVisitor`, which stops after
visiting 20. -/
theorem C7_list_accept_stops_at_finished_witness :
    (dlist.Op.models [] [.push_back 10, .push_back 20, .push_back 30, .push_back 40] ≠ none) ∧
    (dlist.run 5 [] dlist.mk_empty [.push_back 10, .push_back 20, .push_back 30,
        .push_back 40]).bind (fun p =>
        (dlist.accept PZSearchingVisitor 5 p.1 p.2 PZSearchingVisitor.init).map
          (fun r => (r.2.1, Event.visits r.2.2))) =
      some (⟨true, some 20⟩, [(0, 10), (1, 20)]) ∧
    ∃ h l cells h1 s1 ev cells1 k,
      dlist.run 5 [] dlist.mk_empty [.push_back 10, .push_back 20, .push_back 30,
        .push_back 40] = some (h, l) ∧
      dlist.traverse 5 ⟨h, []⟩ l = some cells ∧
      dlist.accept PZSearchingVisitor 5 h l PZSearchingVisitor.init = some (h1, s1, ev) ∧
      dlist.traverse 5 ⟨h1, []⟩ l = some cells1 ∧
      k ≤ cells.length ∧
      (∀ j, j < k → PZSearchingVisitor.finished (PZSearchingVisitor.stateAfter
        PZSearchingVisitor.init ((cells.map (·.2)).take j)) = false) ∧
      (k < cells.length → PZSearchingVisitor.finished (PZSearchingVisitor.stateAfter
        PZSearchingVisitor.init ((cells.map (·.2)).take k)) = true) ∧
      (Event.visits ev).map (fun c => (dlist.at c.1, c.2)) = cells.take k ∧
      s1 = PZSearchingVisitor.stateAfter PZSearchingVisitor.init
        ((cells.map (·.2)).take k) ∧
      cells1.map (·.1) = cells.map (·.1) ∧
      cells1.map (·.2) =
        PZSearchingVisitor.outputs PZSearchingVisitor.init ((cells.map (·.2)).take k) ++
          (cells.map (·.2)).drop k :=
  ⟨by decide, by decide, C7_list_accept_stops_at_finished PZSearchingVisitor
    PZSearchingVisitor.init [.push_back 10, .push_back 20, .push_back 30, .push_back 40] [] 5
    (by decide) (by decide)⟩

theorem Event.after_visits_of_no_visit (es : List Event) (hv : Event.visits es = []) :
    Event.after_visits es = es := by
  cases es with
  | nil => rfl
  | cons e es =>
    cases e with
    | enter a =>
      have : Event.visits es = [] := by simpa [Event.visits] using hv
      simp [Event.after_visits, this]
    | query b =>
      have : Event.visits es = [] := by simpa [Event.visits] using hv
      simp [Event.after_visits, this]
    | visit a x => simp [Event.visits] at hv

theorem Event.after_visits_append (e1 e2 : List Event) :
    Event.after_visits (e1 ++ e2) =
      if Event.visits e2 = [] then Event.after_visits e1 ++ e2 else Event.after_visits e2 := by
  induction e1 with
  | nil =>
    by_cases hv : Event.visits e2 = []
    · simp [hv, Event.after_visits_of_no_visit e2 hv, Event.after_visits]
    · simp [hv]
  | cons e es ih =>
    by_cases hv : Event.visits e2 = []
    · simp only [hv, if_true] at ih ⊢
      by_cases hs : Event.visits es = []
      · cases e <;> simp [Event.after_visits, hs, hv]
      · cases e <;> simp [Event.after_visits, hs, hv, ih]
    · simp only [hv, if_false] at ih ⊢
      cases e <;> simp [Event.after_visits, hv, ih]

theorem Event.after_visits_enter (a : Nat) (es : List Event) (hv : Event.visits es ≠ []) :
    Event.after_visits (Event.enter a :: es) = Event.after_visits es := by
  simp [Event.after_visits, hv]

theorem Shape.visits_subset {σ : Type} (V : Visitor σ) (s : σ) (sh : Shape) :
    ∀ c ∈ Event.visits (Shape.accept V s sh).2.2, c.1 ∈ sh.addrs := by
  intro c hc
  rw [(Shape.accept_eq_walk V s sh).2.2, (Visitor.walk_spec V s sh.cells).1] at hc
  exact List.mem_map.2 ⟨c, List.mem_of_mem_take hc, rfl⟩

/-- A walk that never calls `visit` is invoked exactly on the left spine. -/
theorem Shape.entered_of_no_visit {σ : Type} (V : Visitor σ) (s : σ) (sh : Shape)
    (hv : Event.visits (Shape.accept V s sh).2.2 = []) :
    Event.entered (Shape.accept V s sh).2.2 = sh.lspine := by
  induction sh generalizing s with
  | nil => rfl
  | node l p v r ihl _ =>
    simp only [Shape.accept] at hv ⊢
    by_cases fin : V.finished (Shape.accept V s l).1 = true
    · simp only [fin, if_true] at hv ⊢
      have hl : Event.visits (Shape.accept V s l).2.2 = [] := by
        simpa [Event.visits] using hv
      simp [Event.entered, ihl s hl, Shape.lspine]
    · simp only [fin] at hv
      simp [Event.visits] at hv

/-- After the last call of `visit`, at the node `a`, the walk is invoked exactly on the left
spine of the right subtree of `a`. -/
theorem Shape.entered_after_visits {σ : Type} (V : Visitor σ) (s : σ) (sh : Shape)
    (nd : sh.addrs.Nodup) (a : Nat) (x : Int)
    (hl : (Event.visits (Shape.accept V s sh).2.2).getLast? = some (a, x)) :
    Event.entered (Event.after_visits (Shape.accept V s sh).2.2) =
      (sh.right_of a).lspine := by
  induction sh generalizing s with
  | nil => simp [Shape.accept, Event.visits] at hl
  | node l p v r ihl ihr =>
    simp only [Shape.addrs_node] at nd
    have ndl : l.addrs.Nodup := (List.nodup_append.1 nd).1
    have ndr : r.addrs.Nodup := (List.nodup_cons.1 (List.nodup_append.1 nd).2.1).2
    have pnl : p ∉ l.addrs := fun hc =>
      (List.nodup_append.1 nd).2.2 hc (List.mem_cons_self _ _)
    have pnr : p ∉ r.addrs := (List.nodup_cons.1 (List.nodup_append.1 nd).2.1).1
    have dlr : ∀ c, c ∈ l.addrs → c ∉ r.addrs := fun c hl hr =>
      (List.nodup_append.1 nd).2.2 hl (List.mem_cons_of_mem _ hr)
    have subl := Shape.visits_subset V s l
    simp only [Shape.accept] at hl ⊢
    by_cases fin : V.finished (Shape.accept V s l).1 = true
    · simp only [fin, if_true] at hl ⊢
      have hl1 : (Event.visits (Shape.accept V s l).2.2).getLast? = some (a, x) := by
        simpa [Event.visits] using hl
      have al : a ∈ l.addrs := subl (a, x) (List.mem_of_getLast?_eq_some hl1)
      have hne : Event.visits ((Shape.accept V s l).2.2 ++ [Event.query true]) ≠ [] := by
        intro hh
        simp [Event.visits] at hh
        simp [hh] at hl1
      have pa : p ≠ a := fun hh => pnl (hh ▸ al)
      rw [List.cons_append, Event.after_visits_enter _ _ hne, Event.after_visits_append]
      simp [Event.visits, Event.entered, ihl s ndl hl1, Shape.right_of, pa, al]
    · simp only [fin] at hl ⊢
      simp only [Bool.false_eq_true, if_false] at hl ⊢
      have subr := Shape.visits_subset V (V.visit (Shape.accept V s l).1 v).1 r
      have hvis : ∀ (EL ER : List Event), Event.visits (Event.enter p :: EL ++
          [Event.query false, Event.visit p v] ++ ER) =
          Event.visits EL ++ (p, v) :: Event.visits ER := by
        intro EL ER; simp [Event.visits]
      have hne : Event.visits ((Shape.accept V s l).2.2 ++
          [Event.query false, Event.visit p v] ++
          (Shape.accept V (V.visit (Shape.accept V s l).1 v).1 r).2.2) ≠ [] := by
        simp [Event.visits]
      rw [List.cons_append, List.cons_append, Event.after_visits_enter _ _ hne]
      by_cases hr : Event.visits (Shape.accept V (V.visit (Shape.accept V s l).1 v).1 r).2.2
          = []
      · have ha : a = p := by
          rw [hvis, hr, List.getLast?_append_of_ne_nil _ (by simp)] at hl
          simp only [List.getLast?_singleton, Option.some.injEq, Prod.mk.injEq] at hl
          exact hl.1.symm
        subst ha
        rw [Event.after_visits_append]
        simp only [hr, if_true, List.append_assoc, Event.entered_append,
          Shape.right_of]
        rw [show (Shape.accept V s l).2.2 ++ [Event.query false, Event.visit a v] =
          ((Shape.accept V s l).2.2 ++ [Event.query false]) ++ [Event.visit a v] by simp,
          Event.after_visits_append]
        simp [Event.visits, Event.after_visits, Event.entered,
          Shape.entered_of_no_visit V _ r hr]
      · have hl1 : (Event.visits
            (Shape.accept V (V.visit (Shape.accept V s l).1 v).1 r).2.2).getLast? =
            some (a, x) := by
          rw [hvis, List.getLast?_append_of_ne_nil _ (by simp)] at hl
          obtain ⟨c, cs1, ec⟩ := List.exists_cons_of_ne_nil hr
          rw [ec] at hl ⊢
          rw [List.getLast?_cons_cons] at hl
          exact hl
        have ar : a ∈ r.addrs := subr (a, x) (List.mem_of_getLast?_eq_some hl1)
        have pa : p ≠ a := fun hh => pnr (hh ▸ ar)
        have anl : a ∉ l.addrs := fun hh => dlr a hh ar
        rw [Event.after_visits_append]
        simp only [hr, if_false, Shape.right_of, pa, anl]
        exact ihr _ ndr hl1

theorem Event.visits_after_visits (es : List Event) :
    Event.visits (Event.after_visits es) = [] := by
  induction es with
  | nil => rfl
  | cons e es ih =>
    by_cases hv : Event.visits es = []
    · cases e <;> simp [Event.after_visits, hv, Event.visits]
    · cases e <;> simp [Event.after_visits, hv, ih]

theorem bstree.left_spine_spec {h : THeap} : ∀ (sh : Shape) (par : Ptr) (F : Nat),
    TRepr h par sh → sh.size < F → bstree.left_spine F h sh.rootPtr = some sh.lspine := by
  intro sh
  induction sh with
  | nil =>
    intro par F _ hF
    cases F with
    | zero => simp at hF
    | succ f => rfl
  | node l a v r ihl _ =>
    intro par F R hF
    obtain ⟨e, Rl, -⟩ := R
    cases F with
    | zero => simp at hF
    | succ f =>
      simp only [Shape.size_node] at hF
      simp only [Shape.rootPtr_node, bstree.left_spine, e, ihl (some a) f Rl (by omega),
        Shape.lspine]

theorem TRepr.right_of {h : THeap} {par : Ptr} {sh : Shape} (R : TRepr h par sh)
    (nd : sh.addrs.Nodup) {a : Nat} (mem : a ∈ sh.addrs) :
    ∃ n, h.deref a = some n ∧ n.right = (sh.right_of a).rootPtr ∧
      TRepr h (some a) (sh.right_of a) ∧ (sh.right_of a).size ≤ sh.size := by
  induction sh generalizing par with
  | nil => simp at mem
  | node l p v r ihl ihr =>
    obtain ⟨e, Rl, Rr⟩ := R
    simp only [Shape.addrs_node] at nd mem
    have ndl : l.addrs.Nodup := (List.nodup_append.1 nd).1
    have ndr : r.addrs.Nodup := (List.nodup_cons.1 (List.nodup_append.1 nd).2.1).2
    simp only [Shape.right_of, Shape.size_node]
    by_cases pa : p = a
    · subst pa
      simp only [if_true]
      exact ⟨_, e, rfl, Rr, by omega⟩
    · simp only [pa, if_false]
      by_cases al : a ∈ l.addrs
      · simp only [al, if_true]
        obtain ⟨n, en, er, Rn, sz⟩ := ihl Rl ndl al
        exact ⟨n, en, er, Rn, by omega⟩
      · simp only [al, if_false]
        have ar : a ∈ r.addrs := by
          rcases List.mem_append.1 mem with hh | hh
          · exact absurd hh al
          · rcases List.mem_cons.1 hh with hh | hh
            · exact absurd hh.symm pa
            · exact hh
        obtain ⟨n, en, er, Rn, sz⟩ := ihr Rr ndr ar
        exact ⟨n, en, er, Rn, by omega⟩

theorem Event.not_mem_after_visits_enter (a : Nat) (e : Event) (es : List Event)
    (he : e ≠ Event.enter a) (h : e ∉ Event.after_visits es) :
    e ∉ Event.after_visits (Event.enter a :: es) := by
  by_cases hv : Event.visits es = []
  · rw [Event.after_visits_of_no_visit _ hv] at h
    simp [Event.after_visits, hv, he, h]
  · simp [Event.after_visits, hv, h]

theorem Event.not_mem_after_visits_append (e : Event) (e1 e2 : List Event)
    (h1 : e ∉ Event.after_visits e1) (h2 : e ∉ Event.after_visits e2) :
    e ∉ Event.after_visits (e1 ++ e2) := by
  rw [Event.after_visits_append]
  split_ifs with hv
  · rw [Event.after_visits_of_no_visit _ hv] at h2
    simp [h1, h2]
  · exact h2

/-- After the last call of `visit` every query of `finished()` returns true. -/
theorem Shape.no_false_query_after_visits {σ : Type} (V : Visitor σ) (s : σ) (sh : Shape) :
    Event.query false ∉ Event.after_visits (Shape.accept V s sh).2.2 := by
  induction sh generalizing s with
  | nil => simp [Shape.accept, Event.after_visits]
  | node l p v r ihl ihr =>
    simp only [Shape.accept]
    by_cases fin : V.finished (Shape.accept V s l).1 = true
    · simp only [fin, if_true]
      rw [List.cons_append]
      refine Event.not_mem_after_visits_enter _ _ _ (by simp) ?_
      refine Event.not_mem_after_visits_append _ _ _ (ihl s) ?_
      simp [Event.after_visits, Event.visits]
    · simp only [fin]
      simp only [Bool.false_eq_true, if_false]
      rw [List.cons_append, List.cons_append]
      refine Event.not_mem_after_visits_enter _ _ _ (by simp) ?_
      refine Event.not_mem_after_visits_append _ _ _ ?_ (ihr _)
      rw [Event.after_visits_append]
      simp [Event.after_visits, Event.visits]

theorem bstree.tree_cells_snd (cs : List (Nat × Int)) :
    (cs.map fun c => (bstree.at c.1, c.2)).map (·.2) = cs.map (·.2) := by
  simp [List.map_map, Function.comp_def]

/-- C8, amended. For every tree built by inserts from empty and every visitor, `accept`
returns and there is a number `k` such that: the first `k` elements in in-order are the
shortest prefix after visiting which `finished()` is true (no shorter prefix leaves the
visitor finished; the prefix of length `k` does unless it is the whole tree); `visit` is
called exactly on the first `k` nodes in in-order, with the elements they hold, so the calls
of `visit` stop as soon as `finished()` is true; the visitor ends in the state reached by
these `k` visits, which is a finished state whenever some node was left unvisited; when
`finished()` is true from the start `visit` is never called; when `visit` is never called,
the recursive `accept` is invoked on exactly the left spine of the root; after the last call
of `visit` the recursive `accept` is still invoked, on exactly the nodes of the left spine of
the right subtree of the node visited last (its right child, the left child of that, and so
on), and on no other node; and after the last call of `visit` there is no further `visit` and
every query of `finished()` returns true. -/
theorem C8_accept_descends_left_spine_after_finished {σ : Type} (V : Visitor σ) (s0 : σ)
    (xs : List Int) (F : Nat) (hF : xs.length < F) :
    ∃ h t cells h1 s1 ev k, bstree.build F xs = some (h, t) ∧
      bstree.traverse F ⟨[], h⟩ t = some cells ∧
      bstree.accept V F h t s0 = some (h1, s1, ev) ∧
      k ≤ cells.length ∧
      (∀ j, j < k → V.finished (V.stateAfter s0 ((cells.map (·.2)).take j)) = false) ∧
      (k < cells.length → V.finished (V.stateAfter s0 ((cells.map (·.2)).take k)) = true) ∧
      (Event.visits ev).map (fun c => (bstree.at c.1, c.2)) = cells.take k ∧
      s1 = V.stateAfter s0 ((cells.map (·.2)).take k) ∧
      (k < cells.length → V.finished s1 = true) ∧
      (V.finished s0 = true → Event.visits ev = []) ∧
      (Event.visits ev = [] → bstree.left_spine F h t.root = some (Event.entered ev)) ∧
      (∀ a x, (Event.visits ev).getLast? = some (a, x) →
        ∃ n, h.deref a = some n ∧
          bstree.left_spine F h n.right = some (Event.entered (Event.after_visits ev))) ∧
      Event.visits (Event.after_visits ev) = [] ∧
      ∀ b, Event.query b ∈ Event.after_visits ev → b = true := by
  obtain ⟨h, t, sh, e, I, -, -, -, sz⟩ := bstree.build_spec xs (Nat.le_of_lt hF)
  have hs : sh.size < F := by omega
  obtain ⟨h1, ev, ea, -, eev, vis⟩ := bstree.tree_accept_spec V I s0 hs
  obtain ⟨-, w2, -, -⟩ := Visitor.walk_spec V s0 sh.cells
  obtain ⟨p1, p2⟩ := Visitor.stop_spec V s0 sh.vals
  have hle := Visitor.stop_le V s0 sh.vals
  have hlen : sh.vals.length = sh.cells.length := by simp [Shape.vals]
  refine ⟨h, t, _, h1, _, ev, Visitor.stop V s0 sh.vals, e,
    bstree.tree_traverse_spec I [] hs, ea, ?_, ?_, ?_, ?_, ?_, ?_, ?_, ?_, ?_,
    Event.visits_after_visits ev, ?_⟩
  · simpa [hlen] using hle
  · rw [bstree.tree_cells_snd]; exact p1
  · rw [bstree.tree_cells_snd]; intro hk; exact p2 (by simpa [hlen] using hk)
  · rw [vis, List.map_take]
  · rw [bstree.tree_cells_snd]; exact w2
  · intro hk
    rw [w2]
    exact p2 (by simpa [hlen] using hk)
  · intro fin
    rw [vis]
    cases hc : sh.cells with
    | nil => simp
    | cons c cs =>
      have : Visitor.stop V s0 sh.vals = 0 := by
        simp [Shape.vals, hc, Visitor.stop, fin]
      rw [this]; rfl
  · intro hv
    rw [eev] at hv ⊢
    rw [Shape.entered_of_no_visit V s0 sh hv, I.root]
    exact bstree.left_spine_spec sh none F I.repr hs
  · intro a x hl
    rw [eev] at hl ⊢
    have mem : a ∈ sh.addrs :=
      Shape.visits_subset V s0 sh (a, x) (List.mem_of_getLast?_eq_some hl)
    obtain ⟨n, en, er, Rn, szn⟩ := I.repr.right_of I.nodup mem
    refine ⟨n, en, ?_⟩
    rw [Shape.entered_after_visits V s0 sh I.nodup a x hl, er]
    exact bstree.left_spine_spec _ (some a) F Rn (by omega)
  · intro b hb
    rw [eev] at hb
    cases b with
    | true => rfl
    | false => exact absurd hb (Shape.no_false_query_after_visits V s0 sh)

/-- C8 at the tree built by inserting 10, 20, 50, 30, 25, 40, 60 (nodes 0 to 6 in that
order; in-order 10, 20, 25, 30, 40, 50, 60) with the visitor `PZSearchingVisitor`, which is
finished after the visit of 20 at node 1: `visit` is called on 10 and 20 only, and after
that `accept` is invoked on the nodes 2, 3, 4 (holding 50, 30, 25: the left spine of the
right subtree of node 1), each skipped at a true `finished()`, and never on the nodes 5 and
6 (holding 40 and 60).  With a visitor that is finished from the start, on the tree built
by inserting 10, 5, 20, `visit` is never called and `accept` is invoked on the nodes 0 and 1,
the left spine of the root. -/
theorem C8_accept_descends_left_spine_after_finished_witness :
    (bstree.build 8 [10, 20, 50, 30, 25, 40, 60]).bind (fun p =>
        bstree.traverse 8 ⟨[], p.1⟩ p.2) =
      some [(bstree.at 0, 10), (bstree.at 1, 20), (bstree.at 4, 25), (bstree.at 3, 30),
        (bstree.at 5, 40), (bstree.at 2, 50), (bstree.at 6, 60)] ∧
    (bstree.build 8 [10, 20, 50, 30, 25, 40, 60]).bind (fun p =>
        (bstree.accept PZSearchingVisitor 8 p.1 p.2 PZSearchingVisitor.init).map
          (fun r => (r.2.1, Event.visits r.2.2, Event.entered r.2.2,
            Event.after_visits r.2.2))) =
      some (⟨true, some 20⟩, [(0, 10), (1, 20)], [0, 1, 2, 3, 4],
        [.enter 2, .enter 3, .enter 4, .query true, .query true, .query true]) ∧
    (bstree.build 4 [10, 5, 20]).bind (fun p =>
        (bstree.accept PZSearchingVisitor 4 p.1 p.2 ⟨true, some 0⟩).map
          (fun r => (Event.visits r.2.2, Event.entered r.2.2))) =
      some ([], [0, 1]) ∧
    ∃ h t cells h1 s1 ev k, bstree.build 8 [10, 20, 50, 30, 25, 40, 60] = some (h, t) ∧
      bstree.traverse 8 ⟨[], h⟩ t = some cells ∧
      bstree.accept PZSearchingVisitor 8 h t PZSearchingVisitor.init = some (h1, s1, ev) ∧
      k ≤ cells.length ∧
      (∀ j, j < k → PZSearchingVisitor.finished (PZSearchingVisitor.stateAfter
        PZSearchingVisitor.init ((cells.map (·.2)).take j)) = false) ∧
      (k < cells.length → PZSearchingVisitor.finished (PZSearchingVisitor.stateAfter
        PZSearchingVisitor.init ((cells.map (·.2)).take k)) = true) ∧
      (Event.visits ev).map (fun c => (bstree.at c.1, c.2)) = cells.take k ∧
      s1 = PZSearchingVisitor.stateAfter PZSearchingVisitor.init
        ((cells.map (·.2)).take k) ∧
      (k < cells.length → PZSearchingVisitor.finished s1 = true) ∧
      (PZSearchingVisitor.finished PZSearchingVisitor.init = true → Event.visits ev = []) ∧
      (Event.visits ev = [] → bstree.left_spine 8 h t.root = some (Event.entered ev)) ∧
      (∀ a x, (Event.visits ev).getLast? = some (a, x) →
        ∃ n, h.deref a = some n ∧
          bstree.left_spine 8 h n.right = some (Event.entered (Event.after_visits ev))) ∧
      Event.visits (Event.after_visits ev) = [] ∧
      ∀ b, Event.query b ∈ Event.after_visits ev → b = true :=
  ⟨by decide, by decide, by decide,
    C8_accept_descends_left_spine_after_finished PZSearchingVisitor PZSearchingVisitor.init
      [10, 20, 50, 30, 25, 40, 60] 8 (by decide)⟩

/-- C8 as stated fails.  In the tree built by inserting 20, 30, 40 (nodes 0, 1, 2, each the
right child of the one before) the visitor `PZSearchingVisitor` is finished after the visit
of 20 at node 0; the nodes 1 and 2 remain, and `accept` is invoked on node 1 but never on
node 2, the right child of node 1. -/
theorem C8_every_remaining_node_entered_counterexample :
    (bstree.build 4 [20, 30, 40]).bind (fun p => bstree.traverse 4 ⟨[], p.1⟩ p.2) =
      some [(bstree.at 0, 20), (bstree.at 1, 30), (bstree.at 2, 40)] ∧
    (bstree.build 4 [20, 30, 40]).bind (fun p =>
        (bstree.accept PZSearchingVisitor 4 p.1 p.2 PZSearchingVisitor.init).map
          (fun r => (PZSearchingVisitor.finished r.2.1, Event.visits r.2.2,
            Event.entered r.2.2, decide (2 ∈ Event.entered r.2.2)))) =
      some (true, [(0, 20)], [0, 1], false) := by
  decide

/-- C9. For every tree built by inserts from empty, every list holding the same values in
ascending order (reached by any sequence of calls from the empty list) and every visitor,
`bstree::accept` and `dlist::accept` both return, `visit` is called with the same sequence
of elements by both, and the visitor ends in the same state. -/
theorem C9_tree_and_list_accept_agree {σ : Type} (V : Visitor σ) (s0 : σ) (xs : List Int)
    (ops : List dlist.Op) (F : Nat)
    (hm : dlist.Op.models [] ops = some (Finset.sort (· ≤ ·) xs.toFinset))
    (hx : xs.length < F) (ho : ops.length < F) :
    ∃ ht t h1 s1 ev hl l h2 s2 ev2, bstree.build F xs = some (ht, t) ∧
      bstree.accept V F ht t s0 = some (h1, s1, ev) ∧
      dlist.run F [] dlist.mk_empty ops = some (hl, l) ∧
      dlist.accept V F hl l s0 = some (h2, s2, ev2) ∧
      (Event.visits ev).map (·.2) = (Event.visits ev2).map (·.2) ∧ s1 = s2 := by
  obtain ⟨ht, t, sh, e, I, so, -, mem, sz⟩ := bstree.build_spec xs (Nat.le_of_lt hx)
  obtain ⟨h1, ev, ea, -, -, vis⟩ := bstree.tree_accept_spec V I s0 (show sh.size < F by omega)
  obtain ⟨hl, l, cs, el, IL, evs, len⟩ := dlist.list_run_spec ops (dlist.mk_empty_inv []) hm
    (show _ < F by simpa using ho)
  obtain ⟨h2, ea2, -⟩ := dlist.list_accept_spec V IL s0 (show cs.length < F by
    simp at len; omega)
  have hv : sh.vals = cs.map (·.2) := by rw [evs]; exact sorted_lt_eq_sort so mem
  obtain ⟨t1, t2, -, -⟩ := Visitor.walk_spec V s0 sh.cells
  obtain ⟨l1, l2, -, -⟩ := Visitor.walk_spec V s0 cs
  refine ⟨ht, t, h1, _, ev, hl, l, h2, _, _, e, ea, el, ea2, ?_, ?_⟩
  · rw [vis, Visitor.visits_walk_events, l1, List.map_take, List.map_take, ← hv]
    rfl
  · rw [t2, l2, ← hv]
    rfl

/-- C9 at the tree built from 50, 20, 80, 40, 10 and the list 10, 20, 40, 50, 80 with the
visitor `PZSearchingVisitor`: both report `found` with the value 20. -/
theorem C9_tree_and_list_accept_agree_witness :
    ((bstree.build 6 [50, 20, 80, 40, 10]).bind (fun p =>
        (bstree.accept PZSearchingVisitor 6 p.1 p.2 PZSearchingVisitor.init).map
          (fun r => r.2.1)) = some ⟨true, some 20⟩ ∧
      (dlist.run 6 [] dlist.mk_empty [.push_back 10, .push_back 20, .push_back 40,
        .push_back 50, .push_back 80]).bind (fun p =>
        (dlist.accept PZSearchingVisitor 6 p.1 p.2 PZSearchingVisitor.init).map
          (fun r => r.2.1)) = some ⟨true, some 20⟩) ∧
    ∃ ht t h1 s1 ev hl l h2 s2 ev2, bstree.build 6 [50, 20, 80, 40, 10] = some (ht, t) ∧
      bstree.accept PZSearchingVisitor 6 ht t PZSearchingVisitor.init = some (h1, s1, ev) ∧
      dlist.run 6 [] dlist.mk_empty [.push_back 10, .push_back 20, .push_back 40,
        .push_back 50, .push_back 80] = some (hl, l) ∧
      dlist.accept PZSearchingVisitor 6 hl l PZSearchingVisitor.init = some (h2, s2, ev2) ∧
      (Event.visits ev).map (·.2) = (Event.visits ev2).map (·.2) ∧ s1 = s2 :=
  ⟨by decide, C9_tree_and_list_accept_agree PZSearchingVisitor PZSearchingVisitor.init
    [50, 20, 80, 40, 10] [.push_back 10, .push_back 20, .push_back 40, .push_back 50,
      .push_back 80] 6
    (congrArg some (sorted_lt_eq_sort (l := [10, 20, 40, 50, 80]) (by decide) (by
      intro y
      simp only [List.mem_cons, List.mem_singleton, List.not_mem_nil, or_false]
      omega)))
    (by decide) (by decide)⟩

/-- C10, what the code does: `operator==` between the `end()` of any `dlist` and the `end()`
of any `bstree` is true.  The test `typeid(*this) == typeid(i)` compares the static type
`Iterator<T>` with itself, and `equal` then compares two null pointers. -/
theorem C10_list_end_equals_tree_end (l : dlist) (t : bstree) :
    Iterator.eq l.end t.end = true ∧ Iterator.eq t.end l.end = true ∧
      Iterator.ne l.end t.end = false := by
  refine ⟨rfl, rfl, rfl⟩

/-- Away from the pair of null pointers iterators of different kinds are never equal: an
iterator at a list node differs from every iterator of a tree (at a node or at `end()`), and
an iterator at a tree node from every iterator of a list. -/
theorem Iterator.eq_across_kinds_of_node (a : Nat) (p : Ptr) :
    Iterator.eq (dlist.at a) ⟨.TreeIteratorImpl p⟩ = false ∧
      Iterator.eq (bstree.at a) ⟨.ListIteratorImpl p⟩ = false := by
  cases p <;> simp [Iterator.eq, Iterator.Impl.equal, Iterator.Impl.address, dlist.at,
    bstree.at, Iterator.typeid]

/-! ## Lemmas: copying -/

theorem VTree.insert_all_append (t : VTree) (xs ys : List Int) :
    t.insert_all (xs ++ ys) = (t.insert_all xs).insert_all ys := by
  induction xs generalizing t with
  | nil => rfl
  | cons x xs ih => simp [VTree.insert_all, ih]

theorem VTree.insert_all_node (l r : VTree) (v : Int) (xs : List Int) :
    (VTree.node l v r).insert_all xs =
      .node (l.insert_all (xs.filter (· < v))) v (r.insert_all (xs.filter (· > v))) := by
  induction xs generalizing l r with
  | nil => rfl
  | cons x xs ih =>
    simp only [VTree.insert_all, VTree.insert]
    by_cases h1 : x < v
    · have h2 : ¬ x > v := not_lt.2 (le_of_lt h1)
      simp [h1, h2, ih, List.filter_cons, VTree.insert_all]
    · by_cases h2 : x > v
      · simp [h1, h2, ih, List.filter_cons, VTree.insert_all]
      · simp [h1, h2, ih, List.filter_cons]

theorem VTree.mem_preorder (t : VTree) (x : Int) : x ∈ t.preorder ↔ x ∈ t.inorder := by
  induction t with
  | leaf => simp [VTree.preorder, VTree.inorder]
  | node l v r ihl ihr => simp [VTree.preorder, VTree.inorder, ihl, ihr]; tauto

/-- Inserting the elements of an ordered tree in pre-order into the empty tree rebuilds the
tree. -/
theorem VTree.insert_all_preorder (t : VTree) (so : t.inorder.Sorted (· < ·)) :
    VTree.leaf.insert_all t.preorder = t := by
  induction t with
  | leaf => rfl
  | node l v r ihl ihr =>
    simp only [VTree.inorder, List.Sorted, List.pairwise_append, List.pairwise_cons,
      List.mem_cons, forall_eq_or_imp] at so
    obtain ⟨sl, ⟨vr, sr⟩, lr⟩ := so
    have fl : (l.preorder ++ r.preorder).filter (· < v) = l.preorder := by
      rw [List.filter_append, List.filter_eq_self.2, List.filter_eq_nil_iff.2, List.append_nil]
      · intro x hx
        have := vr x ((VTree.mem_preorder r x).1 hx)
        simpa using le_of_lt this
      · intro x hx
        simpa using (lr x ((VTree.mem_preorder l x).1 hx)).1
    have fr : (l.preorder ++ r.preorder).filter (· > v) = r.preorder := by
      rw [List.filter_append, List.filter_eq_nil_iff.2, List.filter_eq_self.2, List.nil_append]
      · intro x hx
        simpa using vr x ((VTree.mem_preorder r x).1 hx)
      · intro x hx
        have := (lr x ((VTree.mem_preorder l x).1 hx)).1
        simpa using le_of_lt this
    simp only [VTree.preorder, VTree.insert_all, VTree.insert, VTree.insert_all_node, fl, fr,
      ihl sl, ihr sr]

theorem Shape.erase_insert (a0 : Nat) (x : Int) (s : Shape) :
    (s.insert a0 x).erase = s.erase.insert x := by
  induction s with
  | nil => rfl
  | node l a v r ihl ihr =>
    simp only [Shape.insert, Shape.erase, VTree.insert]
    split_ifs <;> simp [Shape.erase, ihl, ihr]

theorem Shape.inorder_erase (s : Shape) : s.erase.inorder = s.vals := by
  induction s with
  | nil => rfl
  | node l a v r ihl ihr => simp [Shape.erase, VTree.inorder, ihl, ihr]

/-- Reading a represented tree out of the heap gives the tree of elements of its shape. -/
theorem bstree.to_tree_spec {h : THeap} : ∀ (s : Shape) (par : Ptr) (F : Nat),
    TRepr h par s → s.size < F → bstree.to_tree F h s.rootPtr = some s.erase := by
  intro s
  induction s with
  | nil =>
    intro par F _ hF
    cases F with
    | zero => simp at hF
    | succ f => rfl
  | node l a v r ihl ihr =>
    intro par F R hF
    obtain ⟨e, Rl, Rr⟩ := R
    cases F with
    | zero => simp at hF
    | succ f =>
      simp only [Shape.size_node] at hF
      simp only [Shape.rootPtr_node, bstree.to_tree, e, ihl (some a) f Rl (by omega),
        ihr (some a) f Rr (by omega), Shape.erase]

/-- The effect of `copy` from a represented tree `src` into a well-formed tree that shares
no node with it: the elements of `src` are inserted in pre-order, and `src` is untouched. -/
theorem bstree.copy_spec (F : Nat) : ∀ (src : Shape) (k : Nat) (h : THeap) (self : bstree)
    (s : Shape) (par : Ptr), TRepr h par src → TInv h self s →
    (∀ c ∈ src.addrs, c ∉ s.addrs) → src.size < k → s.size + src.size ≤ F →
    ∃ h1 self1 s1, bstree.copy F k h self src.rootPtr = some (h1, self1) ∧
      TInv h1 self1 s1 ∧ s1.erase = s.erase.insert_all src.erase.preorder ∧
      s1.size ≤ s.size + src.size ∧ h.length ≤ h1.length ∧
      (∀ c ∈ s1.addrs, c ∈ s.addrs ∨ h.length ≤ c) ∧
      (∀ c, c < h.length → c ∉ s.addrs → h1.deref c = h.deref c) := by
  intro src
  induction src with
  | nil =>
    intro k h self s par _ I _ hk _
    cases k with
    | zero => simp at hk
    | succ k =>
      exact ⟨h, self, s, rfl, I, rfl, by simp, le_refl _, fun c hc => Or.inl hc,
        fun _ _ _ => rfl⟩
  | node l a v r ihl ihr =>
    intro k h self s par R I dis hk hF
    obtain ⟨e, Rl, Rr⟩ := R
    have alt : a < h.length := Heap.deref_lt e
    have ans : a ∉ s.addrs := dis a (by simp)
    cases k with
    | zero => simp at hk
    | succ k =>
      simp only [Shape.size_node] at hk hF
      -- the insert
      obtain ⟨h1, self1, e1, I1, same1, grow1, fr1⟩ := bstree.insert_spec I v
        (show s.size ≤ F by omega)
      have len1 : h.length ≤ h1.length := by
        by_cases es : s.insert h.length v = s
        · rw [(same1 es).1]
        · rw [grow1 es]; omega
      have sz1 : (s.insert h.length v).size ≤ s.size + 1 := by
        by_cases es : s.insert h.length v = s
        · rw [es]; omega
        · rw [Shape.size_insert _ _ _ es]
      have mem1 : ∀ c ∈ (s.insert h.length v).addrs, c ∈ s.addrs ∨ h.length ≤ c := by
        intro c hc
        rcases Shape.mem_addrs_insert _ _ _ _ hc with rfl | hc
        · exact Or.inr (le_refl _)
        · exact Or.inl hc
      have out1 : ∀ c, c < h.length → c ∉ s.addrs → c ∉ (s.insert h.length v).addrs := by
        intro c clt hc hm
        rcases mem1 c hm with hm | hm
        · exact hc hm
        · omega
      have ea1 : h1.deref a = some ⟨v, l.rootPtr, r.rootPtr, par⟩ := by
        rw [fr1 a alt ans, e]
      have Rl1 : TRepr h1 (some a) l := Rl.congr_heap fun c hc =>
        fr1 c (Rl.addr_lt c hc) (dis c (by simp [hc]))
      have Rr1 : TRepr h1 (some a) r := Rr.congr_heap fun c hc =>
        fr1 c (Rr.addr_lt c hc) (dis c (by simp [hc]))
      -- the left subtree
      obtain ⟨h2, self2, s2, e2, I2, er2, sz2, len2, mem2, fr2⟩ :=
        ihl k h1 self1 (s.insert h.length v) (some a) Rl1 I1
          (fun c hc => out1 c (Rl.addr_lt c hc) (dis c (by simp [hc]))) (by omega) (by omega)
      have keep2 : ∀ c, c < h.length → c ∉ s.addrs → h2.deref c = h.deref c := by
        intro c clt hc
        rw [fr2 c (by omega) (out1 c clt hc), fr1 c clt hc]
      have out2 : ∀ c, c < h.length → c ∉ s.addrs → c ∉ s2.addrs := by
        intro c clt hc hm
        rcases mem2 c hm with hm | hm
        · exact out1 c clt hc hm
        · omega
      have ea2 : h2.deref a = some ⟨v, l.rootPtr, r.rootPtr, par⟩ := by
        rw [keep2 a alt ans, e]
      have Rr2 : TRepr h2 (some a) r := Rr.congr_heap fun c hc =>
        keep2 c (Rr.addr_lt c hc) (dis c (by simp [hc]))
      -- the right subtree
      obtain ⟨h3, self3, s3, e3, I3, er3, sz3, len3, mem3, fr3⟩ :=
        ihr k h2 self2 s2 (some a) Rr2 I2
          (fun c hc => out2 c (Rr.addr_lt c hc) (dis c (by simp [hc]))) (by omega) (by omega)
      refine ⟨h3, self3, s3, ?_, I3, ?_, by simp only [Shape.size_node]; omega, by omega, ?_, ?_⟩
      · simp only [Shape.rootPtr_node, bstree.copy, e, e1, ea1, e2, ea2]
        exact e3
      · rw [er3, er2, Shape.erase_insert]
        simp only [Shape.erase, VTree.preorder, VTree.insert_all, VTree.insert_all_append]
      · intro c hc
        rcases mem3 c hc with hm | hm
        · rcases mem2 c hm with hm | hm
          · rcases mem1 c hm with hm | hm
            · exact Or.inl hm
            · exact Or.inr hm
          · exact Or.inr (by omega)
        · exact Or.inr (by omega)
      · intro c clt hc
        rw [fr3 c (by omega) (out2 c clt hc), keep2 c clt hc]

/-- A sequence of `insert` and `clear` calls on a well-formed tree leaves untouched every
cell that is not a node of the tree, and never makes such a cell a node of the tree. -/
theorem bstree.tree_run_frame : ∀ (ops : List bstree.Op) {h : THeap} {t : bstree}
    {s : Shape}, TInv h t s → ∀ (prot : List Nat),
    (∀ c ∈ prot, c < h.length ∧ c ∉ s.addrs) → ∀ {fuel : Nat},
    s.size + ops.length < fuel →
    ∃ h1 t1 s1, bstree.run fuel h t ops = some (h1, t1) ∧ TInv h1 t1 s1 ∧
      s1.size ≤ s.size + ops.length ∧ h.length ≤ h1.length ∧
      ∀ c ∈ prot, h1.deref c = h.deref c ∧ c ∉ s1.addrs := by
  intro ops
  induction ops with
  | nil =>
    intro h t s I prot hp fuel _
    exact ⟨h, t, s, rfl, I, by simp, le_refl _, fun c hc => ⟨rfl, (hp c hc).2⟩⟩
  | cons op ops ih =>
    intro h t s I prot hp fuel hf
    simp only [List.length_cons] at hf
    cases op with
    | insert x =>
      obtain ⟨h1, t1, e1, I1, same1, grow1, fr1⟩ := bstree.insert_spec I x
        (show s.size ≤ fuel by omega)
      have len1 : h.length ≤ h1.length := by
        by_cases es : s.insert h.length x = s
        · rw [(same1 es).1]
        · rw [grow1 es]; omega
      have sz : (s.insert h.length x).size ≤ s.size + 1 := by
        by_cases es : s.insert h.length x = s
        · rw [es]; omega
        · rw [Shape.size_insert _ _ _ es]
      have hp1 : ∀ c ∈ prot, c < h1.length ∧ c ∉ (s.insert h.length x).addrs := by
        intro c hc
        refine ⟨by have := (hp c hc).1; omega, fun hm => ?_⟩
        rcases Shape.mem_addrs_insert _ _ _ _ hm with rfl | hm
        · exact Nat.lt_irrefl _ (hp _ hc).1
        · exact (hp c hc).2 hm
      obtain ⟨h2, t2, s2, e2, I2, sz2, len2, fr2⟩ := ih I1 prot hp1 (show _ < fuel by omega)
      refine ⟨h2, t2, s2, by simp only [bstree.run, bstree.step, e1, e2], I2, by
        simp only [List.length_cons]; omega, by omega, fun c hc => ⟨?_, (fr2 c hc).2⟩⟩
      rw [(fr2 c hc).1, fr1 c (hp c hc).1 (hp c hc).2]
    | clear =>
      obtain ⟨h1, t1, e1, I1, len1, -, fr1⟩ := bstree.tree_clear_spec I
        (show s.size < fuel by omega)
      have hp1 : ∀ c ∈ prot, c < h1.length ∧ c ∉ Shape.nil.addrs := by
        intro c hc
        exact ⟨by rw [len1]; exact (hp c hc).1, by simp⟩
      obtain ⟨h2, t2, s2, e2, I2, sz2, len2, fr2⟩ := ih I1 prot hp1 (show _ < fuel by
        simp; omega)
      refine ⟨h2, t2, s2, by simp only [bstree.run, bstree.step, e1, e2], I2, by
        simp only [List.length_cons, Shape.size_nil] at sz2 ⊢; omega, by omega,
        fun c hc => ⟨?_, (fr2 c hc).2⟩⟩
      rw [(fr2 c hc).1, fr1 c (hp c hc).2]

theorem Shape.size_eq_of_erase {s1 s2 : Shape} (e : s1.erase = s2.erase) :
    s1.size = s2.size ∧ s1.vals = s2.vals := by
  have := congrArg VTree.inorder e
  rw [Shape.inorder_erase, Shape.inorder_erase] at this
  exact ⟨by rw [← Shape.length_vals, ← Shape.length_vals, this], this⟩

/-- Copying an ordered represented tree into an empty tree object gives a well-formed tree
with the same tree of elements. -/
theorem bstree.tree_copy_into_empty {h : THeap} {src : Shape} {par : Ptr} (R : TRepr h par src)
    (so : src.vals.Sorted (· < ·)) {self : bstree} (I : TInv h self Shape.nil) {F : Nat}
    (hF : src.size < F) (lh : LHeap) :
    ∃ h1 self1 s1, bstree.copy F F h self src.rootPtr = some (h1, self1) ∧
      TInv h1 self1 s1 ∧ s1.erase = src.erase ∧
      bstree.to_tree F h1 self1.root = some src.erase ∧ self1.size = src.size ∧
      bstree.traverse F ⟨lh, h1⟩ self1 = some (s1.cells.map fun c => (bstree.at c.1, c.2)) ∧
      s1.vals = src.vals := by
  obtain ⟨h1, self1, s1, e1, I1, er1, -, -, -, -⟩ :=
    bstree.copy_spec F src F h self Shape.nil par R I (by simp) hF (by simp; omega)
  have er : s1.erase = src.erase := by
    rw [er1]
    exact VTree.insert_all_preorder src.erase (by rw [Shape.inorder_erase]; exact so)
  obtain ⟨hsz, hv⟩ := Shape.size_eq_of_erase er
  refine ⟨h1, self1, s1, e1, I1, er, ?_, ?_, bstree.tree_traverse_spec I1 lh (by omega), hv⟩
  · rw [I1.root, ← er]
    exact bstree.to_tree_spec s1 none F I1.repr (by omega)
  · rw [bstree.size, I1.size, hsz]

/-- C11. For every tree built by inserts from empty, the copy constructor and `operator=`
(into another tree, whatever calls were made on it before) return and yield a tree of
identical shape: reading the copy out of the heap gives the same element at every position
and the same left and right structure as reading the source, `size()` is the same, and the
traversals produce the same elements. -/
theorem C11_copy_preserves_shape (xs : List Int) (ops : List bstree.Op) (lh : LHeap)
    (F : Nat) (hF : xs.length + ops.length < F) :
    ∃ h t T cells, bstree.build F xs = some (h, t) ∧
      bstree.to_tree F h t.root = some T ∧ bstree.traverse F ⟨lh, h⟩ t = some cells ∧
      (∃ h1 t1 cells1, bstree.copy_ctor F h t = some (h1, t1) ∧
        bstree.to_tree F h1 t1.root = some T ∧ t1.size = t.size ∧
        bstree.traverse F ⟨lh, h1⟩ t1 = some cells1 ∧ cells1.map (·.2) = cells.map (·.2)) ∧
      (∃ h2 u h3 u1 cells1, bstree.run F h bstree.mk_empty ops = some (h2, u) ∧
        bstree.assign F h2 u (.other t) = some (h3, u1) ∧
        bstree.to_tree F h3 u1.root = some T ∧ u1.size = t.size ∧
        bstree.traverse F ⟨lh, h3⟩ u1 = some cells1 ∧ cells1.map (·.2) = cells.map (·.2)) := by
  obtain ⟨h, t, src, e, I, so, -, -, sz⟩ := bstree.build_spec xs (show xs.length ≤ F by omega)
  have hs : src.size < F := by omega
  have hcells : ∀ s1 : Shape, s1.vals = src.vals →
      (s1.cells.map fun c => (bstree.at c.1, c.2)).map (·.2) =
        (src.cells.map fun c => (bstree.at c.1, c.2)).map (·.2) := by
    intro s1 hv
    simp only [List.map_map, Function.comp_def]
    exact hv
  refine ⟨h, t, src.erase, _, e, ?_, bstree.tree_traverse_spec I lh hs, ?_, ?_⟩
  · rw [I.root]; exact bstree.to_tree_spec src none F I.repr hs
  · have I0 : TInv h ⟨none, 0⟩ Shape.nil := ⟨rfl, trivial, by simp, rfl⟩
    obtain ⟨h1, t1, s1, e1, -, -, tt, hsz, tr, hv⟩ := bstree.tree_copy_into_empty I.repr so I0 hs lh
    refine ⟨h1, t1, _, ?_, tt, ?_, tr, hcells s1 hv⟩
    · simp only [bstree.copy_ctor, I.root]; exact e1
    · rw [hsz, bstree.size, I.size]
  · have I0 : TInv h bstree.mk_empty Shape.nil := ⟨rfl, trivial, by simp, rfl⟩
    obtain ⟨h2, u, s2, e2, I2, sz2, len2, fr2⟩ := bstree.tree_run_frame ops I0 src.addrs
      (fun c hc => ⟨I.repr.addr_lt c hc, by simp⟩) (show _ < F by simp; omega)
    obtain ⟨h3, u3, e3, I3, len3, -, fr3⟩ := bstree.tree_clear_spec I2
      (show s2.size < F by simp at sz2; omega)
    have R3 : TRepr h3 none src := I.repr.congr_heap fun c hc => by
      rw [fr3 c (fr2 c hc).2, (fr2 c hc).1]
    obtain ⟨h4, u4, s4, e4, -, -, tt, hsz, tr, hv⟩ := bstree.tree_copy_into_empty R3 so I3 hs lh
    refine ⟨h2, u, h4, u4, _, e2, ?_, tt, ?_, tr, hcells s4 hv⟩
    · simp only [bstree.assign, e3, bstree.Ref.get, I.root]; exact e4
    · rw [hsz, bstree.size, I.size]

/-- C11 at the tree of `main`, assigned to a tree that held 1, 2, 3. -/
theorem C11_copy_preserves_shape_witness :
    (bstree.build 14 [5, 2, 8, 4, 1, 7, 6, 0, 9, 3]).bind (fun p =>
        (bstree.copy_ctor 14 p.1 p.2).bind (fun q =>
          (bstree.to_tree 14 p.1 p.2.root).map (fun T =>
            decide (bstree.to_tree 14 q.1 q.2.root = some T)))) = some true ∧
    ∃ h t T cells, bstree.build 14 [5, 2, 8, 4, 1, 7, 6, 0, 9, 3] = some (h, t) ∧
      bstree.to_tree 14 h t.root = some T ∧ bstree.traverse 14 ⟨[], h⟩ t = some cells ∧
      (∃ h1 t1 cells1, bstree.copy_ctor 14 h t = some (h1, t1) ∧
        bstree.to_tree 14 h1 t1.root = some T ∧ t1.size = t.size ∧
        bstree.traverse 14 ⟨[], h1⟩ t1 = some cells1 ∧ cells1.map (·.2) = cells.map (·.2)) ∧
      (∃ h2 u h3 u1 cells1, bstree.run 14 h bstree.mk_empty
          [.insert 1, .insert 2, .insert 3] = some (h2, u) ∧
        bstree.assign 14 h2 u (.other t) = some (h3, u1) ∧
        bstree.to_tree 14 h3 u1.root = some T ∧ u1.size = t.size ∧
        bstree.traverse 14 ⟨[], h3⟩ u1 = some cells1 ∧ cells1.map (·.2) = cells.map (·.2)) :=
  ⟨by decide, C11_copy_preserves_shape [5, 2, 8, 4, 1, 7, 6, 0, 9, 3]
    [.insert 1, .insert 2, .insert 3] [] 14 (by decide)⟩

theorem LInv.obj_eq {h h1 : LHeap} {l l1 : dlist} {cs : List (Nat × Int)} (I : LInv h l cs)
    (I1 : LInv h1 l1 cs) : l1 = l := by
  cases l with
  | mk f b n =>
    cases l1 with
    | mk f1 b1 n1 =>
      have e1 : f1 = f := by rw [show f1 = _ from I1.front, show f = _ from I.front]
      have e2 : b1 = b := by rw [show b1 = _ from I1.back, show b = _ from I.back]
      have e3 : n1 = n := by rw [show n1 = _ from I1.size, show n = _ from I.size]
      rw [e1, e2, e3]

/-- C12. For every non-empty `dlist` with traversal `e1..en` (reached by any sequence of
calls from the empty list), `pop_back` returns and leaves the traversal `e1..e(n-1)`,
`pop_front` returns and leaves `e2..en`, each decrements `size()` by exactly one, and after
popping the only element the list is empty with `the_front` and `the_back` both null.  For
every such list, empty or not, `push_back` followed by `pop_back`, and `push_front`
followed by `pop_front`, give back the same list object with the same traversal. -/
theorem C12_pop_removes_end_element (ops : List dlist.Op) (x : Int) (th : THeap) (F : Nat)
    (hm : dlist.Op.models [] ops ≠ none) (hF : ops.length + 1 < F) :
    ∃ h l cells, dlist.run F [] dlist.mk_empty ops = some (h, l) ∧
      dlist.traverse F ⟨h, th⟩ l = some cells ∧
      (cells ≠ [] →
        (∃ h1 l1, dlist.pop_back h l = some (h1, l1) ∧
          dlist.traverse F ⟨h1, th⟩ l1 = some cells.dropLast ∧ l1.size = l.size - 1 ∧
          (cells.length = 1 → l1.the_front = none ∧ l1.the_back = none ∧ l1.empty = true)) ∧
        (∃ h1 l1, dlist.pop_front h l = some (h1, l1) ∧
          dlist.traverse F ⟨h1, th⟩ l1 = some cells.tail ∧ l1.size = l.size - 1 ∧
          (cells.length = 1 → l1.the_front = none ∧ l1.the_back = none ∧ l1.empty = true))) ∧
      (∃ h1 l1 h2 l2, dlist.push_back h l x = some (h1, l1) ∧
        dlist.pop_back h1 l1 = some (h2, l2) ∧ l2 = l ∧
        dlist.traverse F ⟨h2, th⟩ l2 = some cells) ∧
      (∃ h1 l1 h2 l2, dlist.push_front h l x = some (h1, l1) ∧
        dlist.pop_front h1 l1 = some (h2, l2) ∧ l2 = l ∧
        dlist.traverse F ⟨h2, th⟩ l2 = some cells) := by
  cases hv : dlist.Op.models [] ops with
  | none => exact absurd hv hm
  | some vs =>
    obtain ⟨h, l, cs, e, I, -, len⟩ := dlist.list_run_spec ops (dlist.mk_empty_inv []) hv
      (show _ < F by simp; omega)
    have hcs : cs.length < F := by simp at len; omega
    refine ⟨h, l, _, e, dlist.list_traverse_spec I th hcs, ?_, ?_, ?_⟩
    · intro hne
      have hne1 : cs ≠ [] := fun hh => hne (by rw [hh]; rfl)
      constructor
      · rcases List.eq_nil_or_concat cs with rfl | ⟨cs1, ⟨q, w⟩, rfl⟩
        · exact absurd rfl hne1
        · simp only [List.concat_eq_append] at I hcs ⊢
          obtain ⟨h1, l1, e1, I1, -⟩ := dlist.pop_back_spec I
          refine ⟨h1, l1, e1, ?_, ?_, ?_⟩
          · rw [dlist.list_traverse_spec I1 th (by simp at hcs; omega)]
            simp [List.dropLast_concat]
          · rw [dlist.size, dlist.size, I1.size, I.size]; simp
          · intro h1len
            have : cs1 = [] := by
              simp at h1len
              exact h1len
            subst this
            exact ⟨I1.front, I1.back, by simp [dlist.empty, dlist.size, I1.size]⟩
      · cases cs with
        | nil => exact absurd rfl hne1
        | cons c cs1 =>
          obtain ⟨q, w⟩ := c
          obtain ⟨h1, l1, e1, I1, -⟩ := dlist.pop_front_spec I
          refine ⟨h1, l1, e1, ?_, ?_, ?_⟩
          · rw [dlist.list_traverse_spec I1 th (by simp at hcs; omega)]
            simp
          · rw [dlist.size, dlist.size, I1.size, I.size]; simp
          · intro h1len
            have : cs1 = [] := by
              simp at h1len
              exact h1len
            subst this
            exact ⟨I1.front, I1.back, by simp [dlist.empty, dlist.size, I1.size]⟩
    · obtain ⟨h1, l1, e1, I1, -⟩ := dlist.push_back_spec I x
      obtain ⟨h2, l2, e2, I2, -⟩ := dlist.pop_back_spec I1
      exact ⟨h1, l1, h2, l2, e1, e2, LInv.obj_eq I I2, dlist.list_traverse_spec I2 th hcs⟩
    · obtain ⟨h1, l1, e1, I1, -⟩ := dlist.push_front_spec I x
      obtain ⟨h2, l2, e2, I2, -⟩ := dlist.pop_front_spec I1
      exact ⟨h1, l1, h2, l2, e1, e2, LInv.obj_eq I I2, dlist.list_traverse_spec I2 th hcs⟩

/-- C12 at the list 0, 1, 2 of the calls `push_back 1`, `push_back 2`, `push_front 0`. -/
theorem C12_pop_removes_end_element_witness :
    (dlist.Op.models [] [.push_back 1, .push_back 2, .push_front 0] ≠ none) ∧
    (dlist.run 5 [] dlist.mk_empty [.push_back 1, .push_back 2, .push_front 0]).bind
        (fun p => (dlist.pop_back p.1 p.2).bind (fun q =>
          (dlist.traverse 5 ⟨q.1, []⟩ q.2).map (List.map (·.2)))) = some [0, 1] ∧
    (dlist.run 5 [] dlist.mk_empty [.push_back 1, .push_back 2, .push_front 0]).bind
        (fun p => (dlist.pop_front p.1 p.2).bind (fun q =>
          (dlist.traverse 5 ⟨q.1, []⟩ q.2).map (List.map (·.2)))) = some [1, 2] ∧
    ∃ h l cells, dlist.run 5 [] dlist.mk_empty
        [.push_back 1, .push_back 2, .push_front 0] = some (h, l) ∧
      dlist.traverse 5 ⟨h, []⟩ l = some cells ∧
      (cells ≠ [] →
        (∃ h1 l1, dlist.pop_back h l = some (h1, l1) ∧
          dlist.traverse 5 ⟨h1, []⟩ l1 = some cells.dropLast ∧ l1.size = l.size - 1 ∧
          (cells.length = 1 → l1.the_front = none ∧ l1.the_back = none ∧ l1.empty = true)) ∧
        (∃ h1 l1, dlist.pop_front h l = some (h1, l1) ∧
          dlist.traverse 5 ⟨h1, []⟩ l1 = some cells.tail ∧ l1.size = l.size - 1 ∧
          (cells.length = 1 → l1.the_front = none ∧ l1.the_back = none ∧ l1.empty = true))) ∧
      (∃ h1 l1 h2 l2, dlist.push_back h l 7 = some (h1, l1) ∧
        dlist.pop_back h1 l1 = some (h2, l2) ∧ l2 = l ∧
        dlist.traverse 5 ⟨h2, []⟩ l2 = some cells) ∧
      (∃ h1 l1 h2 l2, dlist.push_front h l 7 = some (h1, l1) ∧
        dlist.pop_front h1 l1 = some (h2, l2) ∧ l2 = l ∧
        dlist.traverse 5 ⟨h2, []⟩ l2 = some cells) :=
  ⟨by decide, by decide, by decide, C12_pop_removes_end_element
    [.push_back 1, .push_back 2, .push_front 0] 7 [] 5 (by decide) (by decide)⟩

/-! ## Lemmas: mutation through iterators -/

theorem dlist.list_for_each_spec (f : Int → Int) (th : THeap) (l : dlist) (F : Nat) :
    ∀ (cs : List (Nat × Int)) (h : LHeap) (p : Ptr) (k : Nat), LSeg h p cs →
    (cs.map (·.1)).Nodup → cs.length < k →
    ∃ h1, Iterator.for_each f F l.end k ⟨h, th⟩ ⟨.ListIteratorImpl (cs.head?.map (·.1))⟩ =
        some ⟨h1, th⟩ ∧
      LSeg h1 p (cs.map fun c => (c.1, f c.2)) ∧
      (∀ a, a ∉ cs.map (·.1) → h1.deref a = h.deref a) := by
  intro cs
  induction cs with
  | nil =>
    intro h p k _ _ hk
    cases k with
    | zero => simp at hk
    | succ k => exact ⟨h, rfl, trivial, fun _ _ => rfl⟩
  | cons c cs ih =>
    intro h p k S nd hk
    obtain ⟨a, v⟩ := c
    obtain ⟨e, S1⟩ := S
    have alt : a < h.length := Heap.deref_lt e
    simp only [List.map_cons, List.nodup_cons] at nd
    cases k with
    | zero => simp at hk
    | succ k =>
      have S2 : LSeg (h.write a ⟨f v, cs.head?.map (·.1), p⟩) (some a) cs :=
        S1.congr_chain fun c hc =>
          Heap.deref_write_of_ne _ fun hh => nd.1 (List.mem_map.2 ⟨c, hc, hh.symm⟩)
      obtain ⟨h1, e1, R1, fr1⟩ := ih _ (some a) k S2 nd.2 (by simpa using hk)
      have hne : Iterator.ne ⟨.ListIteratorImpl (some a)⟩ l.end = true := rfl
      have hd : Iterator.deref ⟨h, th⟩ ⟨.ListIteratorImpl (some a)⟩ = some v := by
        simp [Iterator.deref, Iterator.Impl.access, e]
      have hs : Iterator.assign ⟨h, th⟩ ⟨.ListIteratorImpl (some a)⟩ (f v) =
          some ⟨h.write a ⟨f v, cs.head?.map (·.1), p⟩, th⟩ := by
        simp [Iterator.assign, Iterator.Impl.store, e]
      have hi : Iterator.pre_incr F ⟨h.write a ⟨f v, cs.head?.map (·.1), p⟩, th⟩
          ⟨.ListIteratorImpl (some a)⟩ = some ⟨.ListIteratorImpl (cs.head?.map (·.1))⟩ := by
        simp [Iterator.pre_incr, Iterator.Impl.advance, dlist.ListIteratorImpl.advance,
          Heap.deref_write_self _ alt]
      refine ⟨h1, ?_, ⟨?_, R1⟩, ?_⟩
      · simp only [List.head?_cons, Option.map_some', Iterator.for_each, hne, if_true, hd, hs,
          hi]
        exact e1
      · rw [fr1 a nd.1, Heap.deref_write_self _ alt]
        cases cs with
        | nil => rfl
        | cons c2 cs2 => rfl
      · intro b hb
        simp only [List.map_cons, List.mem_cons, not_or] at hb
        rw [fr1 b hb.2, Heap.deref_write_of_ne _ (Ne.symm hb.1)]

/-- The loop `for (int& x : l) x = f(x)` over a well-formed list returns and leaves the
list with the same nodes, each element replaced by its image. -/
theorem dlist.list_for_each_inv (f : Int → Int) {h : LHeap} {l : dlist} {cs : List (Nat × Int)}
    (I : LInv h l cs) (th : THeap) {F : Nat} (hF : cs.length < F) :
    ∃ h1, dlist.for_each f F ⟨h, th⟩ l = some ⟨h1, th⟩ ∧
      LInv h1 l (cs.map fun c => (c.1, f c.2)) := by
  obtain ⟨h1, e1, S1, -⟩ := dlist.list_for_each_spec f th l F cs h none F I.seg I.nodup hF
  have hm : (cs.map fun c => (c.1, f c.2)).map (·.1) = cs.map (·.1) := by
    simp [List.map_map, Function.comp_def]
  refine ⟨h1, by simp only [dlist.for_each, dlist.begin, I.front]; exact e1, ⟨?_, ?_, S1, ?_, ?_⟩⟩
  · rw [I.front, ← List.head?_map, ← List.head?_map, hm]
  · rw [I.back, ← List.getLast?_map, ← List.getLast?_map, hm]
  · rw [hm]; exact I.nodup
  · rw [I.size, List.length_map]

theorem Shape.update_cells (a : Nat) (w : Int) (s : Shape) :
    (s.update a w).cells = s.cells.map (fun c => if c.1 = a then (c.1, w) else c) := by
  induction s with
  | nil => rfl
  | node l p v r ihl ihr =>
    simp only [Shape.update, Shape.cells, ihl, ihr, List.map_append, List.map_cons]
    by_cases pa : p = a <;> simp [pa]

theorem Shape.update_addrs (a : Nat) (w : Int) (s : Shape) :
    (s.update a w).addrs = s.addrs ∧ (s.update a w).rootPtr = s.rootPtr ∧
      (s.update a w).size = s.size := by
  refine ⟨?_, ?_, ?_⟩
  · simp only [Shape.addrs, Shape.update_cells, List.map_map]
    refine List.map_congr_left fun c _ => ?_
    simp only [Function.comp]
    split_ifs <;> rfl
  · cases s <;> rfl
  · simp [Shape.size, Shape.update_cells]

theorem Shape.update_cells_of_nodup {a : Nat} {v : Int} (w : Int) {s : Shape}
    {pre suf : List (Nat × Int)} (e : s.cells = pre ++ (a, v) :: suf) (nd : s.addrs.Nodup) :
    (s.update a w).cells = pre ++ (a, w) :: suf := by
  rw [Shape.addrs, e, List.map_append, List.map_cons, List.nodup_append] at nd
  obtain ⟨-, nd2, dis⟩ := nd
  rw [List.nodup_cons] at nd2
  have hpre : pre.map (fun c => if c.1 = a then (c.1, w) else c) = pre := by
    conv_rhs => rw [← List.map_id pre]
    refine List.map_congr_left fun c hc => ?_
    have : c.1 ≠ a := fun hh =>
      dis (List.mem_map.2 ⟨c, hc, rfl⟩) (by rw [hh]; exact List.mem_cons_self _ _)
    simp [this]
  have hsuf : suf.map (fun c => if c.1 = a then (c.1, w) else c) = suf := by
    conv_rhs => rw [← List.map_id suf]
    refine List.map_congr_left fun c hc => ?_
    have : c.1 ≠ a := fun hh => nd2.1 (List.mem_map.2 ⟨c, hc, hh⟩)
    simp [this]
  rw [Shape.update_cells, e, List.map_append, List.map_cons, hpre, hsuf]
  simp

theorem TRepr.update_data {h : THeap} {par : Ptr} {s : Shape} (R : TRepr h par s) {a : Nat}
    {n : bstree.node} (e : h.deref a = some n) (w : Int) :
    TRepr (h.write a { n with data := w }) par (s.update a w) := by
  induction s generalizing par with
  | nil => trivial
  | node l p v r ihl ihr =>
    obtain ⟨ep, Rl, Rr⟩ := R
    refine ⟨?_, ihl Rl, ihr Rr⟩
    rw [(Shape.update_addrs a w l).2.1, (Shape.update_addrs a w r).2.1]
    by_cases pa : p = a
    · subst pa
      rw [ep] at e
      injection e with e
      subst e
      rw [Heap.deref_write_self _ (Heap.deref_lt ep)]
      simp
    · rw [Heap.deref_write_of_ne _ (Ne.symm pa), ep]
      simp [pa]

theorem TInv.update_elem {h : THeap} {t : bstree} {s : Shape} (I : TInv h t s) {a : Nat}
    {n : bstree.node} (e : h.deref a = some n) (w : Int) :
    TInv (h.write a { n with data := w }) t (s.update a w) := by
  obtain ⟨ua, ur, us⟩ := Shape.update_addrs a w s
  exact ⟨by rw [ur]; exact I.root, I.repr.update_data e w, by rw [ua]; exact I.nodup, by
    rw [us]; exact I.size⟩

theorem bstree.tree_for_each_spec (f : Int → Int) (lh : LHeap) {t : bstree} {F : Nat} :
    ∀ (suf pre : List (Nat × Int)) (s : Shape) (h : THeap) (k : Nat), TInv h t s →
    s.size < F → s.cells = pre ++ suf → suf.length < k →
    ∃ h1 s1, Iterator.for_each f F t.end k ⟨lh, h⟩
        ⟨.TreeIteratorImpl (suf.head?.map (·.1))⟩ = some ⟨lh, h1⟩ ∧
      TInv h1 t s1 ∧ s1.cells = pre ++ suf.map fun c => (c.1, f c.2) := by
  intro suf
  induction suf with
  | nil =>
    intro pre s h k I _ e hk
    cases k with
    | zero => simp at hk
    | succ k => exact ⟨h, s, rfl, I, by simpa using e⟩
  | cons c suf ih =>
    intro pre s h k I hF e hk
    obtain ⟨a, v⟩ := c
    cases k with
    | zero => simp at hk
    | succ k =>
      obtain ⟨n, en, rfl⟩ := I.repr.deref_cells a v (by rw [e]; simp)
      have I1 := I.update_elem en (f n.data)
      have ec1 := Shape.update_cells_of_nodup (f n.data) e I.nodup
      obtain ⟨-, -, us⟩ := Shape.update_addrs a (f n.data) s
      have ea : (s.update a (f n.data)).addrs = pre.map (·.1) ++ a :: suf.map (·.1) := by
        simp [Shape.addrs, ec1]
      have adv := bstree.advance_spec I1 ea (by rw [us]; exact hF)
      obtain ⟨h1, s1, e1, I2, ec2⟩ := ih (pre ++ [(a, f n.data)]) _ _ k I1
        (by rw [us]; exact hF) (by simp [ec1]) (by simpa using hk)
      have hne : Iterator.ne ⟨.TreeIteratorImpl (some a)⟩ t.end = true := rfl
      have hd : Iterator.deref ⟨lh, h⟩ ⟨.TreeIteratorImpl (some a)⟩ = some n.data := by
        simp [Iterator.deref, Iterator.Impl.access, en]
      have hs : Iterator.assign ⟨lh, h⟩ ⟨.TreeIteratorImpl (some a)⟩ (f n.data) =
          some ⟨lh, h.write a { n with data := f n.data }⟩ := by
        simp [Iterator.assign, Iterator.Impl.store, en]
      have hi : Iterator.pre_incr F ⟨lh, h.write a { n with data := f n.data }⟩
          ⟨.TreeIteratorImpl (some a)⟩ = some ⟨.TreeIteratorImpl (suf.head?.map (·.1))⟩ := by
        simp [Iterator.pre_incr, Iterator.Impl.advance, adv, List.head?_map]
      refine ⟨h1, s1, ?_, I2, by simpa using ec2⟩
      simp only [List.head?_cons, Option.map_some', Iterator.for_each, hne, if_true, hd, hs, hi]
      exact e1

/-- The loop `for (int& x : t) x = f(x)` over a well-formed tree returns and leaves the
tree with the same nodes, each element replaced by its image. -/
theorem bstree.tree_for_each_inv (f : Int → Int) {h : THeap} {t : bstree} {s : Shape}
    (I : TInv h t s) (lh : LHeap) {F : Nat} (hF : s.size < F) :
    ∃ h1 s1, bstree.for_each f F ⟨lh, h⟩ t = some ⟨lh, h1⟩ ∧ TInv h1 t s1 ∧
      s1.cells = s.cells.map fun c => (c.1, f c.2) := by
  have hb : bstree.begin F h t = some ⟨.TreeIteratorImpl (s.cells.head?.map (·.1))⟩ := by
    simp [bstree.begin, I.root, bstree.leftdown_spec s none F I.repr hF, Shape.addrs,
      List.head?_map]
  obtain ⟨h1, s1, e1, I1, ec⟩ := bstree.tree_for_each_spec f lh s.cells [] s h F I hF rfl hF
  exact ⟨h1, s1, by simp only [bstree.for_each, hb]; exact e1, I1, by simpa using ec⟩

theorem Visitor.walk_doubling (s : Unit) (cs : List (Nat × Int)) :
    (Visitor.walk DoublingVisitor s cs).2.1 = cs.map fun c => (c.1, 2 * c.2) := by
  induction cs with
  | nil => rfl
  | cons c cs ih =>
    obtain ⟨a, v⟩ := c
    simp [Visitor.walk, DoublingVisitor] at ih ⊢
    exact ih

theorem cells_doubled {α : Type} (g : Nat → α) (f : Int → Int) (cs : List (Nat × Int)) :
    ((cs.map fun c => (c.1, f c.2)).map fun c => (g c.1, c.2)).map (·.1) =
        (cs.map fun c => (g c.1, c.2)).map (·.1) ∧
      ((cs.map fun c => (c.1, f c.2)).map fun c => (g c.1, c.2)).map (·.2) =
        ((cs.map fun c => (g c.1, c.2)).map (·.2)).map f := by
  constructor <;> simp [List.map_map, Function.comp_def]

/-- C13. For both containers (a `dlist` reached by any sequence of calls, a `bstree` built
by inserts), doubling every element in place through the mutable reference handed out by
the traversal, either in the loop `for (int& x : c) x *= 2` or by `accept` with a visitor
that doubles and never finishes, returns; the traversal afterwards visits the same nodes in
the same order, produces exactly the values observed before, doubled, and `size()`, which
neither traversal touches, is still the number of elements. -/
theorem C13_doubling_in_place (ops : List dlist.Op) (xs : List Int) (lh : LHeap)
    (th : THeap) (F : Nat) (hm : dlist.Op.models [] ops ≠ none) (ho : ops.length < F)
    (hx : xs.length < F) :
    (∃ h l cells, dlist.run F [] dlist.mk_empty ops = some (h, l) ∧
      dlist.traverse F ⟨h, th⟩ l = some cells ∧
      (∃ m1 cells1, dlist.for_each (2 * ·) F ⟨h, th⟩ l = some m1 ∧
        dlist.traverse F m1 l = some cells1 ∧ cells1.map (·.1) = cells.map (·.1) ∧
        cells1.map (·.2) = (cells.map (·.2)).map (2 * ·) ∧ l.size = cells1.length) ∧
      (∃ h1 s1 ev cells1, dlist.accept DoublingVisitor F h l () = some (h1, s1, ev) ∧
        dlist.traverse F ⟨h1, th⟩ l = some cells1 ∧ cells1.map (·.1) = cells.map (·.1) ∧
        cells1.map (·.2) = (cells.map (·.2)).map (2 * ·) ∧ l.size = cells1.length)) ∧
    (∃ h t cells, bstree.build F xs = some (h, t) ∧
      bstree.traverse F ⟨lh, h⟩ t = some cells ∧
      (∃ m1 cells1, bstree.for_each (2 * ·) F ⟨lh, h⟩ t = some m1 ∧
        bstree.traverse F m1 t = some cells1 ∧ cells1.map (·.1) = cells.map (·.1) ∧
        cells1.map (·.2) = (cells.map (·.2)).map (2 * ·) ∧ t.size = cells1.length) ∧
      (∃ h1 s1 ev cells1, bstree.accept DoublingVisitor F h t () = some (h1, s1, ev) ∧
        bstree.traverse F ⟨lh, h1⟩ t = some cells1 ∧ cells1.map (·.1) = cells.map (·.1) ∧
        cells1.map (·.2) = (cells.map (·.2)).map (2 * ·) ∧ t.size = cells1.length)) := by
  constructor
  · cases hv : dlist.Op.models [] ops with
    | none => exact absurd hv hm
    | some vs =>
      obtain ⟨h, l, cs, e, I, -, len⟩ := dlist.list_run_spec ops (dlist.mk_empty_inv []) hv
        (show _ < F by simpa using ho)
      have hcs : cs.length < F := by simp at len; omega
      obtain ⟨d1, d2⟩ := cells_doubled dlist.at (2 * ·) cs
      refine ⟨h, l, _, e, dlist.list_traverse_spec I th hcs, ?_, ?_⟩
      · obtain ⟨h1, e1, I1⟩ := dlist.list_for_each_inv (2 * ·) I th hcs
        exact ⟨_, _, e1, dlist.list_traverse_spec I1 th (by simpa using hcs), d1, d2, by
          simp [dlist.size, I.size]⟩
      · obtain ⟨h1, e1, I1⟩ := dlist.list_accept_spec DoublingVisitor I () hcs
        rw [Visitor.walk_doubling] at I1
        exact ⟨h1, _, _, _, e1, dlist.list_traverse_spec I1 th (by simpa using hcs), d1, d2, by
          simp [dlist.size, I.size]⟩
  · obtain ⟨h, t, sh, e, I, -, -, -, sz⟩ := bstree.build_spec xs (Nat.le_of_lt hx)
    have hs : sh.size < F := by omega
    obtain ⟨d1, d2⟩ := cells_doubled bstree.at (2 * ·) sh.cells
    refine ⟨h, t, _, e, bstree.tree_traverse_spec I lh hs, ?_, ?_⟩
    · obtain ⟨h1, s1, e1, I1, ec⟩ := bstree.tree_for_each_inv (2 * ·) I lh hs
      have hs1 : s1.size < F := by
        rw [Shape.size, ec, List.length_map]; exact hs
      refine ⟨_, _, e1, bstree.tree_traverse_spec I1 lh hs1, ?_, ?_, ?_⟩
      · rw [ec]; exact d1
      · rw [ec]; exact d2
      · simp [bstree.size, I.size, ec, Shape.size]
    · obtain ⟨h1, ev, e1, I1, -, -⟩ := bstree.tree_accept_spec DoublingVisitor I () hs
      have ec : (Shape.accept DoublingVisitor () sh).2.1.cells =
          sh.cells.map fun c => (c.1, 2 * c.2) := by
        rw [(Shape.accept_eq_walk DoublingVisitor () sh).2.1, Visitor.walk_doubling]
      have hs1 : (Shape.accept DoublingVisitor () sh).2.1.size < F := by
        rw [Shape.size, ec, List.length_map]; exact hs
      refine ⟨h1, _, ev, _, e1, bstree.tree_traverse_spec I1 lh hs1, ?_, ?_, ?_⟩
      · rw [ec]; exact d1
      · rw [ec]; exact d2
      · simp [bstree.size, I.size, ec, Shape.size]

/-- C13 at the list 0..9 and the tree of `main`: both then hold 0 2 4 ... 18. -/
theorem C13_doubling_in_place_witness :
    (dlist.Op.models [] ((List.range 10).map fun i => dlist.Op.push_back i) ≠ none) ∧
    (dlist.run 11 [] dlist.mk_empty ((List.range 10).map fun i => dlist.Op.push_back i)).bind
        (fun p => (dlist.for_each (2 * ·) 11 ⟨p.1, []⟩ p.2).bind (fun m =>
          (dlist.traverse 11 m p.2).map (List.map (·.2)))) =
      some [0, 2, 4, 6, 8, 10, 12, 14, 16, 18] ∧
    (bstree.build 11 [5, 2, 8, 4, 1, 7, 6, 0, 9, 3]).bind
        (fun p => (bstree.for_each (2 * ·) 11 ⟨[], p.1⟩ p.2).bind (fun m =>
          (bstree.traverse 11 m p.2).map (List.map (·.2)))) =
      some [0, 2, 4, 6, 8, 10, 12, 14, 16, 18] ∧
    (∃ h l cells, dlist.run 11 [] dlist.mk_empty
        ((List.range 10).map fun i => dlist.Op.push_back i) = some (h, l) ∧
      dlist.traverse 11 ⟨h, []⟩ l = some cells ∧
      (∃ m1 cells1, dlist.for_each (2 * ·) 11 ⟨h, []⟩ l = some m1 ∧
        dlist.traverse 11 m1 l = some cells1 ∧ cells1.map (·.1) = cells.map (·.1) ∧
        cells1.map (·.2) = (cells.map (·.2)).map (2 * ·) ∧ l.size = cells1.length) ∧
      (∃ h1 s1 ev cells1, dlist.accept DoublingVisitor 11 h l () = some (h1, s1, ev) ∧
        dlist.traverse 11 ⟨h1, []⟩ l = some cells1 ∧ cells1.map (·.1) = cells.map (·.1) ∧
        cells1.map (·.2) = (cells.map (·.2)).map (2 * ·) ∧ l.size = cells1.length)) ∧
    (∃ h t cells, bstree.build 11 [5, 2, 8, 4, 1, 7, 6, 0, 9, 3] = some (h, t) ∧
      bstree.traverse 11 ⟨[], h⟩ t = some cells ∧
      (∃ m1 cells1, bstree.for_each (2 * ·) 11 ⟨[], h⟩ t = some m1 ∧
        bstree.traverse 11 m1 t = some cells1 ∧ cells1.map (·.1) = cells.map (·.1) ∧
        cells1.map (·.2) = (cells.map (·.2)).map (2 * ·) ∧ t.size = cells1.length) ∧
      (∃ h1 s1 ev cells1, bstree.accept DoublingVisitor 11 h t () = some (h1, s1, ev) ∧
        bstree.traverse 11 ⟨[], h1⟩ t = some cells1 ∧ cells1.map (·.1) = cells.map (·.1) ∧
        cells1.map (·.2) = (cells.map (·.2)).map (2 * ·) ∧ t.size = cells1.length)) :=
  ⟨by decide, by decide, by decide,
    C13_doubling_in_place ((List.range 10).map fun i => dlist.Op.push_back i)
      [5, 2, 8, 4, 1, 7, 6, 0, 9, 3] [] [] 11 (by decide) (by decide) (by decide)⟩

/-! ## Lemmas: iterator objects -/

theorem LInv.back_mem {h : LHeap} {l : dlist} {cs : List (Nat × Int)} (I : LInv h l cs)
    {b : Nat} (hb : l.the_back = some b) : b ∈ cs.map (·.1) := by
  have := I.back
  rw [hb, ← List.getLast?_map] at this
  exact List.mem_of_getLast?_eq_some this.symm

theorem LInv.front_mem {h : LHeap} {l : dlist} {cs : List (Nat × Int)} (I : LInv h l cs)
    {f : Nat} (hf : l.the_front = some f) : f ∈ cs.map (·.1) := by
  have := I.front
  rw [hf, ← List.head?_map] at this
  exact List.mem_of_mem_head? this.symm

/-- The method `push_back` leaves untouched every cell that is not a node of the list. -/
theorem dlist.push_back_frame {h h1 : LHeap} {l l1 : dlist} {cs : List (Nat × Int)}
    (I : LInv h l cs) {x : Int} (e : dlist.push_back h l x = some (h1, l1)) :
    ∀ c, c < h.length → c ∉ cs.map (·.1) → h1.deref c = h.deref c := by
  intro c clt hc
  simp only [dlist.push_back] at e
  cases hb : l.the_back with
  | none =>
    simp only [hb, Option.some.injEq, Prod.mk.injEq] at e
    rw [← e.1]
    exact Heap.deref_alloc_of_lt _ clt
  | some b =>
    simp only [hb] at e
    cases hd : (h.alloc (dlist.node.mk x none (some b))).deref b with
    | none => simp [hd] at e
    | some n =>
      simp only [hd, Option.some.injEq, Prod.mk.injEq] at e
      rw [← e.1]
      have bc : b ≠ c := fun hh => hc (hh ▸ I.back_mem hb)
      rw [Heap.deref_write_of_ne _ bc, Heap.deref_alloc_of_lt _ clt]

/-- The effect of the loop of `copy` from a chain `src` into a well-formed list that shares
no node with it: the elements of `src` are appended in order, and `src` is untouched. -/
theorem dlist.copy_loop_spec : ∀ (src : List (Nat × Int)) (h : LHeap) (self : dlist)
    (ds : List (Nat × Int)) (p : Ptr) (fuel : Nat), LSeg h p src → LInv h self ds →
    (∀ c ∈ src, c.1 ∉ ds.map (·.1)) → src.length < fuel →
    ∃ h1 self1 ds1, dlist.copy_loop fuel h self (src.head?.map (·.1)) = some (h1, self1) ∧
      LInv h1 self1 ds1 ∧ ds1.map (·.2) = ds.map (·.2) ++ src.map (·.2) ∧
      h.length ≤ h1.length ∧
      (∀ c, c < h.length → c ∉ ds.map (·.1) → h1.deref c = h.deref c) := by
  intro src
  induction src with
  | nil =>
    intro h self ds p fuel _ I _ hf
    cases fuel with
    | zero => simp at hf
    | succ f => exact ⟨h, self, ds, rfl, I, by simp, le_refl _, fun _ _ _ => rfl⟩
  | cons c src ih =>
    intro h self ds p fuel S I dis hf
    obtain ⟨a, v⟩ := c
    obtain ⟨e, S1⟩ := S
    have alt : a < h.length := Heap.deref_lt e
    have ans : a ∉ ds.map (·.1) := dis (a, v) (List.mem_cons_self _ _)
    cases fuel with
    | zero => simp at hf
    | succ f =>
      obtain ⟨h1, self1, e1, I1, len1⟩ := dlist.push_back_spec I v
      have fr1 := dlist.push_back_frame I e1
      have ea1 : h1.deref a = some ⟨v, src.head?.map (·.1), p⟩ := by rw [fr1 a alt ans, e]
      have S2 : LSeg h1 (some a) src := S1.congr_chain fun c hc =>
        fr1 c.1 (S1.cell_lt c hc) (dis c (List.mem_cons_of_mem _ hc))
      have dis1 : ∀ c ∈ src, c.1 ∉ (ds ++ [(h.length, v)]).map (·.1) := by
        intro c hc hm
        simp only [List.map_append, List.map_cons, List.map_nil, List.mem_append,
          List.mem_singleton] at hm
        rcases hm with hm | hm
        · exact dis c (List.mem_cons_of_mem _ hc) hm
        · have := S1.cell_lt c hc
          omega
      obtain ⟨h2, self2, ds2, e2, I2, ev2, len2, fr2⟩ := ih h1 self1 _ (some a) f S2 I1 dis1
        (by simpa using hf)
      refine ⟨h2, self2, ds2, ?_, I2, ?_, by omega, ?_⟩
      · simp only [List.head?_cons, Option.map_some', dlist.copy_loop, e, e1, ea1]
        exact e2
      · rw [ev2]; simp
      · intro c clt hc
        rw [fr2 c (by omega) ?_, fr1 c clt hc]
        intro hm
        simp only [List.map_append, List.map_cons, List.map_nil, List.mem_append,
          List.mem_singleton] at hm
        rcases hm with hm | hm
        · exact hc hm
        · omega

/-- The method `push_front` leaves untouched every cell that is not a node of the list. -/
theorem dlist.push_front_frame {h h1 : LHeap} {l l1 : dlist} {cs : List (Nat × Int)}
    (I : LInv h l cs) {x : Int} (e : dlist.push_front h l x = some (h1, l1)) :
    ∀ c, c < h.length → c ∉ cs.map (·.1) → h1.deref c = h.deref c := by
  intro c clt hc
  simp only [dlist.push_front] at e
  cases hf : l.the_front with
  | none =>
    simp only [hf, Option.some.injEq, Prod.mk.injEq] at e
    rw [← e.1]
    exact Heap.deref_alloc_of_lt _ clt
  | some f =>
    simp only [hf] at e
    cases hd : (h.alloc (dlist.node.mk x (some f) none)).deref f with
    | none => simp [hd] at e
    | some n =>
      simp only [hd, Option.some.injEq, Prod.mk.injEq] at e
      rw [← e.1]
      have fc : f ≠ c := fun hh => hc (hh ▸ I.front_mem hf)
      rw [Heap.deref_write_of_ne _ fc, Heap.deref_alloc_of_lt _ clt]

/-- The method `pop_back` leaves untouched every cell that is not a node of the list. -/
theorem dlist.pop_back_frame {h h1 : LHeap} {l l1 : dlist} {cs : List (Nat × Int)}
    (I : LInv h l cs) (e : dlist.pop_back h l = some (h1, l1)) :
    ∀ c, c ∉ cs.map (·.1) → h1.deref c = h.deref c := by
  intro c hc
  rcases List.eq_nil_or_concat cs with rfl | ⟨cs1, ⟨q, w⟩, rfl⟩
  · have hb : l.the_back = none := I.back
    simp [dlist.pop_back, hb] at e
  · simp only [List.concat_eq_append] at I hc
    have hb : l.the_back = some q := by simpa using I.back
    have eq := I.seg.deref_last
    have qc : q ≠ c := fun hh => hc (by rw [← hh]; simp)
    rcases List.eq_nil_or_concat cs1 with rfl | ⟨cs2, ⟨b, v⟩, rfl⟩
    · simp only [if_true] at eq
      simp only [dlist.pop_back, hb, eq, Option.some.injEq, Prod.mk.injEq] at e
      rw [← e.1]
      exact Heap.deref_free_of_ne qc
    · simp only [List.concat_eq_append] at I hc eq
      have ep : (if cs2 ++ [(b, v)] = [] then (none : Ptr)
          else (cs2 ++ [(b, v)]).getLast?.map (·.1)) = some b := by simp
      rw [ep] at eq
      obtain ⟨n, en, -⟩ := I.seg.deref_chain (b, v) (by simp)
      simp only [dlist.pop_back, hb, eq, en, Option.some.injEq, Prod.mk.injEq] at e
      rw [← e.1]
      have bc : b ≠ c := fun hh => hc (by rw [← hh]; simp)
      rw [Heap.deref_free_of_ne qc, Heap.deref_write_of_ne _ bc]

/-- The method `pop_front` leaves untouched every cell that is not a node of the list. -/
theorem dlist.pop_front_frame {h h1 : LHeap} {l l1 : dlist} {cs : List (Nat × Int)}
    (I : LInv h l cs) (e : dlist.pop_front h l = some (h1, l1)) :
    ∀ c, c ∉ cs.map (·.1) → h1.deref c = h.deref c := by
  intro c hc
  cases cs with
  | nil =>
    have hf : l.the_front = none := I.front
    simp [dlist.pop_front, hf] at e
  | cons c1 cs1 =>
    obtain ⟨q, w⟩ := c1
    have hf : l.the_front = some q := by simpa using I.front
    obtain ⟨eq, S1⟩ := I.seg
    have qc : q ≠ c := fun hh => hc (by rw [← hh]; simp)
    cases cs1 with
    | nil =>
      simp only [dlist.pop_front, hf, eq, List.head?_nil, Option.map_none',
        Option.some.injEq, Prod.mk.injEq] at e
      rw [← e.1]
      exact Heap.deref_free_of_ne qc
    | cons c2 cs2 =>
      obtain ⟨f, v⟩ := c2
      obtain ⟨ef, -⟩ := S1
      simp only [dlist.pop_front, hf, eq, List.head?_cons, Option.map_some', ef,
        Option.some.injEq, Prod.mk.injEq] at e
      rw [← e.1]
      have fc : f ≠ c := fun hh => hc (by rw [← hh]; simp)
      rw [Heap.deref_free_of_ne qc, Heap.deref_write_of_ne _ fc]

/-- The method `clear` leaves untouched every cell that is not a node of the list. -/
theorem dlist.clear_frame {h h1 : LHeap} {l l1 : dlist} {cs : List (Nat × Int)}
    (I : LInv h l cs) {fuel : Nat} (hf : cs.length < fuel)
    (e : dlist.clear fuel h l = some (h1, l1)) :
    ∀ c, c ∉ cs.map (·.1) → h1.deref c = h.deref c := by
  obtain ⟨h2, e2, -, -, fr⟩ := dlist.purge_loop_spec cs h none fuel I.seg I.nodup hf
  rw [← I.front] at e2
  simp only [dlist.clear, dlist.purge, e2, Option.some.injEq, Prod.mk.injEq] at e
  rw [← e.1]
  exact fr

/-- Each call on a well-formed list does what its model says, leaves untouched every cell
that is not a node of the list, and takes new nodes only from fresh cells. -/
theorem dlist.list_step_frame {h : LHeap} {l : dlist} {cs : List (Nat × Int)}
    (I : LInv h l cs) (op : dlist.Op) {vs : List Int}
    (hm : dlist.Op.model (cs.map (·.2)) op = some vs) {fuel : Nat} (hf : cs.length < fuel) :
    ∃ h1 l1 cs1, dlist.step fuel h l op = some (h1, l1) ∧ LInv h1 l1 cs1 ∧
      cs1.map (·.2) = vs ∧ cs1.length ≤ cs.length + 1 ∧ h.length ≤ h1.length ∧
      (∀ c ∈ cs1.map (·.1), c ∈ cs.map (·.1) ∨ h.length ≤ c) ∧
      (∀ c, c < h.length → c ∉ cs.map (·.1) → h1.deref c = h.deref c) := by
  cases op with
  | push_back x =>
    obtain ⟨h1, l1, e, I1, len⟩ := dlist.push_back_spec I x
    simp only [dlist.Op.model, Option.some.injEq] at hm
    refine ⟨h1, l1, _, e, I1, by simp [← hm], by simp, by omega, ?_,
      dlist.push_back_frame I e⟩
    intro c hc
    simp only [List.map_append, List.map_cons, List.map_nil, List.mem_append,
      List.mem_singleton] at hc
    rcases hc with hc | hc
    · exact Or.inl hc
    · exact Or.inr (by omega)
  | push_front x =>
    obtain ⟨h1, l1, e, I1, len⟩ := dlist.push_front_spec I x
    simp only [dlist.Op.model, Option.some.injEq] at hm
    refine ⟨h1, l1, _, e, I1, by simp [← hm], by simp, by omega, ?_,
      dlist.push_front_frame I e⟩
    intro c hc
    simp only [List.map_cons, List.mem_cons] at hc
    rcases hc with hc | hc
    · exact Or.inr (by omega)
    · exact Or.inl hc
  | pop_back =>
    rcases List.eq_nil_or_concat cs with rfl | ⟨cs1, ⟨q, w⟩, rfl⟩
    · simp [dlist.Op.model] at hm
    · simp only [List.concat_eq_append] at I hm ⊢
      obtain ⟨h1, l1, e, I1, len⟩ := dlist.pop_back_spec I
      simp [dlist.Op.model] at hm
      refine ⟨h1, l1, cs1, e, I1, hm, by simp only [List.length_append]; omega, by omega,
        fun c hc => Or.inl (by simp only [List.map_append, List.mem_append]; exact Or.inl hc),
        fun c _ hc => dlist.pop_back_frame I e c hc⟩
  | pop_front =>
    cases cs with
    | nil => simp [dlist.Op.model] at hm
    | cons c cs1 =>
      obtain ⟨q, w⟩ := c
      obtain ⟨h1, l1, e, I1, len⟩ := dlist.pop_front_spec I
      simp [dlist.Op.model] at hm
      refine ⟨h1, l1, cs1, e, I1, hm, by simp only [List.length_cons]; omega, by omega,
        fun c hc => Or.inl (by simp only [List.map_cons]; exact List.mem_cons_of_mem _ hc),
        fun c _ hc => dlist.pop_front_frame I e c hc⟩
  | clear =>
    obtain ⟨h1, l1, e, I1, len⟩ := dlist.list_clear_spec I hf
    simp only [dlist.Op.model, Option.some.injEq] at hm
    exact ⟨h1, l1, [], e, I1, by simp [← hm], by simp, by omega, by simp,
      fun c _ hc => dlist.clear_frame I hf e c hc⟩

/-- A sequence of calls on a well-formed list returns, does what its model says, leaves
untouched every protected cell that is not a node of the list, and never makes such a cell
a node of the list. -/
theorem dlist.list_run_frame : ∀ (ops : List dlist.Op) {h : LHeap} {l : dlist}
    {cs : List (Nat × Int)}, LInv h l cs → ∀ (prot : List Nat),
    (∀ c ∈ prot, c < h.length ∧ c ∉ cs.map (·.1)) → ∀ {vs : List Int},
    dlist.Op.models (cs.map (·.2)) ops = some vs → ∀ {fuel : Nat},
    cs.length + ops.length < fuel →
    ∃ h1 l1 cs1, dlist.run fuel h l ops = some (h1, l1) ∧ LInv h1 l1 cs1 ∧
      cs1.map (·.2) = vs ∧ cs1.length ≤ cs.length + ops.length ∧ h.length ≤ h1.length ∧
      ∀ c ∈ prot, h1.deref c = h.deref c ∧ c ∉ cs1.map (·.1) := by
  intro ops
  induction ops with
  | nil =>
    intro h l cs I prot hp vs hm fuel _
    simp only [dlist.Op.models, Option.some.injEq] at hm
    exact ⟨h, l, cs, rfl, I, hm, by simp, le_refl _, fun c hc => ⟨rfl, (hp c hc).2⟩⟩
  | cons op ops ih =>
    intro h l cs I prot hp vs hm fuel hf
    simp only [List.length_cons] at hf
    simp only [dlist.Op.models] at hm
    cases hm1 : dlist.Op.model (cs.map (·.2)) op with
    | none => simp [hm1] at hm
    | some vs1 =>
      simp only [hm1] at hm
      obtain ⟨h1, l1, cs1, e1, I1, ev1, len1, hl1, mem1, fr1⟩ :=
        dlist.list_step_frame I op hm1 (show _ < fuel by omega)
      subst ev1
      have hp1 : ∀ c ∈ prot, c < h1.length ∧ c ∉ cs1.map (·.1) := by
        intro c hc
        refine ⟨by have := (hp c hc).1; omega, fun hm => ?_⟩
        rcases mem1 c hm with hm | hm
        · exact (hp c hc).2 hm
        · have := (hp c hc).1; omega
      obtain ⟨h2, l2, cs2, e2, I2, ev2, len2, hl2, fr2⟩ := ih I1 prot hp1 hm
        (show _ < fuel by omega)
      refine ⟨h2, l2, cs2, by simp only [dlist.run, e1, e2], I2, ev2, by
        simp only [List.length_cons]; omega, by omega, fun c hc => ⟨?_, (fr2 c hc).2⟩⟩
      rw [(fr2 c hc).1, fr1 c (hp c hc).1 (hp c hc).2]

theorem LInv.transfer {h h1 : LHeap} {l : dlist} {cs : List (Nat × Int)} (I : LInv h l cs)
    (same : ∀ c ∈ cs, h1.deref c.1 = h.deref c.1) : LInv h1 l cs :=
  ⟨I.front, I.back, I.seg.congr_chain same, I.nodup, I.size⟩

/-- Copying a well-formed list into an empty list object in the same heap gives a
well-formed list with the same elements in the same order, and leaves the source as it
was. -/
theorem dlist.list_copy_into_empty {h : LHeap} {l : dlist} {cs : List (Nat × Int)}
    (I : LInv h l cs) {self : dlist} (I0 : LInv h self []) {F : Nat} (hF : cs.length < F)
    (th : THeap) :
    ∃ h1 self1 cells1, dlist.copy F h self l = some (h1, self1) ∧
      dlist.traverse F ⟨h1, th⟩ self1 = some cells1 ∧
      cells1.map (·.2) = cs.map (·.2) ∧ self1.size = l.size ∧
      dlist.traverse F ⟨h1, th⟩ l = some (cs.map fun c => (dlist.at c.1, c.2)) := by
  obtain ⟨h1, self1, ds1, e1, I1, ev1, -, fr1⟩ :=
    dlist.copy_loop_spec cs h self [] none F I.seg I0 (by simp) hF
  have hlen : ds1.length = cs.length := by
    have := congrArg List.length ev1
    simpa using this
  have IL : LInv h1 l cs := I.transfer fun c hc => fr1 c.1 (I.seg.cell_lt c hc) (by simp)
  refine ⟨h1, self1, _, by simp only [dlist.copy, I.front]; exact e1,
    dlist.list_traverse_spec I1 th (by omega), ?_, ?_, dlist.list_traverse_spec IL th hF⟩
  · rw [dlist.cells_snd, ev1]; simp
  · rw [dlist.size, dlist.size, I1.size, I.size, hlen]

/-- C15. For every `dlist` `l` (reached by any sequence of calls from the empty list), the
copy constructor and `operator=` into a different list of the same heap (whatever calls
were made on that list before) return a list with the same `size()` and the same
front-to-back elements as `l`, and the traversal of `l` itself is afterwards what it was:
the same nodes holding the same elements. -/
theorem C15_list_copy_preserves_elements (ops ops2 : List dlist.Op) (th : THeap) (F : Nat)
    (hm : dlist.Op.models [] ops ≠ none) (hm2 : dlist.Op.models [] ops2 ≠ none)
    (hF : ops.length + ops2.length < F) :
    ∃ h l cells, dlist.run F [] dlist.mk_empty ops = some (h, l) ∧
      dlist.traverse F ⟨h, th⟩ l = some cells ∧
      (∃ h1 c cells1, dlist.copy_ctor F h l = some (h1, c) ∧
        dlist.traverse F ⟨h1, th⟩ c = some cells1 ∧ cells1.map (·.2) = cells.map (·.2) ∧
        c.size = l.size ∧ dlist.traverse F ⟨h1, th⟩ l = some cells) ∧
      (∃ h2 u h3 u1 cells1, dlist.run F h dlist.mk_empty ops2 = some (h2, u) ∧
        dlist.assign F h2 u (.other l) = some (h3, u1) ∧
        dlist.traverse F ⟨h3, th⟩ u1 = some cells1 ∧ cells1.map (·.2) = cells.map (·.2) ∧
        u1.size = l.size ∧ dlist.traverse F ⟨h3, th⟩ l = some cells) := by
  cases hv : dlist.Op.models [] ops with
  | none => exact absurd hv hm
  | some vs =>
    cases hv2 : dlist.Op.models [] ops2 with
    | none => exact absurd hv2 hm2
    | some vs2 =>
      obtain ⟨h, l, cs, e, I, -, len⟩ := dlist.list_run_spec ops (dlist.mk_empty_inv []) hv
        (show _ < F by simp; omega)
      have hcs : cs.length < F := by simp at len; omega
      refine ⟨h, l, _, e, dlist.list_traverse_spec I th hcs, ?_, ?_⟩
      · obtain ⟨h1, c, cells1, e1, tr1, ev1, sz1, trl⟩ :=
          dlist.list_copy_into_empty I (dlist.mk_empty_inv h) hcs th
        exact ⟨h1, c, cells1, e1, tr1, by rw [ev1, dlist.cells_snd], sz1, trl⟩
      · obtain ⟨h2, u, ds, e2, I2, -, len2, -, fr2⟩ :=
          dlist.list_run_frame ops2 (dlist.mk_empty_inv h) (cs.map (·.1))
            (fun c hc => by
              obtain ⟨c1, hc1, rfl⟩ := List.mem_map.1 hc
              exact ⟨I.seg.cell_lt c1 hc1, by simp⟩) hv2 (show _ < F by simp; omega)
        have hds : ds.length < F := by simp at len2; omega
        obtain ⟨h3, u3, e3, I3, -⟩ := dlist.list_clear_spec I2 hds
        have fr3 := dlist.clear_frame I2 hds e3
        have IL : LInv h3 l cs := I.transfer fun c hc => by
          have hp := fr2 c.1 (List.mem_map.2 ⟨c, hc, rfl⟩)
          rw [fr3 c.1 hp.2, hp.1]
        obtain ⟨h4, u4, cells1, e4, tr4, ev4, sz4, trl⟩ :=
          dlist.list_copy_into_empty IL I3 hcs th
        refine ⟨h2, u, h4, u4, cells1, e2, ?_, tr4, by rw [ev4, dlist.cells_snd], sz4, trl⟩
        simp only [dlist.assign, e3, dlist.Ref.get]
        exact e4

/-- C15 at the list 0, 1, 2, copied and assigned to a list that held 7, 8. -/
theorem C15_list_copy_preserves_elements_witness :
    (dlist.Op.models [] [.push_back 1, .push_back 2, .push_front 0] ≠ none) ∧
    (dlist.Op.models [] [.push_back 7, .push_back 8] ≠ none) ∧
    (dlist.run 6 [] dlist.mk_empty [.push_back 1, .push_back 2, .push_front 0]).bind
        (fun p => (dlist.run 6 p.1 dlist.mk_empty [.push_back 7, .push_back 8]).bind
          (fun q => (dlist.assign 6 q.1 q.2 (.other p.2)).bind (fun r =>
            (dlist.traverse 6 ⟨r.1, []⟩ r.2).map (List.map (·.2))))) = some [0, 1, 2] ∧
    ∃ h l cells, dlist.run 6 [] dlist.mk_empty
        [.push_back 1, .push_back 2, .push_front 0] = some (h, l) ∧
      dlist.traverse 6 ⟨h, []⟩ l = some cells ∧
      (∃ h1 c cells1, dlist.copy_ctor 6 h l = some (h1, c) ∧
        dlist.traverse 6 ⟨h1, []⟩ c = some cells1 ∧ cells1.map (·.2) = cells.map (·.2) ∧
        c.size = l.size ∧ dlist.traverse 6 ⟨h1, []⟩ l = some cells) ∧
      (∃ h2 u h3 u1 cells1, dlist.run 6 h dlist.mk_empty
          [.push_back 7, .push_back 8] = some (h2, u) ∧
        dlist.assign 6 h2 u (.other l) = some (h3, u1) ∧
        dlist.traverse 6 ⟨h3, []⟩ u1 = some cells1 ∧ cells1.map (·.2) = cells.map (·.2) ∧
        u1.size = l.size ∧ dlist.traverse 6 ⟨h3, []⟩ l = some cells) :=
  ⟨by decide, by decide, by decide, C15_list_copy_preserves_elements
    [.push_back 1, .push_back 2, .push_front 0] [.push_back 7, .push_back 8] [] 6
    (by decide) (by decide) (by decide)⟩

/-! ## Lemmas: counting the queries of `finished()` -/

theorem Visitor.queries_walk_events_append {σ : Type} (V : Visitor σ) (s : σ)
    (xs ys : List (Nat × Int)) :
    Event.queries (Visitor.walk_events V s (xs ++ ys)) ≤
      Event.queries (Visitor.walk_events V s xs) +
        Event.queries (Visitor.walk_events V (Visitor.walk V s xs).1 ys) := by
  induction xs generalizing s with
  | nil => simp [Visitor.walk_events, Visitor.walk, Event.queries]
  | cons c xs ih =>
    obtain ⟨a, v⟩ := c
    by_cases fin : V.finished s = true
    · simp [Visitor.walk_events, Visitor.walk, fin, Event.queries]
    · have := ih (V.visit s v).1
      have fin1 : V.finished s = false := by simpa using fin
      rw [List.cons_append]
      simp only [Visitor.walk_events, Visitor.walk, fin1, Event.queries, Bool.false_eq_true,
        if_false]
      omega

theorem Visitor.queries_walk_events_congr {σ : Type} (V : Visitor σ) (s : σ) :
    ∀ (cs ds : List (Nat × Int)), cs.map (·.2) = ds.map (·.2) →
    Event.queries (Visitor.walk_events V s cs) =
      Event.queries (Visitor.walk_events V s ds) := by
  intro cs
  induction cs generalizing s with
  | nil =>
    intro ds e
    cases ds with
    | nil => rfl
    | cons d ds => simp at e
  | cons c cs ih =>
    intro ds e
    cases ds with
    | nil => simp at e
    | cons d ds =>
      obtain ⟨a, v⟩ := c
      obtain ⟨b, w⟩ := d
      simp only [List.map_cons, List.cons.injEq] at e
      obtain ⟨rfl, e2⟩ := e
      by_cases fin : V.finished s = true
      · simp [Visitor.walk_events, fin]
      · simp [Visitor.walk_events, fin, Event.queries, ih (V.visit s v).1 ds e2]

/-- The recursive walk of a tree queries `finished()` at least as often as the
front-to-back walk with early exit over the same nodes in in-order. -/
theorem Shape.queries_walk_le_accept {σ : Type} (V : Visitor σ) (s : σ) (sh : Shape) :
    Event.queries (Visitor.walk_events V s sh.cells) ≤
      Event.queries (Shape.accept V s sh).2.2 := by
  induction sh generalizing s with
  | nil => simp [Visitor.walk_events, Shape.cells, Shape.accept, Event.queries]
  | node l p v r ihl ihr =>
    have hA := Visitor.queries_walk_events_append V s l.cells ((p, v) :: r.cells)
    have hl := ihl s
    have e1 := (Shape.accept_eq_walk V s l).1
    rw [← e1] at hA
    simp only [Shape.cells, Shape.accept]
    by_cases fin : V.finished (Shape.accept V s l).1 = true
    · simp only [Visitor.walk_events, fin, if_true, Event.queries] at hA
      simp only [fin, if_true, List.cons_append, Event.queries, Event.queries_append]
      omega
    · have hr := ihr (V.visit (Shape.accept V s l).1 v).1
      have fin1 : V.finished (Shape.accept V s l).1 = false := by simpa using fin
      simp only [Visitor.walk_events, fin1, Event.queries, Bool.false_eq_true,
        if_false] at hA
      simp only [fin1, Bool.false_eq_true, if_false, List.cons_append, List.append_assoc,
        List.nil_append, Event.queries, Event.queries_append]
      omega

/-- C16. For every tree built by inserts from empty, every list holding the same values in
ascending order (reached by any sequence of calls from the empty list) and every visitor,
both `accept` return, and counting one step per query of `finished()`, `dlist::accept` takes
no more steps than `bstree::accept`. -/
theorem C16_list_steps_le_tree_steps {σ : Type} (V : Visitor σ) (s0 : σ) (xs : List Int)
    (ops : List dlist.Op) (F : Nat)
    (hm : dlist.Op.models [] ops = some (Finset.sort (· ≤ ·) xs.toFinset))
    (hx : xs.length < F) (ho : ops.length < F) :
    ∃ ht t h1 s1 ev hl l h2 s2 ev2, bstree.build F xs = some (ht, t) ∧
      bstree.accept V F ht t s0 = some (h1, s1, ev) ∧
      dlist.run F [] dlist.mk_empty ops = some (hl, l) ∧
      dlist.accept V F hl l s0 = some (h2, s2, ev2) ∧
      Event.queries ev2 ≤ Event.queries ev := by
  obtain ⟨ht, t, sh, e, I, so, -, mem, sz⟩ := bstree.build_spec xs (Nat.le_of_lt hx)
  obtain ⟨h1, ev, ea, -, eev, -⟩ := bstree.tree_accept_spec V I s0
    (show sh.size < F by omega)
  obtain ⟨hl, l, cs, el, IL, evs, len⟩ := dlist.list_run_spec ops (dlist.mk_empty_inv []) hm
    (show _ < F by simpa using ho)
  obtain ⟨h2, ea2, -⟩ := dlist.list_accept_spec V IL s0 (show cs.length < F by
    simp at len; omega)
  have hv : cs.map (·.2) = sh.cells.map (·.2) := by
    rw [evs]; exact (sorted_lt_eq_sort so mem).symm
  refine ⟨ht, t, h1, _, ev, hl, l, h2, _, _, e, ea, el, ea2, ?_⟩
  rw [eev, Visitor.queries_walk_events_congr V s0 cs sh.cells hv]
  exact Shape.queries_walk_le_accept V s0 sh

/-- C16 at the tree built from 50, 20, 80, 40, 10 and the list 10, 20, 40, 50, 80 with the
visitor `PZSearchingVisitor`: the list takes 3 steps, the tree 4. -/
theorem C16_list_steps_le_tree_steps_witness :
    ((bstree.build 6 [50, 20, 80, 40, 10]).bind (fun p =>
        (bstree.accept PZSearchingVisitor 6 p.1 p.2 PZSearchingVisitor.init).map
          (fun r => Event.queries r.2.2)) = some 4 ∧
      (dlist.run 6 [] dlist.mk_empty [.push_back 10, .push_back 20, .push_back 40,
        .push_back 50, .push_back 80]).bind (fun p =>
        (dlist.accept PZSearchingVisitor 6 p.1 p.2 PZSearchingVisitor.init).map
          (fun r => Event.queries r.2.2)) = some 3) ∧
    ∃ ht t h1 s1 ev hl l h2 s2 ev2, bstree.build 6 [50, 20, 80, 40, 10] = some (ht, t) ∧
      bstree.accept PZSearchingVisitor 6 ht t PZSearchingVisitor.init = some (h1, s1, ev) ∧
      dlist.run 6 [] dlist.mk_empty [.push_back 10, .push_back 20, .push_back 40,
        .push_back 50, .push_back 80] = some (hl, l) ∧
      dlist.accept PZSearchingVisitor 6 hl l PZSearchingVisitor.init = some (h2, s2, ev2) ∧
      Event.queries ev2 ≤ Event.queries ev :=
  ⟨by decide, C16_list_steps_le_tree_steps PZSearchingVisitor PZSearchingVisitor.init
    [50, 20, 80, 40, 10] [.push_back 10, .push_back 20, .push_back 40, .push_back 50,
      .push_back 80] 6
    (congrArg some (sorted_lt_eq_sort (l := [10, 20, 40, 50, 80]) (by decide) (by
      intro y
      simp only [List.mem_cons, List.mem_singleton, List.not_mem_nil, or_false]
      omega)))
    (by decide) (by decide)⟩

/-! ## Lemmas: link invariants -/

theorem TRepr.tree_node_at {h : THeap} {par : Ptr} {s : Shape} (R : TRepr h par s) {a : Nat}
    (mem : a ∈ s.addrs) :
    ∃ l v r q, h.deref a = some ⟨v, l.rootPtr, r.rootPtr, q⟩ ∧ TRepr h (some a) l ∧
      TRepr h (some a) r ∧ (∀ c ∈ l.addrs, c ∈ s.addrs) ∧ (∀ c ∈ r.addrs, c ∈ s.addrs) := by
  induction s generalizing par with
  | nil => simp at mem
  | node l p v r ihl ihr =>
    obtain ⟨e, Rl, Rr⟩ := R
    simp only [Shape.addrs_node, List.mem_append, List.mem_cons] at mem
    rcases mem with hm | rfl | hm
    · obtain ⟨l1, v1, r1, q, e1, R1, R2, s1, s2⟩ := ihl Rl hm
      exact ⟨l1, v1, r1, q, e1, R1, R2, fun c hc => by simp [s1 c hc],
        fun c hc => by simp [s2 c hc]⟩
    · exact ⟨l, v, r, par, e, Rl, Rr, fun c hc => by simp [hc], fun c hc => by simp [hc]⟩
    · obtain ⟨l1, v1, r1, q, e1, R1, R2, s1, s2⟩ := ihr Rr hm
      exact ⟨l1, v1, r1, q, e1, R1, R2, fun c hc => by simp [s1 c hc],
        fun c hc => by simp [s2 c hc]⟩

theorem TRepr.root_parent {h : THeap} {par : Ptr} {s : Shape} (R : TRepr h par s) {c : Nat}
    (hc : s.rootPtr = some c) : ∃ m, h.deref c = some m ∧ m.parent = par := by
  cases s with
  | nil => simp at hc
  | node l p v r =>
    simp only [Shape.rootPtr_node, Option.some.injEq] at hc
    subst hc
    exact ⟨_, R.1, rfl⟩

theorem TRepr.mem_of_reachable {h : THeap} {par : Ptr} {s : Shape} (R : TRepr h par s)
    {a : Nat} (hr : bstree.Reachable h s.rootPtr a) : a ∈ s.addrs := by
  generalize hp : s.rootPtr = p at hr
  induction hr with
  | root a => exact Shape.mem_addrs_of_rootPtr hp
  | @left p a c n _ ed el ih =>
    obtain ⟨l, v, r, q, e1, -, -, s1, -⟩ := R.tree_node_at (ih hp)
    rw [e1] at ed
    injection ed with ed
    subst ed
    exact s1 c (Shape.mem_addrs_of_rootPtr el)
  | @right p a c n _ ed er ih =>
    obtain ⟨l, v, r, q, e1, -, -, -, s2⟩ := R.tree_node_at (ih hp)
    rw [e1] at ed
    injection ed with ed
    subst ed
    exact s2 c (Shape.mem_addrs_of_rootPtr er)

/-- C17. After any sequence of `insert` and `clear` calls on the empty tree the calls
return, the parent of the root node is null, and every node reachable from the root is
live and is the parent of its left child and of its right child, when present. -/
theorem C17_parent_pointers_mirror_children (ops : List bstree.Op) (F : Nat)
    (hF : ops.length < F) :
    ∃ h t, bstree.run F [] bstree.mk_empty ops = some (h, t) ∧
      (∀ r, t.root = some r → ∃ n, h.deref r = some n ∧ n.parent = none) ∧
      ∀ a, bstree.Reachable h t.root a →
        ∃ n, h.deref a = some n ∧
          (∀ c, n.left = some c → ∃ m, h.deref c = some m ∧ m.parent = some a) ∧
          (∀ c, n.right = some c → ∃ m, h.deref c = some m ∧ m.parent = some a) := by
  have I0 : TInv [] bstree.mk_empty Shape.nil := ⟨rfl, trivial, by simp, rfl⟩
  obtain ⟨h, t, s, e, I, -⟩ := bstree.tree_run_spec ops I0 (show _ < F by simpa using hF)
  refine ⟨h, t, e, ?_, ?_⟩
  · intro r hr
    exact I.repr.root_parent (by rw [← I.root]; exact hr)
  · intro a ha
    rw [I.root] at ha
    obtain ⟨l, v, r, q, e1, Rl, Rr, -, -⟩ := I.repr.tree_node_at (I.repr.mem_of_reachable ha)
    exact ⟨_, e1, fun c hc => Rl.root_parent hc, fun c hc => Rr.root_parent hc⟩

/-- C17 at a sequence of calls: the root is at address 2, its left child, holding 2, at
address 3, and that cell names address 2 as parent. -/
theorem C17_parent_pointers_mirror_children_witness :
    (bstree.run 7 [] bstree.mk_empty [.insert 9, .insert 4, .clear, .insert 5, .insert 2,
        .insert 8]).map (fun p => (p.2.root, (p.1.deref 2).map (·.left),
          (p.1.deref 3).map (·.parent))) = some (some 2, some (some 3), some (some 2)) ∧
    ∃ h t, bstree.run 7 [] bstree.mk_empty [.insert 9, .insert 4, .clear, .insert 5,
        .insert 2, .insert 8] = some (h, t) ∧
      (∀ r, t.root = some r → ∃ n, h.deref r = some n ∧ n.parent = none) ∧
      ∀ a, bstree.Reachable h t.root a →
        ∃ n, h.deref a = some n ∧
          (∀ c, n.left = some c → ∃ m, h.deref c = some m ∧ m.parent = some a) ∧
          (∀ c, n.right = some c → ∃ m, h.deref c = some m ∧ m.parent = some a) :=
  ⟨by decide, C17_parent_pointers_mirror_children [.insert 9, .insert 4, .clear, .insert 5,
    .insert 2, .insert 8] 7 (by decide)⟩

/-- The fields of the node at any place of a chain. -/
theorem LSeg.chain_node_at {h : LHeap} : ∀ (pre : List (Nat × Int)) (p : Ptr) (a : Nat) (v : Int)
    (suf : List (Nat × Int)), LSeg h p (pre ++ (a, v) :: suf) →
    h.deref a = some ⟨v, suf.head?.map (·.1),
      if pre = [] then p else pre.getLast?.map (·.1)⟩ := by
  intro pre
  induction pre with
  | nil => intro p a v suf S; exact S.1
  | cons c pre ih =>
    intro p a v suf S
    obtain ⟨b, w⟩ := c
    obtain ⟨-, S1⟩ := S
    rw [ih (some b) a v suf S1]
    cases pre with
    | nil => simp
    | cons c2 pre2 => simp [List.getLast?_cons_cons]

/-- C18. After any sequence of `push_back`, `push_front`, `clear` and of `pop_back`,
`pop_front` applied only when non-empty, on the empty list: `the_front` is null iff
`the_back` is null iff `size()` is 0; the front node has `prev` null and the back node has
`next` null; and every node `a` of the list is live, its successor, when it has one, has
`prev` equal to `a`, and its predecessor, when it has one, has `next` equal to `a`. -/
theorem C18_list_links_consistent (ops : List dlist.Op) (th : THeap) (F : Nat)
    (hm : dlist.Op.models [] ops ≠ none) (hF : ops.length < F) :
    ∃ h l cells, dlist.run F [] dlist.mk_empty ops = some (h, l) ∧
      dlist.traverse F ⟨h, th⟩ l = some cells ∧
      (l.the_front = none ↔ l.the_back = none) ∧ (l.the_back = none ↔ l.size = 0) ∧
      (∀ f, l.the_front = some f → ∃ n, h.deref f = some n ∧ n.prev = none) ∧
      (∀ b, l.the_back = some b → ∃ n, h.deref b = some n ∧ n.next = none) ∧
      ∀ a v, (dlist.at a, v) ∈ cells →
        ∃ n, h.deref a = some n ∧
          (∀ b, n.next = some b → ∃ k, h.deref b = some k ∧ k.prev = some a) ∧
          (∀ b, n.prev = some b → ∃ k, h.deref b = some k ∧ k.next = some a) := by
  cases hv : dlist.Op.models [] ops with
  | none => exact absurd hv hm
  | some vs =>
    obtain ⟨h, l, cs, e, I, -, len⟩ := dlist.list_run_spec ops (dlist.mk_empty_inv []) hv
      (show _ < F by simpa using hF)
    have hcs : cs.length < F := by simp at len; omega
    refine ⟨h, l, _, e, dlist.list_traverse_spec I th hcs, ?_, ?_, ?_, ?_, ?_⟩
    · rw [I.front, I.back]
      cases cs with
      | nil => simp
      | cons c cs1 =>
        simp only [List.head?_cons, Option.map_some', false_iff]
        rw [Option.map_eq_none', List.getLast?_eq_none_iff]
        simp
    · rw [I.back, dlist.size, I.size]
      cases cs with
      | nil => simp
      | cons c cs1 =>
        rw [Option.map_eq_none', List.getLast?_eq_none_iff]
        simp
        omega
    · intro f hf
      rw [I.front] at hf
      cases cs with
      | nil => simp at hf
      | cons c cs1 =>
        obtain ⟨a, v⟩ := c
        simp only [List.head?_cons, Option.map_some', Option.some.injEq] at hf
        subst hf
        exact ⟨_, I.seg.1, rfl⟩
    · intro b hb
      rw [I.back] at hb
      rcases List.eq_nil_or_concat cs with rfl | ⟨cs1, ⟨q, w⟩, rfl⟩
      · simp at hb
      · simp only [List.concat_eq_append] at I hb
        simp only [List.getLast?_append, List.getLast?_singleton, Option.or_some,
          Option.map_some', Option.some.injEq] at hb
        subst hb
        exact ⟨_, I.seg.deref_last, rfl⟩
    · intro a v hc
      have hmem : (a, v) ∈ cs := by
        obtain ⟨c, hc1, hc2⟩ := List.mem_map.1 hc
        simp only [dlist.at, Prod.mk.injEq, Iterator.mk.injEq,
          Iterator.Impl.ListIteratorImpl.injEq, Option.some.injEq] at hc2
        obtain ⟨c1, c2⟩ := c
        simp only at hc2
        rw [← hc2.1, ← hc2.2]
        exact hc1
      obtain ⟨pre, suf, ec⟩ := List.append_of_mem hmem
      have S := I.seg
      rw [ec] at S
      refine ⟨_, LSeg.chain_node_at pre none a v suf S, ?_, ?_⟩
      · intro b hb
        cases suf with
        | nil => simp at hb
        | cons c2 suf2 =>
          obtain ⟨b1, w⟩ := c2
          simp only [List.head?_cons, Option.map_some', Option.some.injEq] at hb
          subst hb
          have S2 : LSeg h none ((pre ++ [(a, v)]) ++ (b1, w) :: suf2) := by
            simpa using S
          refine ⟨_, LSeg.chain_node_at (pre ++ [(a, v)]) none b1 w suf2 S2, ?_⟩
          simp
      · intro b hb
        rcases List.eq_nil_or_concat pre with rfl | ⟨pre1, ⟨b1, w⟩, rfl⟩
        · simp at hb
        · simp only [List.concat_eq_append] at hb S
          simp only [List.append_eq_nil, List.cons_ne_self, and_false, if_false,
            List.getLast?_append, List.getLast?_singleton, Option.or_some, Option.map_some',
            Option.some.injEq] at hb
          subst hb
          have S2 : LSeg h none (pre1 ++ (b1, w) :: ((a, v) :: suf)) := by
            simpa using S
          refine ⟨_, LSeg.chain_node_at pre1 none b1 w ((a, v) :: suf) S2, ?_⟩
          simp

/-- C18 at a sequence of calls that leaves the list 0, 1, 2. -/
theorem C18_list_links_consistent_witness :
    (dlist.Op.models [] [.push_back 1, .push_front 0, .push_back 2, .pop_back, .push_back 2,
        .push_back 3, .pop_back] ≠ none) ∧
    ∃ h l cells, dlist.run 8 [] dlist.mk_empty [.push_back 1, .push_front 0, .push_back 2,
        .pop_back, .push_back 2, .push_back 3, .pop_back] = some (h, l) ∧
      dlist.traverse 8 ⟨h, []⟩ l = some cells ∧
      (l.the_front = none ↔ l.the_back = none) ∧ (l.the_back = none ↔ l.size = 0) ∧
      (∀ f, l.the_front = some f → ∃ n, h.deref f = some n ∧ n.prev = none) ∧
      (∀ b, l.the_back = some b → ∃ n, h.deref b = some n ∧ n.next = none) ∧
      ∀ a v, (dlist.at a, v) ∈ cells →
        ∃ n, h.deref a = some n ∧
          (∀ b, n.next = some b → ∃ k, h.deref b = some k ∧ k.prev = some a) ∧
          (∀ b, n.prev = some b → ∃ k, h.deref b = some k ∧ k.next = some a) :=
  ⟨by decide, C18_list_links_consistent [.push_back 1, .push_front 0, .push_back 2,
    .pop_back, .push_back 2, .push_back 3, .pop_back] [] 8 (by decide) (by decide)⟩

/-- C19. For every `dlist` (reached by any sequence of calls from the empty list) and every
`bstree` (reached by any sequence of `insert` and `clear` calls), `operator=` with the
object itself as the source returns and leaves the container empty, whatever it held:
`size()` is 0 and `begin()` equals `end()`. -/
theorem C19_self_assignment_empties :
    (∀ (ops : List dlist.Op) (th : THeap) (F : Nat), dlist.Op.models [] ops ≠ none →
      ops.length < F →
      ∃ h l h1 l1, dlist.run F [] dlist.mk_empty ops = some (h, l) ∧
        dlist.assign F h l .this = some (h1, l1) ∧ l1.size = 0 ∧
        l1.begin.eq l1.end = true ∧ dlist.traverse F ⟨h1, th⟩ l1 = some []) ∧
    (∀ (ops : List bstree.Op) (lh : LHeap) (F : Nat), ops.length < F →
      ∃ h t h1 t1 b, bstree.run F [] bstree.mk_empty ops = some (h, t) ∧
        bstree.assign F h t .this = some (h1, t1) ∧ t1.size = 0 ∧
        bstree.begin F h1 t1 = some b ∧ b.eq t1.end = true ∧
        bstree.traverse F ⟨lh, h1⟩ t1 = some []) := by
  constructor
  · intro ops th F hm hF
    cases hv : dlist.Op.models [] ops with
    | none => exact absurd hv hm
    | some vs =>
      obtain ⟨h, l, cs, e, I, -, len⟩ := dlist.list_run_spec ops (dlist.mk_empty_inv []) hv
        (show _ < F by simpa using hF)
      obtain ⟨h1, l1, e1, I1, -⟩ := dlist.list_clear_spec I (show cs.length < F by
        simp at len; omega)
      obtain ⟨f, rfl⟩ : ∃ f, F = f + 1 := ⟨F - 1, by omega⟩
      have hfr : l1.the_front = none := I1.front
      refine ⟨h, l, h1, l1, e, ?_, by simp [dlist.size, I1.size], ?_, ?_⟩
      · simp only [dlist.assign, e1, dlist.Ref.get, dlist.copy, hfr, dlist.copy_loop]
      · simp [dlist.begin, dlist.end, hfr, Iterator.eq, Iterator.Impl.equal]
      · simpa using dlist.list_traverse_spec I1 th (show ([] : List (Nat × Int)).length < f + 1
          by simp)
  · intro ops lh F hF
    have I0 : TInv [] bstree.mk_empty Shape.nil := ⟨rfl, trivial, by simp, rfl⟩
    obtain ⟨h, t, s, e, I, sz⟩ := bstree.tree_run_spec ops I0 (show _ < F by simpa using hF)
    obtain ⟨h1, t1, e1, I1, -, -, -⟩ := bstree.tree_clear_spec I (show s.size < F by
      simp at sz; omega)
    obtain ⟨f, rfl⟩ : ∃ f, F = f + 1 := ⟨F - 1, by omega⟩
    have hr : t1.root = none := I1.root
    refine ⟨h, t, h1, t1, ⟨.TreeIteratorImpl none⟩, e, ?_, by
      simp [bstree.size, I1.size], ?_, rfl, ?_⟩
    · simp only [bstree.assign, e1, bstree.Ref.get, hr, bstree.copy]
    · simp [bstree.begin, hr, bstree.leftdown]
    · simpa using bstree.tree_traverse_spec I1 lh (show Shape.nil.size < f + 1 by simp)

/-- C19 at the list 0, 1, 2 and at the tree built from 5, 2, 8. -/
theorem C19_self_assignment_empties_witness :
    (dlist.Op.models [] [.push_back 1, .push_back 2, .push_front 0] ≠ none) ∧
    (∃ h l h1 l1, dlist.run 4 [] dlist.mk_empty
        [.push_back 1, .push_back 2, .push_front 0] = some (h, l) ∧
      dlist.assign 4 h l .this = some (h1, l1) ∧ l1.size = 0 ∧
      l1.begin.eq l1.end = true ∧ dlist.traverse 4 ⟨h1, []⟩ l1 = some []) ∧
    (∃ h t h1 t1 b, bstree.run 4 [] bstree.mk_empty
        [.insert 5, .insert 2, .insert 8] = some (h, t) ∧
      bstree.assign 4 h t .this = some (h1, t1) ∧ t1.size = 0 ∧
      bstree.begin 4 h1 t1 = some b ∧ b.eq t1.end = true ∧
      bstree.traverse 4 ⟨[], h1⟩ t1 = some []) :=
  ⟨by decide,
    C19_self_assignment_empties.1 [.push_back 1, .push_back 2, .push_front 0] [] 4
      (by decide) (by decide),
    C19_self_assignment_empties.2 [.insert 5, .insert 2, .insert 8] [] 4 (by decide)⟩

/-- C20. There are a tree built by inserts (5, then 3), a modification of an element in
place through the reference that dereferencing an iterator returns (`*t.begin() = 9`, on
the node that held 3) and a value that the traversal then produces (9, in the traversal
9, 5), such that `insert(9)` returns, `size()` goes from 2 to 3, and the traversal is then
9, 5, 9: it yields 9 twice and is not sorted. -/
theorem C20_in_place_change_breaks_order :
    (bstree.build 3 [5, 3]).bind (fun p =>
      (bstree.begin 3 p.1 p.2).bind (fun b =>
        (Iterator.assign ⟨[], p.1⟩ b 9).bind (fun m =>
          (bstree.traverse 3 m p.2).bind (fun before =>
            (bstree.insert 3 m.theap p.2 9).bind (fun q =>
              (bstree.traverse 4 ⟨[], q.1⟩ q.2).map (fun after =>
                (before.map (·.2), p.2.size, q.2.size, after.map (·.2),
                  (after.map (·.2)).count 9))))))) =
      some ([9, 5], 2, 3, [9, 5, 9], 2) ∧
    ¬ List.Sorted (· ≤ ·) ([9, 5, 9] : List Int) := by
  refine ⟨by decide, ?_⟩
  simp [List.Sorted]

end DS
